import Mathlib

/-!
# fixedIdset: a compact append-only set of 64-bit ids

A shallow embedding of `fixedidset.hpp`.  The two member vectors become two lists
of naturals; every 64-bit word operation is written with an explicit `% 2 ^ 64`.
Sizes and indices of the vectors are container indices and are computed exactly.
A function returns `none` where the source reads or writes outside a vector,
shifts by 64 or more, or would compute a block length below zero.
-/

set_option autoImplicit false

/-- The class `fixedIdset`: the block offsets `m_idOff` and the word buffer `m_idBuf`. -/
structure fixedIdset where
  m_idOff : List Nat
  m_idBuf : List Nat
deriving DecidableEq, Repr

/-- What a call of `push` or of the range constructor does: it returns and leaves the
object in state `s`, it throws `std::invalid_argument` and leaves the object in state `s`,
or its behaviour is undefined. -/
inductive Outcome where
  | returned (s : fixedIdset)
  | invalid_argument (s : fixedIdset)
  | undefined
deriving DecidableEq, Repr

/-- What a call of `getIds` does: it returns and leaves the ids `v` in the vector, it throws
`std::length_error` (from `v.reserve` or `v.push_back`), or its behaviour is undefined. -/
inductive IdsOutcome where
  | returned (v : List Nat)
  | length_error
  | undefined
deriving DecidableEq, Repr

namespace fixedIdset

/-- The default constructor: both vectors empty. -/
def default : fixedIdset := ⟨[], []⟩

/-- Member `kthBitU64`: `(uint64_t)(1) << off`, defined for `off < 64`. -/
def kthBitU64 (off : Nat) : Option Nat :=
  if off < 64 then some (1 <<< off) else none

/-- The call `std::vector::resize(n)`: truncate, or pad with zero words. -/
def resize (v : List Nat) (n : Nat) : List Nat :=
  v.take n ++ List.replicate (n - v.length) 0

/-- Member `count`. -/
def count (s : fixedIdset) : Nat :=
  match s.m_idBuf with
  | [] => 0
  | c :: _ => c

/-- Member `empty`. -/
def empty (s : fixedIdset) : Bool := s.m_idBuf.isEmpty

/-- The loop of `countFullMask`: `n` iterations remain and `fullCount` (which equals the
loop index `i`) words were counted; `*(m_idBuf.rbegin() + i)` is the word at
`size - 1 - i`. -/
def countFullMaskLoop (buf : List Nat) : Nat → Nat → Option Nat
  | 0, fullCount => some fullCount
  | n + 1, fullCount =>
    if fullCount < buf.length then
      match buf[buf.length - 1 - fullCount]? with
      | none => none
      | some w =>
        if w ≠ 2 ^ 64 - 1 then some fullCount
        else countFullMaskLoop buf n (fullCount + 1)
    else none

/-- Member `countFullMask`. -/
def countFullMask (s : fixedIdset) (bufSize : Nat) : Option Nat :=
  countFullMaskLoop s.m_idBuf bufSize 0

/-- The statement `m_idBuf[idx] |= mask`. -/
def orAt (buf : List Nat) (idx mask : Nat) : Option (List Nat) :=
  match buf[idx]? with
  | none => none
  | some w => some (buf.set idx (w ||| mask))

/-- The tail of `innPush` shared by its three cases: append a new single id block. -/
def pushNewBlock (off buf : List Nat) (id : Nat) : fixedIdset :=
  ⟨off ++ [buf.length], buf ++ [id]⟩

/-- Member `innPush`. -/
def innPush (s : fixedIdset) (id : Nat) : Option fixedIdset := do
  let c ← s.m_idBuf[0]?
  let buf := s.m_idBuf.set 0 ((c + 1) % 2 ^ 64)
  let off := s.m_idOff
  let last ← off.getLast?
  let first ← buf[last]?
  let idDiff := (id + (2 ^ 64 - first)) % 2 ^ 64
  let bufSize := buf.length - last - 1
  match bufSize with
  | 0 =>
    if idDiff < 64 then do
      let k0 ← kthBitU64 0
      let k ← kthBitU64 idDiff
      some ⟨off, buf ++ [k0 ||| k]⟩
    else if idDiff < 128 then do
      let k0 ← kthBitU64 0
      let k ← kthBitU64 (idDiff - 64)
      some ⟨off, buf ++ [k0, k]⟩
    else
      some (pushNewBlock off buf id)
  | 1 => do
    let idOff1Val ← buf[last + 1]?
    if idOff1Val &&& 1 ≠ 0 then
      if idDiff < 192 then do
        let buf1 := if idDiff ≥ 1 * 64 then resize buf ((buf.length - 1) + (1 + idDiff / 64)) else buf
        let k ← kthBitU64 (idDiff % 64)
        let buf2 ← orAt buf1 (last + 1 + idDiff / 64) k
        some ⟨off, buf2⟩
      else
        some (pushNewBlock off buf id)
    else if idDiff = idOff1Val / 2 then
      some ⟨off, buf.set (last + 1) ((idOff1Val + 2) % 2 ^ 64)⟩
    else
      some (pushNewBlock off buf id)
  | _ =>
    if (idDiff + 1) % 2 ^ 64 = (bufSize * 64) % 2 ^ 64 ∧ bufSize ≥ 4 then do
      let k ← kthBitU64 63
      let buf1 ← orAt buf (buf.length - 1) k
      let fullCount ← countFullMask ⟨off, buf1⟩ bufSize
      if fullCount ≥ 4 then
        let buf2 := resize buf1 (buf1.length - fullCount)
        if fullCount = bufSize then
          some ⟨off, buf2 ++ [((fullCount * 64) * 2) % 2 ^ 64]⟩
        else do
          let firstId ← buf2[last]?
          some ⟨off ++ [buf2.length],
            buf2 ++ [(firstId + ((bufSize - fullCount) * 64) % 2 ^ 64) % 2 ^ 64,
                     ((fullCount * 64) * 2) % 2 ^ 64]⟩
      else
        some ⟨off, buf1⟩
    else if idDiff < ((bufSize + 2) * 64) % 2 ^ 64 then do
      let buf1 := if idDiff ≥ (bufSize * 64) % 2 ^ 64
        then resize buf ((buf.length - bufSize) + (1 + idDiff / 64)) else buf
      let k ← kthBitU64 (idDiff % 64)
      let buf2 ← orAt buf1 (last + 1 + idDiff / 64) k
      some ⟨off, buf2⟩
    else
      some (pushNewBlock off buf id)

/-- Member `push`. -/
def push (s : fixedIdset) (id : Nat) : Outcome :=
  if s.empty then
    .returned ⟨s.m_idOff ++ [1], [1, id]⟩
  else
    match s.m_idOff.getLast? with
    | none => .undefined
    | some last =>
      match s.m_idBuf[last]? with
      | none => .undefined
      | some first =>
        if first ≥ id then .invalid_argument s
        else
          match innPush s id with
          | none => .undefined
          | some s1 => .returned s1

/-- The block length computed by the lambda in `hasId` and in `innGetBlockIds`. -/
def blockBufCount (s : fixedIdset) (idIndex : Nat) : Option Nat :=
  if idIndex + 1 < s.m_idOff.length then do
    let a ← s.m_idOff[idIndex + 1]?
    let b ← s.m_idOff[idIndex]?
    if b + 1 ≤ a then some (a - b - 1) else none
  else do
    let last ← s.m_idOff.getLast?
    if last + 1 ≤ s.m_idBuf.length then some (s.m_idBuf.length - last - 1) else none

/-- One step of the bitmask loop of `innGetBlockIds`. -/
def maskStep (s : fixedIdset) (start firstId : Nat) (v : List Nat) (i : Nat) :
    Option (List Nat) := do
  let w ← s.m_idBuf[start + 1 + i / 64]?
  let k ← kthBitU64 (i % 64)
  if w &&& k ≠ 0 then some (v ++ [(firstId + i) % 2 ^ 64]) else some v

/-- Member `innGetBlockIds`: the ids of block `idIndex` appended to `v`. -/
def innGetBlockIds (s : fixedIdset) (v : List Nat) (idIndex : Nat) : Option (List Nat) := do
  let bufCount ← blockBufCount s idIndex
  let start ← s.m_idOff[idIndex]?
  if bufCount = 0 then do
    let x ← s.m_idBuf[start]?
    some (v ++ [x])
  else do
    let firstId ← s.m_idBuf[start]?
    let idOff1Val ← s.m_idBuf[start + 1]?
    if ¬ (idOff1Val &&& 1 ≠ 0) then
      some (v ++ (List.range (idOff1Val / 2)).map (fun i => (firstId + i) % 2 ^ 64))
    else
      (List.range ((bufCount * 64) % 2 ^ 64)).foldlM (maskStep s start firstId) v

/-- The value of `std::vector<uint64_t>::max_size()`, the largest number of elements a
vector of 64-bit words can hold: `PTRDIFF_MAX / sizeof(uint64_t)`, that is 2^60 - 1, with
the GNU C++ library on a 64-bit target (the compiler the source names; no 64-bit
implementation allows 2^61 elements or more). -/
def max_size : Nat := 2 ^ 60 - 1

/-- The loop of `getIds`: `innGetBlockIds(v, i)` for every block `i`, starting from the
cleared vector. -/
def getIdsLoop (s : fixedIdset) : Option (List Nat) :=
  (List.range s.m_idOff.length).foldlM (innGetBlockIds s) []

/-- Member `getIds`: `v.clear()` empties the vector, `v.reserve(count())` throws
`std::length_error` when `count()` exceeds `max_size()`, and then the loop fills the vector.
A `push_back` of the loop throws the same `std::length_error` when the vector would exceed
`max_size()`; the vector only grows, so this happens exactly when the ids of all the blocks
are more than `max_size()`. -/
def getIds (s : fixedIdset) : IdsOutcome :=
  if count s > max_size then .length_error
  else
    match getIdsLoop s with
    | none => .undefined
    | some v => if v.length > max_size then .length_error else .returned v

/-- The call `std::upper_bound(m_idOff.begin(), m_idOff.end(), id, comp)` of `hasId`, as the
halving search over the `len` offsets from index `first` on; the comparison is
`id < m_idBuf[off]`.  The first argument bounds the number of halvings. -/
def upperBound (s : fixedIdset) (id : Nat) : Nat → Nat → Nat → Option Nat
  | 0, first, len => if len = 0 then some first else none
  | fuel + 1, first, len =>
    if len = 0 then some first
    else
      let half := len / 2
      let middle := first + half
      match s.m_idOff[middle]? with
      | none => none
      | some off =>
        match s.m_idBuf[off]? with
        | none => none
        | some x =>
          if id < x then upperBound s id fuel first half
          else upperBound s id fuel (middle + 1) (len - half - 1)

/-- Member `hasId`. -/
def hasId (s : fixedIdset) (id : Nat) : Option Bool := do
  let p ← upperBound s id s.m_idOff.length 0 s.m_idOff.length
  if p = 0 then some false
  else do
    let idIndex := p - 1
    let bufCount ← blockBufCount s idIndex
    let start ← s.m_idOff[idIndex]?
    if bufCount = 0 then do
      let x ← s.m_idBuf[start]?
      some (decide (x = id))
    else do
      let firstId ← s.m_idBuf[start]?
      let idOff1Val ← s.m_idBuf[start + 1]?
      if ¬ (idOff1Val &&& 1 ≠ 0) then
        some (decide (id ≥ firstId ∧ id < (firstId + idOff1Val / 2) % 2 ^ 64))
      else do
        let idDiff := (id + (2 ^ 64 - firstId)) % 2 ^ 64
        if idDiff < (bufCount * 64) % 2 ^ 64 then do
          let w ← s.m_idBuf[start + 1 + idDiff / 64]?
          let k ← kthBitU64 (idDiff % 64)
          some (decide (w &&& k ≠ 0))
        else some false

/-- The range constructor `fixedIdset(ibegin, iend)` on the ids of the range: `push` for the
first id, `innPush` for each further one. -/
def ofRange (ids : List Nat) : Outcome :=
  match ids with
  | [] => .undefined
  | id :: rest =>
    match push default id with
    | .returned s =>
      match rest.foldlM innPush s with
      | none => .undefined
      | some s1 => .returned s1
    | o => o

/-- A caller that calls `push` for each id in turn and stops at the first call that does
not return. -/
def pushAll (s : fixedIdset) : List Nat → Outcome
  | [] => .returned s
  | id :: rest =>
    match push s id with
    | .returned s1 => pushAll s1 rest
    | o => o

end fixedIdset

open fixedIdset

/-! ## The buffer seen as a list of blocks -/

/-- A block: its first id and its tail words. -/
abbrev Block := Nat × List Nat

/-- The words of a list of blocks, block after block. -/
def flat : List Block → List Nat
  | [] => []
  | b :: bs => b.1 :: (b.2 ++ flat bs)

/-- The offsets of the blocks when the first block starts at `start`. -/
def offsets : Nat → List Block → List Nat
  | _, [] => []
  | start, b :: bs => start :: offsets (start + 1 + b.2.length) bs

/-- The object whose count word is `c` and whose blocks are `bs`. -/
def ofBlocks (c : Nat) (bs : List Block) : fixedIdset := ⟨offsets 1 bs, c :: flat bs⟩

/-- The word operation `t[j] |= k` on a tail. -/
def orWord (t : List Nat) (j k : Nat) : List Nat := t.set j (t.getD j 0 ||| k)

/-- Set bit `d` of a tail: bit `d % 64` of word `d / 64`. -/
def setBit (t : List Nat) (d : Nat) : List Nat := orWord t (d / 64) (1 <<< (d % 64))

/-- The number of trailing words of a tail that are all ones. -/
def fullCountOf (t : List Nat) : Nat := (t.reverse.takeWhile (fun w => w = 2 ^ 64 - 1)).length

/-- The growth step of `innPush` on the last block `(f, t)`: the blocks that replace it. -/
def grow (f : Nat) (t : List Nat) (id : Nat) : List Block :=
  let d := (id + (2 ^ 64 - f)) % 2 ^ 64
  match t with
  | [] =>
    if d < 64 then [(f, [1 ||| 1 <<< d])]
    else if d < 128 then [(f, [1, 1 <<< (d - 64)])]
    else [(f, []), (id, [])]
  | [w] =>
    if w &&& 1 ≠ 0 then
      if d < 192 then [(f, setBit (if d ≥ 64 then resize [w] (1 + d / 64) else [w]) d)]
      else [(f, [w]), (id, [])]
    else if d = w / 2 then [(f, [(w + 2) % 2 ^ 64])]
    else [(f, [w]), (id, [])]
  | w :: w1 :: r =>
    let t := w :: w1 :: r
    let B := t.length
    if (d + 1) % 2 ^ 64 = (B * 64) % 2 ^ 64 ∧ B ≥ 4 then
      let t1 := orWord t (B - 1) (1 <<< 63)
      let fc := fullCountOf t1
      if fc ≥ 4 then
        if fc = B then [(f, [((fc * 64) * 2) % 2 ^ 64])]
        else [(f, t1.take (B - fc)),
              ((f + ((B - fc) * 64) % 2 ^ 64) % 2 ^ 64, [((fc * 64) * 2) % 2 ^ 64])]
      else [(f, t1)]
    else if d < ((B + 2) * 64) % 2 ^ 64 then
      [(f, setBit (if d ≥ (B * 64) % 2 ^ 64 then resize t (1 + d / 64) else t) d)]
    else [(f, t), (id, [])]

/-! ## Decoding blocks -/

/-- Bit `i` of a tail, as the source tests it: `t[i / 64] & kthBitU64(i % 64)`. -/
def bitAt (t : List Nat) (i : Nat) : Bool :=
  decide (t.getD (i / 64) 0 &&& 1 <<< (i % 64) ≠ 0)

/-- The positions of the set bits of a bitmask tail, in the order of the decoding loop. -/
def bits (t : List Nat) : List Nat :=
  (List.range ((t.length * 64) % 2 ^ 64)).filter (bitAt t)

/-- The ids that `innGetBlockIds` emits for a block. -/
def decode (b : Block) : List Nat :=
  match b.2 with
  | [] => [b.1]
  | w :: _ =>
    if w &&& 1 ≠ 0 then (bits b.2).map (fun i => (b.1 + i) % 2 ^ 64)
    else (List.range (w / 2)).map (fun i => (b.1 + i) % 2 ^ 64)

/-- The ids of a list of blocks. -/
def decodeAll : List Block → List Nat
  | [] => []
  | b :: bs => decode b ++ decodeAll bs

/-! ## Invariants of the blocks -/

/-- A well-formed block: its first id is a 64-bit word, and its tail is empty (single id),
one even word `2 * count` with `count ≥ 1` whose run stays within the 64-bit ids, or a
bitmask with an odd first word, fewer than 2^58 words and no set bit beyond the 64-bit ids. -/
def BlockOK (b : Block) : Prop :=
  b.1 < 2 ^ 64 ∧
  match b.2 with
  | [] => True
  | w :: r =>
    if w &&& 1 ≠ 0 then r.length + 1 < 2 ^ 58 ∧ ∀ i ∈ bits (w :: r), b.1 + i < 2 ^ 64
    else r = [] ∧ 1 ≤ w / 2 ∧ b.1 + w / 2 ≤ 2 ^ 64

/-- What holds of the last block when `m` is the largest id pushed: no id of the block is
above `m`, and the bit of `m` lies in the last word of a bitmask tail. -/
def LastOK (b : Block) (m : Nat) : Prop :=
  b.1 ≤ m ∧ (∀ x ∈ decode b, x ≤ m) ∧
  match b.2 with
  | [] => True
  | w :: r => w &&& 1 ≠ 0 → (m - b.1) / 64 + 1 = r.length + 1

/-- The invariant of the states built by pushing the strictly ascending ids `seq`. -/
def Built (bs : List Block) (seq : List Nat) : Prop :=
  (∀ b ∈ bs, BlockOK b) ∧ decodeAll bs = seq ∧
  ∃ bs0 b m, bs = bs0 ++ [b] ∧ seq.getLast? = some m ∧ LastOK b m

/-- A bitmask tail: at least one word, the first one odd. -/
def IsMask (t : List Nat) : Prop := ∃ w r, t = w :: r ∧ w &&& 1 ≠ 0

/-- The blocks `g` correctly replace the last block `old` when `id` is pushed: they decode
to the ids of `old` followed by `id`, are well formed, and the last of them is a valid last
block for the largest id `id`. -/
def GrowOK (g : List Block) (old : Block) (id : Nat) : Prop :=
  ∃ g0 b, g = g0 ++ [b] ∧ decodeAll g = decode old ++ [id] ∧ (∀ c ∈ g, BlockOK c) ∧ LastOK b id

/-- The membership test that `hasId` performs on the block it selected. -/
def blockHas (b : Block) (id : Nat) : Bool :=
  match b.2 with
  | [] => decide (b.1 = id)
  | w :: _ =>
    if ¬ (w &&& 1 ≠ 0) then decide (id ≥ b.1 ∧ id < (b.1 + w / 2) % 2 ^ 64)
    else if (id + (2 ^ 64 - b.1)) % 2 ^ 64 < (b.2.length * 64) % 2 ^ 64
      then bitAt b.2 ((id + (2 ^ 64 - b.1)) % 2 ^ 64)
      else false

/-- The first id of block `j` (0 when there is no such block). -/
def firstAt (bs : List Block) (j : Nat) : Nat := (bs.getD j (0, [])).1

/-! ## Reachable states -/

/-- The state `s` is reached from the empty set by `n` calls of `push` on 64-bit ids that all
returned without raising. -/
def Reachable (s : fixedIdset) (n : Nat) : Prop :=
  ∃ ids : List Nat, ids.length = n ∧ (∀ x ∈ ids, x < 2 ^ 64) ∧
    pushAll fixedIdset.default ids = .returned s

/-- The shape of the blocks after `n` successful pushes: every tail of two or more words is
a bitmask tail, every tail has fewer than 2^58 words, and the buffer and the offsets are
bounded by the number of pushes. -/
def ShapeOK (n : Nat) (bs : List Block) : Prop :=
  bs ≠ [] ∧ (∀ b ∈ bs, 2 ≤ b.2.length → IsMask b.2) ∧ (∀ b ∈ bs, b.2.length < 2 ^ 58) ∧
  (flat bs).length + 1 ≤ 2 * n ∧ bs.length ≤ n

/-- The first ids of the blocks increase strictly from block to block. -/
def FirstsOK (bs : List Block) : Prop := (bs.map Prod.fst).Pairwise (· < ·)

/-! ## Invariants of ascending pushes -/

/-- What holds of the last block `(f, t)` when `m` is the largest id pushed: the block starts
at or below `m`, and when its tail is a bitmask the bit of `m` is set and lies in the last
word. -/
def LastBit (f : Nat) (t : List Nat) (m : Nat) : Prop :=
  f ≤ m ∧ (IsMask t → bitAt t (m - f) = true ∧ (m - f) / 64 + 1 = t.length)

/-- A bitmask block whose last tail word is zero is directly followed by a run block that
starts at `first_id + tailLen * 64`. -/
def TrailOK (bs : List Block) : Prop :=
  ∀ i b, bs[i]? = some b → IsMask b.2 → b.2.getLast? = some 0 →
    ∃ b1 w, bs[i + 1]? = some b1 ∧ b1.1 = b.1 + b.2.length * 64 ∧ b1.2 = [w] ∧ w &&& 1 = 0

/-- The invariant of the blocks after strictly ascending pushes whose largest id is `m`. -/
def AscOK (m : Nat) (bs : List Block) : Prop :=
  (∀ b ∈ bs, (2 ≤ b.2.length → IsMask b.2) ∧ b.2.length < 2 ^ 58) ∧ TrailOK bs ∧
  ∀ b, bs.getLast? = some b → LastBit b.1 b.2 m

/-- After `n` successful pushes every run word holds a count between 256 and `n`, and a
bitmask tail of the last block has at most `n` bits set. -/
def RunsOK (n : Nat) (bs : List Block) : Prop :=
  (∀ b ∈ bs, ∀ w, b.2 = [w] → w &&& 1 = 0 → 256 ≤ w / 2 ∧ w / 2 ≤ n) ∧
  ∀ b, bs.getLast? = some b → IsMask b.2 → (bits b.2).length ≤ n

/-! ## The type in which each block is written -/

/-- The three types of id block that the comment at the top of the class names: single id
block `[singleId]`, continuous id block `[firstId, idCount * 2]`, and bitmask id block
`[firstId, 1 | bitmask_1, bitmask_2 ...]`. -/
inductive BlockType where
  | single
  | continuous
  | bitmask
deriving DecidableEq, Repr

/-- The types of the blocks `grow f t id` that `innPush` leaves in place of the last block,
whose type was `k`, branch by branch as for `grow`: case 0 converts a single id block to a
bitmask block (one or two words) or adds a single id block; setting a bit or incrementing
the count keeps the type of the block; compaction turns the block into a continuous block
when all its words are full, and otherwise adds a continuous block behind it; every other
branch adds a single id block. -/
def growTypes (k : BlockType) (f : Nat) (t : List Nat) (id : Nat) : List BlockType :=
  let d := (id + (2 ^ 64 - f)) % 2 ^ 64
  match t with
  | [] =>
    if d < 64 then [.bitmask]
    else if d < 128 then [.bitmask]
    else [k, .single]
  | [w] =>
    if w &&& 1 ≠ 0 then
      if d < 192 then [k]
      else [k, .single]
    else if d = w / 2 then [k]
    else [k, .single]
  | w :: w1 :: r =>
    let t := w :: w1 :: r
    let B := t.length
    if (d + 1) % 2 ^ 64 = (B * 64) % 2 ^ 64 ∧ B ≥ 4 then
      let fc := fullCountOf (orWord t (B - 1) (1 <<< 63))
      if fc ≥ 4 then
        if fc = B then [.continuous]
        else [k, .continuous]
      else [k]
    else if d < ((B + 2) * 64) % 2 ^ 64 then [k]
    else [k, .single]

/-- One accepted `push(id)` on the blocks together with the type in which each was written:
on the empty set `push` writes one single id block, otherwise the last block is replaced as
`innPush` does. -/
def pushTyped (tb : List (Block × BlockType)) (id : Nat) : List (Block × BlockType) :=
  match tb.getLast? with
  | none => [((id, []), .single)]
  | some ((f, t), k) => tb.dropLast ++ (grow f t id).zip (growTypes k f t id)

/-- The blocks written by the accepted pushes `ids`, each with the type in which `innPush`
wrote it. -/
def written (ids : List Nat) : List (Block × BlockType) := ids.foldl pushTyped []

/-- The tail `t` has the layout of a block of type `k`: no tail word for a single id block,
one even word for a continuous block, and an odd first word for a bitmask block. -/
def Fits (t : List Nat) (k : BlockType) : Prop :=
  match k with
  | .single => t = []
  | .continuous => ∃ w, t = [w] ∧ w &&& 1 = 0
  | .bitmask => IsMask t

/-! ## Framing lemmas

`innPush` only touches the count word and the last block; `getIds` and `hasId` read the
blocks one by one. -/

theorem flat_append (as bs : List Block) : flat (as ++ bs) = flat as ++ flat bs := by
  induction as with
  | nil => rfl
  | cons a as ih => simp [flat, ih]

theorem flat_single (f : Nat) (t : List Nat) : flat [(f, t)] = f :: t := by
  simp [flat]

theorem flat_pair (f : Nat) (t : List Nat) (g : Nat) (u : List Nat) :
    flat [(f, t), (g, u)] = f :: t ++ g :: u := by
  simp [flat]

theorem offsets_append (as bs : List Block) (start : Nat) :
    offsets start (as ++ bs) = offsets start as ++ offsets (start + (flat as).length) bs := by
  induction as generalizing start with
  | nil => simp [offsets, flat]
  | cons a as ih =>
    have h : start + 1 + a.2.length + (flat as).length
        = start + (a.2.length + (flat as).length + 1) := by omega
    simp [offsets, flat, ih, h]

theorem offsets_length (bs : List Block) (start : Nat) : (offsets start bs).length = bs.length := by
  induction bs generalizing start with
  | nil => rfl
  | cons a as ih => simp [offsets, ih]

theorem orAt_append_right (H t : List Nat) (j k : Nat) (hj : j < t.length) :
    orAt (H ++ t) (H.length + j) k = some (H ++ orWord t j k) := by
  unfold orAt orWord
  rw [List.getElem?_append_right (by omega)]
  simp only [Nat.add_sub_cancel_left]
  rw [List.getElem?_eq_getElem hj]
  simp only
  rw [List.set_append_right _ _ (by omega)]
  simp [List.getD_eq_getElem?_getD, List.getElem?_eq_getElem hj]

theorem resize_append_right (H t : List Nat) (n : Nat) :
    resize (H ++ t) (H.length + n) = H ++ resize t n := by
  unfold resize
  rw [List.take_append]
  have h : H.length + n - (H.length + t.length) = n - t.length := by omega
  simp [h]

theorem kthBitU64_lt {k : Nat} (h : k < 64) : kthBitU64 k = some (1 <<< k) := by
  simp [kthBitU64, h]

theorem kthBitU64_zero : kthBitU64 0 = some 1 := rfl

theorem resize_length (v : List Nat) (n : Nat) : (resize v n).length = n := by
  simp [resize]; omega

theorem resize_of_le (v : List Nat) (n : Nat) (h : n ≤ v.length) : resize v n = v.take n := by
  simp [resize, Nat.sub_eq_zero_of_le h]

theorem countFullMaskLoop_append (G t : List Nat) (n : Nat) :
    ∀ i, i + n ≤ t.length → countFullMaskLoop (G ++ t) n i
      = some (i + (((t.reverse.drop i).take n).takeWhile (fun w => w = 2 ^ 64 - 1)).length) := by
  induction n with
  | zero => intro i _; simp [countFullMaskLoop]
  | succ n ih =>
    intro i hi
    have hlt : i < t.reverse.length := by simp; omega
    have hget : (G ++ t)[(G ++ t).length - 1 - i]? = some (t.reverse[i]) := by
      have hlen : (G ++ t).length - 1 - i = G.length + (t.length - 1 - i) := by
        simp only [List.length_append]; omega
      rw [hlen, List.getElem?_append_right (by omega), Nat.add_sub_cancel_left,
        List.getElem?_eq_getElem (by omega), List.getElem_reverse]
    rw [countFullMaskLoop, if_pos (by simp; omega), hget]
    simp only
    rw [List.drop_eq_getElem_cons hlt, List.take_succ_cons, List.takeWhile_cons]
    by_cases hx : t.reverse[i] = 2 ^ 64 - 1
    · rw [if_neg (by simpa using hx), ih (i + 1) (by omega)]
      simp [hx]; omega
    · rw [if_pos hx]
      rw [List.getElem_reverse] at hx
      simpa using hx

theorem countFullMask_append (O G t : List Nat) :
    countFullMask ⟨O, G ++ t⟩ t.length = some (fullCountOf t) := by
  unfold countFullMask fullCountOf
  rw [countFullMaskLoop_append G t t.length 0 (by omega)]
  simp [List.take_of_length_le]

theorem countFullMask_append' (O G t : List Nat) (B : Nat) (h : t.length = B) :
    countFullMask ⟨O, G ++ t⟩ B = some (fullCountOf t) := by
  subst h; exact countFullMask_append O G t

theorem orWord_length (t : List Nat) (j k : Nat) : (orWord t j k).length = t.length := by
  simp [orWord]

theorem fullCountOf_le (t : List Nat) : fullCountOf t ≤ t.length := by
  unfold fullCountOf
  calc _ ≤ t.reverse.length := (List.takeWhile_sublist _).length_le
    _ = t.length := List.length_reverse t

theorem ext_step (O G t : List Nat) (d idx : Nat) (hj : d / 64 < t.length)
    (hidx : idx = G.length + d / 64) :
    ((kthBitU64 (d % 64)).bind fun a =>
      (orAt (G ++ t) idx a).bind fun b => some (fixedIdset.mk O b))
      = some ⟨O, G ++ setBit t d⟩ := by
  rw [kthBitU64_lt (Nat.mod_lt _ (by norm_num)), hidx]
  simp [orAt_append_right G t _ _ hj, setBit]

/-- On a buffer that ends with the block `f :: t`, whose offset is the last one, `innPush`
never leaves the vectors and replaces that block by the blocks `grow f t id`. -/
theorem innPush_frame (O H t : List Nat) (c f id : Nat) :
    innPush ⟨O ++ [H.length + 1], c :: (H ++ f :: t)⟩ id
      = some ⟨O ++ offsets (H.length + 1) (grow f t id),
              (((c + 1) % 2 ^ 64) :: H) ++ flat (grow f t id)⟩ := by
  unfold innPush
  have h1 : ∀ X : List Nat, (H ++ f :: X)[H.length]? = some f := by
    intro X
    rw [List.getElem?_append_right (by omega)]
    simp
  have h2 : H.length + (t.length + 1) + 1 - (H.length + 1) - 1 = t.length := by omega
  simp only [List.cons_append, List.getElem?_cons_zero, Option.bind_eq_bind, Option.some_bind,
    List.set_cons_zero, List.getLast?_append, List.getLast?_singleton, Option.or_some,
    List.getElem?_cons_succ, List.length_cons, List.length_append, List.length_singleton,
    Option.or, h1, h2]
  generalize hd : (id + (2 ^ 64 - f)) % 2 ^ 64 = d
  generalize hG : (c + 1) % 2 ^ 64 :: (H ++ [f]) = G
  have e : ∀ X : List Nat, (c + 1) % 2 ^ 64 :: (H ++ f :: X) = G ++ X := by
    intro X; simp [← hG]
  have hGl : G.length = H.length + 2 := by simp [← hG]
  match t with
  | [] =>
    simp only [List.length_nil, grow, hd]
    split_ifs with h64 h128
    · simp [kthBitU64_lt h64, kthBitU64_zero, offsets, flat]
    · simp [kthBitU64_lt (show d - 64 < 64 by omega), kthBitU64_zero, offsets, flat]
    · simp [offsets, flat, pushNewBlock]
  | [w] =>
    have h3 : (H ++ [f, w])[H.length + 1]? = some w := by
      rw [List.getElem?_append_right (by omega)]
      simp
    simp only [List.length_singleton, grow, hd, h3, Option.some_bind]
    split_ifs with hodd h192 h64 h64
    · rw [e [w], show H.length + (1 + 1) + 1 - 1 + (1 + d / 64) = G.length + (1 + d / 64) by omega,
        resize_append_right, ext_step (O ++ [H.length + 1]) G (resize [w] (1 + d / 64)) d _
          (by rw [resize_length]; omega) (by omega)]
      simp [offsets, flat, ← hG]
    · rw [e [w], ext_step (O ++ [H.length + 1]) G [w] d _ (by simp; omega) (by omega)]
      simp [offsets, flat, ← hG]
    · simp [offsets, flat, pushNewBlock]
    · rw [e [w], show H.length + 1 + 1 = G.length + 0 by omega, List.set_append_right _ _ (by omega)]
      simp [offsets, flat, ← hG]
    · simp [offsets, flat, pushNewBlock]
  | w :: w1 :: r =>
    simp only [List.length_cons, grow, hd]
    generalize hB : r.length + 1 + 1 = B
    have hBt : (w :: w1 :: r).length = B := by simp [← hB]
    generalize w :: w1 :: r = t' at hBt ⊢
    have hGf : ∀ X : List Nat, (G ++ X)[H.length + 1]? = some f := by
      intro X
      rw [List.getElem?_append_left (by omega), ← hG]
      simp
    by_cases htrig : (d + 1) % 2 ^ 64 = B * 64 % 2 ^ 64 ∧ B ≥ 4
    · simp only [if_pos htrig]
      have hfc := fullCountOf_le (orWord t' (B - 1) (1 <<< 63))
      have hl1 : (orWord t' (B - 1) (1 <<< 63)).length = B := by rw [orWord_length, hBt]
      rw [hl1] at hfc
      rw [kthBitU64_lt (by norm_num), e t',
        show H.length + (B + 1) + 1 - 1 = G.length + (B - 1) by omega]
      simp only [Option.some_bind, orAt_append_right G t' (B - 1) _ (by omega)]
      rw [countFullMask_append' _ _ _ _ hl1]
      simp only [Option.some_bind]
      generalize fullCountOf (orWord t' (B - 1) (1 <<< 63)) = fc at hfc ⊢
      generalize orWord t' (B - 1) (1 <<< 63) = t1 at hl1 ⊢
      have hrs : resize (G ++ t1) ((G ++ t1).length - fc) = G ++ t1.take (B - fc) := by
        rw [show (G ++ t1).length - fc = G.length + (B - fc) by simp only [List.length_append]; omega,
          resize_append_right, resize_of_le _ _ (by omega)]
      rw [hrs]
      split_ifs with h4 hfull
      · subst hfull
        simp [offsets, flat, ← hG]
      · simp only [hGf, Option.some_bind]
        simp [offsets, flat, ← hG]
        omega
      · simp [offsets, flat, ← hG]
    · simp only [if_neg htrig]
      split_ifs with hext hrs
      · rw [e t', show H.length + (B + 1) + 1 - B + (1 + d / 64) = G.length + (1 + d / 64) by omega,
          resize_append_right, ext_step (O ++ [H.length + 1]) G (resize t' (1 + d / 64)) d _
            (by rw [resize_length]; omega) (by omega)]
        simp [offsets, flat, ← hG]
      · rw [e t', ext_step (O ++ [H.length + 1]) G t' d _ (by omega) (by omega)]
        simp [offsets, flat, ← hG]
      · simp [offsets, flat, pushNewBlock]
        omega

/-- The member `innPush` on an object given by its blocks: the count word is incremented
and the last block is replaced by `grow`. -/
theorem innPush_ofBlocks (c : Nat) (bs : List Block) (f : Nat) (t : List Nat) (id : Nat) :
    innPush (ofBlocks c (bs ++ [(f, t)])) id
      = some (ofBlocks ((c + 1) % 2 ^ 64) (bs ++ grow f t id)) := by
  have h := innPush_frame (offsets 1 bs) (flat bs) t c f id
  have e1 : ofBlocks c (bs ++ [(f, t)])
      = ⟨offsets 1 bs ++ [(flat bs).length + 1], c :: (flat bs ++ f :: t)⟩ := by
    simp [ofBlocks, offsets_append, flat_append, flat, offsets, Nat.add_comm]
  rw [e1, h]
  simp [ofBlocks, offsets_append, flat_append, Nat.add_comm]

theorem decodeAll_append (as bs : List Block) :
    decodeAll (as ++ bs) = decodeAll as ++ decodeAll bs := by
  induction as with
  | nil => rfl
  | cons a as ih => simp [decodeAll, ih]

theorem getElem?_append_cons_self (O R : List Nat) (a n : Nat) (h : O.length = n) :
    (O ++ a :: R)[n]? = some a := by
  rw [List.getElem?_append_right (by omega), h]
  simp

theorem getElem?_append_cons_succ (O R : List Nat) (a n j : Nat) (h : O.length = n) :
    (O ++ a :: R)[n + 1 + j]? = R[j]? := by
  rw [List.getElem?_append_right (by omega), h,
    show n + 1 + j - n = j + 1 by omega, List.getElem?_cons_succ]

theorem ofBlocks_split (c : Nat) (xs ys : List Block) (b : Block) :
    ofBlocks c (xs ++ b :: ys)
      = ⟨offsets 1 xs ++ ((flat xs).length + 1) :: offsets ((flat xs).length + 1 + 1 + b.2.length) ys,
         (c :: flat xs) ++ b.1 :: (b.2 ++ flat ys)⟩ := by
  simp [ofBlocks, offsets_append, flat_append, flat, offsets, Nat.add_comm]

theorem blockBufCount_ofBlocks (c : Nat) (xs ys : List Block) (b : Block) :
    blockBufCount (ofBlocks c (xs ++ b :: ys)) xs.length = some b.2.length := by
  rw [ofBlocks_split]
  unfold blockBufCount
  have hO : (offsets 1 xs).length = xs.length := offsets_length xs 1
  cases ys with
  | nil =>
    simp only [offsets, List.length_append, hO, List.length_cons, List.length_nil,
      Nat.lt_irrefl, if_false, List.getLast?_append, List.getLast?_singleton, Option.or_some,
      Option.or, flat, List.append_nil, Option.bind_eq_bind, Option.some_bind, zero_add]
    rw [if_pos (by omega)]
    congr 1
    omega
  | cons y ys =>
    simp only [offsets, List.length_append, hO, List.length_cons]
    rw [if_pos (by omega)]
    simp only [getElem?_append_cons_self _ _ _ _ hO,
      getElem?_append_cons_succ _ _ _ _ 0 hO, List.getElem?_cons_zero, Option.bind_eq_bind,
      Option.some_bind]
    rw [if_pos (by omega)]
    congr 1
    omega

theorem start_ofBlocks (c : Nat) (xs ys : List Block) (b : Block) :
    (ofBlocks c (xs ++ b :: ys)).m_idOff[xs.length]? = some ((flat xs).length + 1) := by
  rw [ofBlocks_split]
  exact getElem?_append_cons_self _ _ _ _ (offsets_length xs 1)

theorem first_ofBlocks (c : Nat) (xs ys : List Block) (b : Block) :
    (ofBlocks c (xs ++ b :: ys)).m_idBuf[(flat xs).length + 1]? = some b.1 := by
  rw [ofBlocks_split]
  exact getElem?_append_cons_self _ _ _ _ (by simp)

theorem tail_ofBlocks (c : Nat) (xs ys : List Block) (b : Block) (j : Nat) (hj : j < b.2.length) :
    (ofBlocks c (xs ++ b :: ys)).m_idBuf[(flat xs).length + 1 + 1 + j]? = some (b.2.getD j 0) := by
  rw [ofBlocks_split]
  simp only
  rw [getElem?_append_cons_succ _ _ _ _ j (by simp), List.getElem?_append_left hj,
    List.getD_eq_getElem?_getD, List.getElem?_eq_getElem hj]
  rfl

theorem ofBlocks_off_length (c : Nat) (bs : List Block) :
    (ofBlocks c bs).m_idOff.length = bs.length := offsets_length bs 1

theorem maskLoop_ofBlocks (c : Nat) (xs ys : List Block) (b : Block) (L : List Nat)
    (hL : ∀ i ∈ L, i / 64 < b.2.length) (v : List Nat) :
    L.foldlM (maskStep (ofBlocks c (xs ++ b :: ys)) ((flat xs).length + 1) b.1) v
      = some (v ++ (L.filter (bitAt b.2)).map (fun i => (b.1 + i) % 2 ^ 64)) := by
  induction L generalizing v with
  | nil => simp
  | cons i L ih =>
    have hi : i / 64 < b.2.length := hL i (List.mem_cons_self _ _)
    have hstep : maskStep (ofBlocks c (xs ++ b :: ys)) ((flat xs).length + 1) b.1 v i
        = some (if bitAt b.2 i then v ++ [(b.1 + i) % 2 ^ 64] else v) := by
      unfold maskStep
      rw [tail_ofBlocks c xs ys b _ hi, kthBitU64_lt (Nat.mod_lt _ (by norm_num))]
      simp only [Option.bind_eq_bind, Option.some_bind, bitAt]
      split_ifs <;> simp_all
    rw [List.foldlM_cons, hstep]
    simp only [Option.bind_eq_bind, Option.some_bind]
    rw [ih (fun j hj => hL j (List.mem_cons_of_mem _ hj))]
    by_cases hb : bitAt b.2 i <;> simp [hb, List.filter_cons]

theorem innGetBlockIds_ofBlocks (c : Nat) (xs ys : List Block) (b : Block) (v : List Nat) :
    innGetBlockIds (ofBlocks c (xs ++ b :: ys)) v xs.length = some (v ++ decode b) := by
  unfold innGetBlockIds
  rw [blockBufCount_ofBlocks, start_ofBlocks]
  simp only [Option.bind_eq_bind, Option.some_bind, first_ofBlocks]
  obtain ⟨f, t⟩ := b
  cases t with
  | nil => simp [decode]
  | cons w t =>
    have h0 := tail_ofBlocks c xs ys (f, w :: t) 0 (by simp)
    simp only [Nat.add_zero] at h0
    rw [if_neg (by simp), h0]
    simp only [Option.some_bind, List.getD_cons_zero, decode]
    by_cases hodd : w &&& 1 ≠ 0
    · rw [if_neg (by simpa using hodd), if_pos hodd]
      rw [maskLoop_ofBlocks c xs ys (f, w :: t)]
      · rfl
      · intro i hi
        have := List.mem_range.mp hi
        have h2 : (w :: t).length * 64 % 2 ^ 64 ≤ (w :: t).length * 64 := Nat.mod_le _ _
        simp only at this ⊢
        omega
    · rw [if_pos hodd, if_neg hodd]

/-- The loop of `getIds` on an object given by its blocks yields the ids of the blocks. -/
theorem getIdsLoop_ofBlocks (c : Nat) (bs : List Block) :
    getIdsLoop (ofBlocks c bs) = some (decodeAll bs) := by
  unfold getIdsLoop
  rw [ofBlocks_off_length]
  have key : ∀ k, k ≤ bs.length →
      (List.range k).foldlM (innGetBlockIds (ofBlocks c bs)) [] = some (decodeAll (bs.take k)) := by
    intro k
    induction k with
    | zero => intro _; simp [decodeAll]
    | succ k ih =>
      intro hk
      have hk' : k < bs.length := by omega
      rw [List.range_succ, List.foldlM_append, ih (by omega)]
      simp only [Option.bind_eq_bind, Option.some_bind, List.foldlM_cons, List.foldlM_nil]
      have hsplit : bs = bs.take k ++ bs[k] :: bs.drop (k + 1) := by
        rw [← List.drop_eq_getElem_cons hk', List.take_append_drop]
      have hlen : (bs.take k).length = k := by simp; omega
      have h := innGetBlockIds_ofBlocks c (bs.take k) (bs.drop (k + 1)) bs[k] (decodeAll (bs.take k))
      rw [← hsplit, hlen] at h
      rw [h]
      simp only [Option.some_bind, Option.pure_def, Option.bind_some]
      rw [List.take_succ, List.getElem?_eq_getElem hk', decodeAll_append]
      simp [decodeAll]
  have h := key bs.length (le_refl _)
  rwa [List.take_length] at h

theorem grow_ne_nil (f : Nat) (t : List Nat) (id : Nat) : grow f t id ≠ [] := by
  match t with
  | [] => simp only [grow]; split_ifs <;> simp
  | [w] => simp only [grow]; split_ifs <;> simp
  | w :: w1 :: r => simp only [grow]; split_ifs <;> simp

theorem foldlM_innPush_ofBlocks (rest : List Nat) :
    ∀ (c : Nat) (bs : List Block), bs ≠ [] →
      ∃ c1 bs1, bs1 ≠ [] ∧ rest.foldlM innPush (ofBlocks c bs) = some (ofBlocks c1 bs1) := by
  induction rest with
  | nil => intro c bs h; exact ⟨c, bs, h, rfl⟩
  | cons id rest ih =>
    intro c bs h
    obtain ⟨bs0, b, rfl⟩ := (List.eq_nil_or_concat bs).resolve_left h
    obtain ⟨f, t⟩ := b
    rw [List.foldlM_cons, List.concat_eq_append, innPush_ofBlocks]
    exact ih _ _ (by simp [grow_ne_nil])

theorem push_default (id : Nat) : push fixedIdset.default id = .returned (ofBlocks 1 [(id, [])]) := by
  simp [push, fixedIdset.default, fixedIdset.empty, ofBlocks, offsets, flat]

theorem pushAll_append (s : fixedIdset) (l1 l2 : List Nat) :
    pushAll s (l1 ++ l2) = match pushAll s l1 with
      | .returned s1 => pushAll s1 l2
      | o => o := by
  induction l1 generalizing s with
  | nil => simp [pushAll]
  | cons a l1 ih =>
    simp only [List.cons_append, pushAll]
    cases h : push s a <;> simp [ih]

theorem push_le_first (s : fixedIdset) (id last first : Nat)
    (hl : s.m_idOff.getLast? = some last) (hf : s.m_idBuf[last]? = some first)
    (hle : id ≤ first) : push s id = .invalid_argument s := by
  unfold push
  have hne : s.empty = false := by
    unfold fixedIdset.empty
    cases hb : s.m_idBuf with
    | nil => simp [hb] at hf
    | cons a l => rfl
  simp [hne, hl, hf, hle]

/-- C8: the range constructor returns for every non-empty range, while sequential pushes
raise `std::invalid_argument` at the first id that is not above the first id of the last
block; the ranges `[5, 3]` and `[5, 5]` show both. -/
theorem ofRange_skips_order_check (seq : List Nat) (hne : seq ≠ []) :
    (∃ s, ofRange seq = .returned s) ∧
    (∀ (pre rest : List Nat) (id last first : Nat) (s : fixedIdset),
      seq = pre ++ id :: rest → pushAll fixedIdset.default pre = .returned s →
      s.m_idOff.getLast? = some last → s.m_idBuf[last]? = some first → id ≤ first →
      pushAll fixedIdset.default seq = .invalid_argument s) ∧
    ofRange [5, 3] = .returned ⟨[1, 2], [2, 5, 3]⟩ ∧
    pushAll fixedIdset.default [5, 3] = .invalid_argument ⟨[1], [1, 5]⟩ ∧
    ofRange [5, 5] = .returned ⟨[1], [2, 5, 1]⟩ ∧
    pushAll fixedIdset.default [5, 5] = .invalid_argument ⟨[1], [1, 5]⟩ := by
  refine ⟨?_, ?_, by decide, by decide, by decide, by decide⟩
  · cases seq with
    | nil => exact absurd rfl hne
    | cons a rest =>
      obtain ⟨c1, bs1, _, h⟩ := foldlM_innPush_ofBlocks rest 1 [(a, [])] (by simp)
      exact ⟨ofBlocks c1 bs1, by simp [ofRange, push_default, h]⟩
  · intro pre rest id last first s hseq hpre hl hf hle
    rw [hseq, pushAll_append, hpre]
    simp [pushAll, push_le_first s id last first hl hf hle]

theorem ofRange_skips_order_check_witness :
    ([5, 3] : List Nat) ≠ [] ∧ ((∃ s, ofRange [5, 3] = .returned s) ∧
    (∀ (pre rest : List Nat) (id last first : Nat) (s : fixedIdset),
      [5, 3] = pre ++ id :: rest → pushAll fixedIdset.default pre = .returned s →
      s.m_idOff.getLast? = some last → s.m_idBuf[last]? = some first → id ≤ first →
      pushAll fixedIdset.default [5, 3] = .invalid_argument s) ∧
    ofRange [5, 3] = .returned ⟨[1, 2], [2, 5, 3]⟩ ∧
    pushAll fixedIdset.default [5, 3] = .invalid_argument ⟨[1], [1, 5]⟩ ∧
    ofRange [5, 5] = .returned ⟨[1], [2, 5, 1]⟩ ∧
    pushAll fixedIdset.default [5, 5] = .invalid_argument ⟨[1], [1, 5]⟩) :=
  ⟨by decide, ofRange_skips_order_check [5, 3] (by decide)⟩

/-- C6: when `push` raises `std::invalid_argument` the object is left exactly as it was:
both vectors, hence `count`, `getIds` and every `hasId` answer, are unchanged. -/
theorem push_failure_atomic (s s1 : fixedIdset) (id : Nat)
    (h : push s id = .invalid_argument s1) :
    s1.m_idOff = s.m_idOff ∧ s1.m_idBuf = s.m_idBuf ∧ s1.count = s.count ∧
    getIds s1 = getIds s ∧ ∀ x, hasId s1 x = hasId s x := by
  have hs : s1 = s := by
    unfold push at h
    split_ifs at h
    split at h
    · exact absurd h (by simp)
    · split at h
      · exact absurd h (by simp)
      · split_ifs at h
        · injection h with h; exact h.symm
        · split at h <;> exact absurd h (by simp)
  subst hs
  exact ⟨rfl, rfl, rfl, rfl, fun _ => rfl⟩

theorem push_failure_atomic_witness :
    push ⟨[1], [1, 5]⟩ 5 = .invalid_argument ⟨[1], [1, 5]⟩ ∧
    ((⟨[1], [1, 5]⟩ : fixedIdset).m_idOff = [1] ∧ (⟨[1], [1, 5]⟩ : fixedIdset).m_idBuf = [1, 5] ∧
     (⟨[1], [1, 5]⟩ : fixedIdset).count = 1 ∧
     getIds ⟨[1], [1, 5]⟩ = getIds ⟨[1], [1, 5]⟩ ∧ ∀ x, hasId ⟨[1], [1, 5]⟩ x = hasId ⟨[1], [1, 5]⟩ x) :=
  ⟨by decide, push_failure_atomic ⟨[1], [1, 5]⟩ ⟨[1], [1, 5]⟩ 5 (by decide)⟩

/-- C9: pushing the 256 consecutive ids 0, ..., 255 one at a time leaves one run block;
`getIds` returns exactly 0, ..., 255, `count` is 256, `hasId` holds for each of them and
fails for 256 and for 2^64 - 1. -/
theorem compaction_scenario :
    pushAll fixedIdset.default (List.range 256) = .returned ⟨[1], [256, 0, 512]⟩ ∧
    getIds ⟨[1], [256, 0, 512]⟩ = .returned (List.range 256) ∧
    count ⟨[1], [256, 0, 512]⟩ = 256 ∧
    (∀ i, i < 256 → hasId ⟨[1], [256, 0, 512]⟩ i = some true) ∧
    hasId ⟨[1], [256, 0, 512]⟩ 256 = some false ∧
    hasId ⟨[1], [256, 0, 512]⟩ (2 ^ 64 - 1) = some false := by
  refine ⟨by decide!, by decide!, by decide, ?_, by decide, by decide⟩
  decide!

/-- C3: after `push(5); push(7)` the largest id is 7, yet `push(6)` returns instead of
raising: the check looks only at the first id of the last block, and the set changes. -/
theorem push_accepts_id_below_maximum :
    pushAll fixedIdset.default [5, 7] = .returned ⟨[1], [2, 5, 5]⟩ ∧
    getIds ⟨[1], [2, 5, 5]⟩ = .returned [5, 7] ∧
    push ⟨[1], [2, 5, 5]⟩ 6 = .returned ⟨[1], [3, 5, 7]⟩ ∧
    getIds ⟨[1], [3, 5, 7]⟩ = .returned [5, 6, 7] ∧
    count ⟨[1], [3, 5, 7]⟩ = 3 := by
  decide

theorem setBit_length (t : List Nat) (d : Nat) : (setBit t d).length = t.length := by
  simp [setBit, orWord]

theorem push_ofBlocks (c : Nat) (bs : List Block) (f : Nat) (t : List Nat) (id : Nat)
    (hlt : f < id) :
    push (ofBlocks c (bs ++ [(f, t)])) id
      = .returned (ofBlocks ((c + 1) % 2 ^ 64) (bs ++ grow f t id)) := by
  unfold push
  have hne : (ofBlocks c (bs ++ [(f, t)])).empty = false := rfl
  have hl : (ofBlocks c (bs ++ [(f, t)])).m_idOff.getLast? = some ((flat bs).length + 1) := by
    simp [ofBlocks, offsets_append, offsets, Nat.add_comm]
  have hf := first_ofBlocks c bs [] (f, t)
  simp only [hne, hl, hf, innPush_ofBlocks]
  simp [Nat.not_le.mpr hlt]

/-- The growth step keeps the first id of the last block at or below the pushed id and the
tail of every new last block shorter than 2^58 words. -/
theorem grow_weak (f : Nat) (t : List Nat) (id : Nat) (hf : f < id) (hid : id < 2 ^ 64)
    (ht : t.length < 2 ^ 58) :
    ∃ g0 f1 t1, grow f t id = g0 ++ [(f1, t1)] ∧ f1 ≤ id ∧ t1.length < 2 ^ 58 := by
  have hd : (id + (2 ^ 64 - f)) % 2 ^ 64 = id - f := by omega
  match t with
  | [] =>
    simp only [grow, hd]
    split_ifs
    · exact ⟨[], f, _, rfl, by omega, by simp⟩
    · exact ⟨[], f, _, rfl, by omega, by simp⟩
    · exact ⟨[(f, [])], id, [], rfl, by omega, by simp⟩
  | [w] =>
    simp only [grow, hd]
    split_ifs with h1 h2 h3 h4
    · exact ⟨[], f, _, rfl, by omega, by rw [setBit_length, resize_length]; omega⟩
    · exact ⟨[], f, _, rfl, by omega, by rw [setBit_length]; simp⟩
    · exact ⟨[(f, [w])], id, [], rfl, by omega, by simp⟩
    · exact ⟨[], f, _, rfl, by omega, by simp⟩
    · exact ⟨[(f, [w])], id, [], rfl, by omega, by simp⟩
  | w :: w1 :: r =>
    simp only [grow, hd]
    generalize hB : (w :: w1 :: r).length = B at ht ⊢
    generalize w :: w1 :: r = t at hB ⊢
    have hfc := fullCountOf_le (orWord t (B - 1) (1 <<< 63))
    rw [orWord_length, hB] at hfc
    split_ifs with h1 h2 h3 h4 h5
    · exact ⟨[], f, _, rfl, by omega, by simp⟩
    · refine ⟨[(f, _)], _, _, rfl, ?_, by simp⟩
      generalize fullCountOf (orWord t (B - 1) (1 <<< 63)) = fc at *
      omega
    · exact ⟨[], f, _, rfl, by omega, by rw [orWord_length]; omega⟩
    · exact ⟨[], f, _, rfl, by omega, by rw [setBit_length, resize_length]; omega⟩
    · exact ⟨[], f, _, rfl, by omega, by rw [setBit_length]; omega⟩
    · exact ⟨[(f, t)], id, [], rfl, by omega, by simp⟩

theorem ofRange_eq_pushAll_aux (rest : List Nat) :
    ∀ (c : Nat) (bs : List Block) (f : Nat) (t : List Nat) (m : Nat),
      f ≤ m → t.length < 2 ^ 58 → List.Chain (· < ·) m rest → (∀ x ∈ rest, x < 2 ^ 64) →
      ∃ s, rest.foldlM innPush (ofBlocks c (bs ++ [(f, t)])) = some s ∧
        pushAll (ofBlocks c (bs ++ [(f, t)])) rest = .returned s := by
  induction rest with
  | nil => intro c bs f t m _ _ _ _; exact ⟨_, rfl, rfl⟩
  | cons id rest ih =>
    intro c bs f t m hfm ht hch hb
    have hmid : m < id := (List.chain_cons.mp hch).1
    have hid : id < 2 ^ 64 := hb id (List.mem_cons_self _ _)
    obtain ⟨g0, f1, t1, hg, hf1, ht1⟩ := grow_weak f t id (by omega) hid ht
    obtain ⟨s, h1, h2⟩ := ih ((c + 1) % 2 ^ 64) (bs ++ g0) f1 t1 id hf1 ht1
      (List.chain_cons.mp hch).2 (fun x hx => hb x (List.mem_cons_of_mem _ hx))
    refine ⟨s, ?_, ?_⟩
    · rw [List.foldlM_cons, innPush_ofBlocks, hg, ← List.append_assoc]
      exact h1
    · rw [pushAll, push_ofBlocks c bs f t id (by omega), hg, ← List.append_assoc]
      exact h2

/-- C7: for a non-empty strictly ascending sequence of 64-bit ids the range constructor
leaves exactly the object that default construction followed by one `push` per id leaves. -/
theorem ofRange_eq_pushAll (seq : List Nat) (hne : seq ≠ [])
    (hasc : seq.Pairwise (· < ·)) (hb : ∀ x ∈ seq, x < 2 ^ 64) :
    ∃ s, ofRange seq = .returned s ∧ pushAll fixedIdset.default seq = .returned s := by
  cases seq with
  | nil => exact absurd rfl hne
  | cons a rest =>
    have hch : List.Chain (· < ·) a rest := List.Pairwise.chain hasc
    obtain ⟨s, h1, h2⟩ := ofRange_eq_pushAll_aux rest 1 [] a [] a (le_refl _) (by simp) hch
      (fun x hx => hb x (List.mem_cons_of_mem _ hx))
    refine ⟨s, ?_, ?_⟩
    · simp only [ofRange, push_default]
      rw [show ofBlocks 1 [(a, [])] = ofBlocks 1 ([] ++ [(a, [])]) from rfl, h1]
    · simp only [pushAll, push_default]
      exact h2

theorem ofRange_eq_pushAll_witness :
    ([5, 6, 7] : List Nat) ≠ [] ∧ ([5, 6, 7] : List Nat).Pairwise (· < ·) ∧
    (∀ x ∈ ([5, 6, 7] : List Nat), x < 2 ^ 64) ∧
    ∃ s, ofRange [5, 6, 7] = .returned s ∧ pushAll fixedIdset.default [5, 6, 7] = .returned s :=
  ⟨by decide, by decide, by decide,
    ofRange_eq_pushAll [5, 6, 7] (by decide) (by decide) (by decide)⟩

theorem chain_gap_bound (rest : List Nat) :
    ∀ a : Nat, List.Chain (fun x y => x + 128 ≤ y) a rest → (∀ x ∈ a :: rest, x < 2 ^ 64) →
      a + 128 * rest.length < 2 ^ 64 := by
  induction rest with
  | nil => intro a _ hb; simpa using hb a (List.mem_cons_self _ _)
  | cons x rest ih =>
    intro a hch hb
    have h1 := (List.chain_cons.mp hch).1
    have h2 := ih x (List.chain_cons.mp hch).2 (fun y hy => hb y (List.mem_cons_of_mem _ hy))
    simp only [List.length_cons]
    omega

theorem offsets_singletons (l : List Nat) (start : Nat) :
    offsets start (l.map (fun x => (x, ([] : List Nat)))) = List.range' start l.length := by
  induction l generalizing start with
  | nil => rfl
  | cons a l ih => simp [offsets, ih, List.range'_succ]

theorem flat_singletons (l : List Nat) :
    flat (l.map (fun x => (x, ([] : List Nat)))) = l := by
  induction l with
  | nil => rfl
  | cons a l ih => simp [flat, ih]

theorem sparse_growth_aux (rest : List Nat) :
    ∀ (c : Nat) (bs : List Block) (f : Nat),
      List.Chain (fun x y => x + 128 ≤ y) f rest → (∀ x ∈ f :: rest, x < 2 ^ 64) →
      c + rest.length < 2 ^ 64 →
      pushAll (ofBlocks c (bs ++ [(f, [])])) rest
        = .returned (ofBlocks (c + rest.length)
            (bs ++ (f, []) :: rest.map (fun x => (x, ([] : List Nat))))) := by
  induction rest with
  | nil => intro c bs f _ _ _; rfl
  | cons id rest ih =>
    intro c bs f hch hb hc
    have hgap := (List.chain_cons.mp hch).1
    have hid : id < 2 ^ 64 := hb id (by simp)
    have hg : grow f [] id = [(f, []), (id, [])] := by
      have hd : (id + (2 ^ 64 - f)) % 2 ^ 64 = id - f := by omega
      simp only [grow, hd]
      rw [if_neg (by omega), if_neg (by omega)]
    simp only [List.length_cons] at hc
    rw [pushAll, push_ofBlocks c bs f [] id (by omega), hg, Nat.mod_eq_of_lt (by omega),
      show bs ++ [(f, ([] : List Nat)), (id, [])] = (bs ++ [(f, [])]) ++ [(id, [])] by simp]
    dsimp only
    rw [ih _ _ id (List.chain_cons.mp hch).2 (fun y hy => hb y (List.mem_cons_of_mem _ hy))
        (by omega)]
    simp [Nat.add_comm, Nat.add_left_comm]

/-- C10: pushing ids whose consecutive gaps are all at least 128 stores every id as its own
single id block: the buffer is the count followed by the ids and the offsets are 1, ..., n. -/
theorem sparse_growth (a : Nat) (rest : List Nat)
    (hgap : List.Chain (fun x y => x + 128 ≤ y) a rest) (hb : ∀ x ∈ a :: rest, x < 2 ^ 64) :
    pushAll fixedIdset.default (a :: rest)
      = .returned ⟨List.range' 1 (rest.length + 1), (rest.length + 1) :: a :: rest⟩ ∧
    pushAll fixedIdset.default [0, 200] = .returned ⟨[1, 2], [2, 0, 200]⟩ ∧
    pushAll fixedIdset.default [0, 10000, 20000] = .returned ⟨[1, 2, 3], [3, 0, 10000, 20000]⟩ ∧
    getIds ⟨[1, 2, 3], [3, 0, 10000, 20000]⟩ = .returned [0, 10000, 20000] := by
  refine ⟨?_, by decide, by decide, by decide⟩
  have hlen := chain_gap_bound rest a hgap hb
  rw [pushAll, push_default]
  dsimp only
  rw [show ofBlocks 1 [(a, [])] = ofBlocks 1 ([] ++ [(a, [])]) from rfl,
    sparse_growth_aux rest 1 [] a hgap hb (by omega)]
  simp only [ofBlocks, List.nil_append, offsets, flat, List.nil_append, offsets_singletons,
    flat_singletons, List.length_nil, Nat.add_zero]
  rw [List.range'_succ, Nat.add_comm 1 rest.length]

theorem sparse_growth_witness :
    List.Chain (fun x y => x + 128 ≤ y) 0 [200] ∧ (∀ x ∈ ([0, 200] : List Nat), x < 2 ^ 64) ∧
    (pushAll fixedIdset.default [0, 200]
      = .returned ⟨List.range' 1 ([200].length + 1), ([200].length + 1) :: 0 :: [200]⟩ ∧
    pushAll fixedIdset.default [0, 200] = .returned ⟨[1, 2], [2, 0, 200]⟩ ∧
    pushAll fixedIdset.default [0, 10000, 20000] = .returned ⟨[1, 2, 3], [3, 0, 10000, 20000]⟩ ∧
    getIds ⟨[1, 2, 3], [3, 0, 10000, 20000]⟩ = .returned [0, 10000, 20000]) :=
  ⟨by simp, by decide, sparse_growth 0 [200] (by simp) (by decide)⟩

theorem and_shiftLeft_ne_zero (w k : Nat) : (w &&& 1 <<< k ≠ 0) ↔ w.testBit k = true := by
  rw [Nat.one_shiftLeft]
  constructor
  · intro h
    obtain ⟨i, hi⟩ := Nat.ne_zero_implies_bit_true h
    rw [Nat.testBit_and, Nat.testBit_two_pow] at hi
    simp only [Bool.and_eq_true, decide_eq_true_eq] at hi
    rw [hi.2]; exact hi.1
  · intro h h0
    have : (w &&& 2 ^ k).testBit k = true := by
      rw [Nat.testBit_and, Nat.testBit_two_pow_self, h]; rfl
    rw [h0] at this
    simp at this

theorem bitAt_eq (t : List Nat) (i : Nat) :
    bitAt t i = (t.getD (i / 64) 0).testBit (i % 64) := by
  unfold bitAt
  by_cases h : (t.getD (i / 64) 0).testBit (i % 64) = true
  · rw [h]; exact decide_eq_true ((and_shiftLeft_ne_zero _ _).mpr h)
  · rw [Bool.not_eq_true] at h
    rw [h]
    exact decide_eq_false (fun hc => by
      rw [and_shiftLeft_ne_zero] at hc; rw [h] at hc; exact Bool.noConfusion hc)

theorem bitAt_lt {t : List Nat} {i : Nat} (h : bitAt t i = true) : i < t.length * 64 := by
  rw [bitAt_eq] at h
  by_contra hc
  rw [List.getD_eq_default _ _ (by omega)] at h
  simp at h

theorem mem_bits {t : List Nat} (ht : t.length < 2 ^ 58) (i : Nat) :
    i ∈ bits t ↔ bitAt t i = true := by
  unfold bits
  rw [Nat.mod_eq_of_lt (by omega), List.mem_filter, List.mem_range]
  exact ⟨fun h => h.2, fun h => ⟨bitAt_lt h, h⟩⟩

theorem bits_sorted (t : List Nat) : (bits t).Sorted (· < ·) :=
  (List.sorted_lt_range _).filter _

theorem sorted_lt_ext {l1 l2 : List Nat} (h1 : l1.Sorted (· < ·)) (h2 : l2.Sorted (· < ·))
    (h : ∀ x, x ∈ l1 ↔ x ∈ l2) : l1 = l2 :=
  List.eq_of_perm_of_sorted ((List.perm_ext_iff_of_nodup h1.nodup h2.nodup).mpr h) h1 h2

theorem bits_eq_of_bitAt {t u : List Nat} (ht : t.length < 2 ^ 58) (hu : u.length < 2 ^ 58)
    (h : ∀ i, bitAt t i = bitAt u i) : bits t = bits u :=
  sorted_lt_ext (bits_sorted t) (bits_sorted u) (fun i => by
    rw [mem_bits ht, mem_bits hu, h])

theorem bitAt_append_zeros (t : List Nat) (k i : Nat) :
    bitAt (t ++ List.replicate k 0) i = bitAt t i := by
  rw [bitAt_eq, bitAt_eq]
  by_cases h : i / 64 < t.length
  · rw [List.getD_append _ _ _ _ h]
  · rw [List.getD_eq_default t _ (by omega)]
    rw [List.getD_eq_getElem?_getD, List.getElem?_append_right (by omega)]
    by_cases h2 : i / 64 - t.length < k
    · simp [List.getElem?_replicate, h2]
    · simp [List.getElem?_replicate, h2]

theorem bitAt_setBit (t : List Nat) (d i : Nat) (hd : d / 64 < t.length) :
    bitAt (setBit t d) i = (bitAt t i || decide (i = d)) := by
  rw [bitAt_eq, bitAt_eq]
  unfold setBit orWord
  by_cases h : i / 64 = d / 64
  · rw [h, List.getD_eq_getElem?_getD, List.getElem?_set_self hd]
    simp only [Option.getD_some, Nat.testBit_or, Nat.one_shiftLeft, Nat.testBit_two_pow]
    congr 1
    by_cases h3 : i = d
    · simp [h3]
    · have : d % 64 ≠ i % 64 := by omega
      simp [h3, this]
  · have hne : i ≠ d := fun hc => h (by rw [hc])
    rw [List.getD_eq_getElem?_getD, List.getElem?_set_ne (Ne.symm h)]
    simp [hne, List.getD_eq_getElem?_getD]

theorem bits_setBit {t : List Nat} (ht : t.length < 2 ^ 58) {d : Nat} (hd : d / 64 < t.length)
    (hmax : ∀ i ∈ bits t, i < d) : bits (setBit t d) = bits t ++ [d] := by
  apply sorted_lt_ext (bits_sorted _)
  · exact List.pairwise_append.mpr ⟨bits_sorted t, List.pairwise_singleton _ _,
      fun a ha b hb => by rw [List.mem_singleton.mp hb]; exact hmax a ha⟩
  · intro i
    rw [mem_bits (by rw [setBit_length]; exact ht), bitAt_setBit t d i hd, List.mem_append,
      mem_bits ht, List.mem_singleton]
    simp

theorem bits_append_zeros {t : List Nat} {k : Nat} (ht : t.length + k < 2 ^ 58) :
    bits (t ++ List.replicate k 0) = bits t :=
  bits_eq_of_bitAt (by simp; omega) (by omega) (bitAt_append_zeros t k)

theorem bitAt_append_full (t : List Nat) (k i : Nat) :
    bitAt (t ++ List.replicate k (2 ^ 64 - 1)) i
      = (bitAt t i || decide (t.length * 64 ≤ i ∧ i < (t.length + k) * 64)) := by
  by_cases h : i / 64 < t.length
  · have h1 : bitAt (t ++ List.replicate k (2 ^ 64 - 1)) i = bitAt t i := by
      rw [bitAt_eq, bitAt_eq, List.getD_append _ _ _ _ h]
    have h2 : ¬ (t.length * 64 ≤ i) := by omega
    rw [h1]
    simp [h2]
  · have h1 : bitAt t i = false := by
      rw [bitAt_eq, List.getD_eq_default t _ (by omega)]; simp
    rw [h1, bitAt_eq, List.getD_eq_getElem?_getD, List.getElem?_append_right (by omega)]
    by_cases h2 : i / 64 - t.length < k
    · have h3 : t.length * 64 ≤ i ∧ i < (t.length + k) * 64 := by omega
      have h4 : i % 64 < 64 := Nat.mod_lt _ (by norm_num)
      rw [List.getElem?_replicate, if_pos h2, Option.getD_some, Nat.testBit_two_pow_sub_one]
      simp [h3, h4]
    · have h3 : ¬ (t.length * 64 ≤ i ∧ i < (t.length + k) * 64) := by omega
      simp [List.getElem?_replicate, h2, h3]

theorem bits_append_full {t : List Nat} {k : Nat} (ht : t.length + k < 2 ^ 58) :
    bits (t ++ List.replicate k (2 ^ 64 - 1))
      = bits t ++ List.range' (t.length * 64) (k * 64) := by
  have ht0 : t.length < 2 ^ 58 := by omega
  apply sorted_lt_ext (bits_sorted _)
  · refine List.pairwise_append.mpr ⟨bits_sorted t, List.pairwise_lt_range' _ _, ?_⟩
    intro a ha b hb
    have h1 := bitAt_lt ((mem_bits ht0 a).mp ha)
    have h2 := (List.mem_range'_1.mp hb).1
    omega
  · intro i
    rw [mem_bits (by simp; omega), bitAt_append_full, List.mem_append, mem_bits ht0,
      List.mem_range'_1]
    simp only [Bool.or_eq_true, decide_eq_true_eq]
    constructor
    · rintro (h | ⟨h1, h2⟩)
      · exact Or.inl h
      · exact Or.inr ⟨h1, by omega⟩
    · rintro (h | ⟨h1, h2⟩)
      · exact Or.inl h
      · exact Or.inr ⟨h1, by omega⟩

theorem take_fullCountOf (t : List Nat) :
    t = t.take (t.length - fullCountOf t) ++ List.replicate (fullCountOf t) (2 ^ 64 - 1) := by
  have hsplit := List.takeWhile_append_dropWhile (fun w => decide (w = 2 ^ 64 - 1)) t.reverse
  have hrep : t.reverse.takeWhile (fun w => decide (w = 2 ^ 64 - 1))
      = List.replicate (fullCountOf t) (2 ^ 64 - 1) := by
    rw [List.eq_replicate_iff]
    refine ⟨rfl, fun b hb => ?_⟩
    have := List.mem_takeWhile_imp hb
    simpa using this
  have ht : t = (t.reverse.dropWhile (fun w => decide (w = 2 ^ 64 - 1))).reverse
      ++ List.replicate (fullCountOf t) (2 ^ 64 - 1) := by
    have := congrArg List.reverse hsplit
    rw [List.reverse_reverse, List.reverse_append, hrep, List.reverse_replicate] at this
    exact this.symm
  have hlen : (t.reverse.dropWhile (fun w => decide (w = 2 ^ 64 - 1))).reverse.length
      = t.length - fullCountOf t := by
    have := congrArg List.length ht
    simp only [List.length_append, List.length_replicate] at this
    omega
  generalize (t.reverse.dropWhile (fun w => decide (w = 2 ^ 64 - 1))).reverse = A at ht hlen
  generalize fullCountOf t = fc at ht hlen ⊢
  have htake : t.take (t.length - fc) = A := by
    rw [← hlen, ht]
    exact List.take_left' rfl
  rw [htake]
  exact ht

theorem decode_mask {t : List Nat} (h : IsMask t) (f : Nat) :
    decode (f, t) = (bits t).map (fun i => (f + i) % 2 ^ 64) := by
  obtain ⟨w, r, rfl, hodd⟩ := h
  simp only [decode, if_pos hodd]

theorem blockOK_mask {t : List Nat} (h : IsMask t) (f : Nat) :
    BlockOK (f, t) ↔ f < 2 ^ 64 ∧ t.length < 2 ^ 58 ∧ ∀ i ∈ bits t, f + i < 2 ^ 64 := by
  obtain ⟨w, r, rfl, hodd⟩ := h
  simp only [BlockOK, if_pos hodd, List.length_cons]

theorem lastOK_mask {t : List Nat} (h : IsMask t) (f m : Nat) :
    LastOK (f, t) m ↔ f ≤ m ∧ (∀ x ∈ decode (f, t), x ≤ m) ∧ (m - f) / 64 + 1 = t.length := by
  obtain ⟨w, r, rfl, hodd⟩ := h
  simp only [LastOK, List.length_cons]
  constructor
  · rintro ⟨h1, h2, h3⟩; exact ⟨h1, h2, h3 hodd⟩
  · rintro ⟨h1, h2, h3⟩; exact ⟨h1, h2, fun _ => h3⟩

theorem isMask_iff_bitAt (t : List Nat) : IsMask t ↔ bitAt t 0 = true := by
  constructor
  · rintro ⟨w, r, rfl, hodd⟩
    simpa [bitAt] using hodd
  · intro h
    cases t with
    | nil => simp [bitAt] at h
    | cons w r => exact ⟨w, r, rfl, by simpa [bitAt] using h⟩

theorem isMask_length {t : List Nat} (h : IsMask t) : 0 < t.length := by
  obtain ⟨w, r, rfl, _⟩ := h; simp

theorem isMask_setBit {t : List Nat} (h : IsMask t) (d : Nat) (hd : d / 64 < t.length) :
    IsMask (setBit t d) := by
  rw [isMask_iff_bitAt] at h ⊢
  rw [bitAt_setBit t d 0 hd, h]; rfl

theorem isMask_append {t : List Nat} (h : IsMask t) (u : List Nat) : IsMask (t ++ u) := by
  obtain ⟨w, r, rfl, hodd⟩ := h
  exact ⟨w, r ++ u, rfl, hodd⟩

theorem isMask_take {t : List Nat} (h : IsMask t) {n : Nat} (hn : 0 < n) : IsMask (t.take n) := by
  obtain ⟨w, r, rfl, hodd⟩ := h
  obtain ⟨k, rfl⟩ : ∃ k, n = k + 1 := ⟨n - 1, by omega⟩
  exact ⟨w, r.take k, rfl, hodd⟩

theorem map_mod_eq (f : Nat) (L : List Nat) (h : ∀ i ∈ L, f + i < 2 ^ 64) :
    L.map (fun i => (f + i) % 2 ^ 64) = L.map (fun i => f + i) :=
  List.map_congr_left (fun i hi => Nat.mod_eq_of_lt (h i hi))

theorem resize_eq_append (t : List Nat) (n : Nat) (h : t.length ≤ n) :
    resize t n = t ++ List.replicate (n - t.length) 0 := by
  unfold resize
  rw [List.take_of_length_le h]

/-- Setting the bit of a new largest id in a (possibly padded) bitmask tail appends the id
to the decoded ids and keeps the block well formed. -/
theorem mask_ext {t : List Nat} (hm : IsMask t) {f id : Nat} (hok : BlockOK (f, t))
    (hlt : ∀ x ∈ decode (f, t), x < id) (hf : f ≤ id) (hid : id < 2 ^ 64) (k : Nat)
    (hk : t.length + k < 2 ^ 58) (hd : (id - f) / 64 < t.length + k) :
    decode (f, setBit (t ++ List.replicate k 0) (id - f)) = decode (f, t) ++ [id] ∧
    BlockOK (f, setBit (t ++ List.replicate k 0) (id - f)) ∧
    IsMask (setBit (t ++ List.replicate k 0) (id - f)) ∧
    (setBit (t ++ List.replicate k 0) (id - f)).length = t.length + k := by
  have hlen : (t ++ List.replicate k 0).length = t.length + k := by simp
  have hm1 : IsMask (setBit (t ++ List.replicate k 0) (id - f)) :=
    isMask_setBit (isMask_append hm _) _ (by rw [hlen]; exact hd)
  obtain ⟨hfM, htl, hnw⟩ := (blockOK_mask hm f).mp hok
  have hmax : ∀ i ∈ bits t, i < id - f := by
    intro i hi
    have h1 : (f + i) % 2 ^ 64 ∈ decode (f, t) := by
      rw [decode_mask hm]; exact List.mem_map.mpr ⟨i, hi, rfl⟩
    have h2 := hlt _ h1
    rw [Nat.mod_eq_of_lt (hnw i hi)] at h2
    omega
  have hbits : bits (setBit (t ++ List.replicate k 0) (id - f)) = bits t ++ [id - f] := by
    rw [bits_setBit (by rw [hlen]; exact hk) (by rw [hlen]; exact hd)
      (by rw [bits_append_zeros hk]; exact hmax), bits_append_zeros hk]
  refine ⟨?_, ?_, hm1, by rw [setBit_length, hlen]⟩
  · rw [decode_mask hm1, decode_mask hm, hbits, List.map_append]
    simp only [List.map_cons, List.map_nil]
    rw [show f + (id - f) = id by omega, Nat.mod_eq_of_lt hid]
  · rw [blockOK_mask hm1, hbits, setBit_length, hlen]
    refine ⟨hfM, hk, fun i hi => ?_⟩
    rcases List.mem_append.mp hi with h | h
    · exact hnw i h
    · rw [List.mem_singleton.mp h]; omega

theorem decodeAll_single (b : Block) : decodeAll [b] = decode b := by
  simp [decodeAll]

theorem decodeAll_pair (a b : Block) : decodeAll [a, b] = decode a ++ decode b := by
  simp [decodeAll]

theorem decode_single (x : Nat) : decode (x, []) = [x] := rfl

theorem blockOK_single {x : Nat} (h : x < 2 ^ 64) : BlockOK (x, []) := ⟨h, trivial⟩

theorem lastOK_single (x : Nat) : LastOK (x, []) x :=
  ⟨le_refl _, fun y hy => by rw [decode_single, List.mem_singleton] at hy; omega, trivial⟩

theorem growOK_new {f : Nat} {t : List Nat} {id : Nat} (hok : BlockOK (f, t))
    (hid : id < 2 ^ 64) : GrowOK [(f, t), (id, [])] (f, t) id :=
  ⟨[(f, t)], (id, []), rfl, by rw [decodeAll_pair, decode_single],
    fun c hc => by
      rcases List.mem_cons.mp hc with h | h
      · rw [h]; exact hok
      · rw [List.mem_singleton.mp h]; exact blockOK_single hid,
    lastOK_single id⟩

theorem growOK_mask {f : Nat} {t t1 : List Nat} {id : Nat} (hm1 : IsMask t1)
    (hdec : decode (f, t1) = decode (f, t) ++ [id]) (hok1 : BlockOK (f, t1))
    (hlt : ∀ x ∈ decode (f, t), x < id) (hf : f ≤ id)
    (hl : (id - f) / 64 + 1 = t1.length) : GrowOK [(f, t1)] (f, t) id := by
  refine ⟨[], (f, t1), rfl, by rw [decodeAll_single, hdec], fun c hc => ?_, ?_⟩
  · rw [List.mem_singleton.mp hc]; exact hok1
  · rw [lastOK_mask hm1]
    refine ⟨hf, fun x hx => ?_, hl⟩
    rw [hdec] at hx
    rcases List.mem_append.mp hx with h | h
    · exact Nat.le_of_lt (hlt x h)
    · rw [List.mem_singleton.mp h]

theorem bits_one : bits [1] = [0] := by decide

theorem isMask_one : IsMask [1] := ⟨1, [], rfl, by decide⟩

theorem blockOK_one {f : Nat} (h : f < 2 ^ 64) : BlockOK (f, [1]) := by
  rw [blockOK_mask isMask_one, bits_one]
  exact ⟨h, by simp, fun i hi => by rw [List.mem_singleton.mp hi]; omega⟩

theorem decode_one {f : Nat} (h : f < 2 ^ 64) : decode (f, [1]) = [f] := by
  rw [decode_mask isMask_one, bits_one]
  simp only [List.map_cons, List.map_nil, Nat.add_zero, Nat.mod_eq_of_lt h]

theorem grow_spec_nil (f m id : Nat) (hok : BlockOK (f, [])) (hlast : LastOK (f, []) m)
    (hm : m < id) (hid : id < 2 ^ 64) : GrowOK (grow f [] id) (f, []) id := by
  have hfM : f < 2 ^ 64 := hok.1
  have hfm : f ≤ m := hlast.1
  have hd : (id + (2 ^ 64 - f)) % 2 ^ 64 = id - f := by omega
  have hlt : ∀ x ∈ decode (f, [1]), x < id := by
    intro x hx
    rw [decode_one hfM, List.mem_singleton] at hx
    omega
  simp only [grow, hd]
  split_ifs with h64 h128
  · obtain ⟨h1, h2, h3, h4⟩ := mask_ext isMask_one (blockOK_one hfM) hlt (by omega) hid 0
      (by simp) (by simp; omega)
    have e : setBit ([1] ++ List.replicate 0 0) (id - f) = [1 ||| 1 <<< (id - f)] := by
      simp [setBit, orWord, Nat.div_eq_of_lt h64, Nat.mod_eq_of_lt h64]
    rw [e] at h1 h2 h3 h4
    rw [decode_one hfM] at h1
    exact growOK_mask h3 h1 h2 (by simpa [decode_single] using (show f < id by omega))
      (by omega) (by simp; omega)
  · obtain ⟨h1, h2, h3, h4⟩ := mask_ext isMask_one (blockOK_one hfM) hlt (by omega) hid 1
      (by simp) (by simp; omega)
    have e : setBit ([1] ++ List.replicate 1 0) (id - f) = [1, 1 <<< (id - f - 64)] := by
      have e1 : (id - f) / 64 = 1 := by omega
      have e2 : (id - f) % 64 = id - f - 64 := by omega
      simp [setBit, orWord, e1, e2]
    rw [e] at h1 h2 h3 h4
    rw [decode_one hfM] at h1
    exact growOK_mask h3 h1 h2 (by simpa [decode_single] using (show f < id by omega))
      (by omega) (by simp; omega)
  · exact growOK_new hok hid

theorem decode_run {w : Nat} (hw : ¬ (w &&& 1 ≠ 0)) (f : Nat) (r : List Nat) :
    decode (f, w :: r) = (List.range (w / 2)).map (fun i => (f + i) % 2 ^ 64) := by
  simp only [decode, if_neg hw]

theorem lastOK_run {w : Nat} (hw : ¬ (w &&& 1 ≠ 0)) (f m : Nat) (r : List Nat) :
    LastOK (f, w :: r) m ↔ f ≤ m ∧ ∀ x ∈ decode (f, w :: r), x ≤ m := by
  simp only [LastOK]
  constructor
  · rintro ⟨h1, h2, _⟩; exact ⟨h1, h2⟩
  · rintro ⟨h1, h2⟩; exact ⟨h1, h2, fun h => absurd h hw⟩

theorem blockOK_run {w : Nat} (hw : ¬ (w &&& 1 ≠ 0)) (f : Nat) (r : List Nat) :
    BlockOK (f, w :: r) ↔ f < 2 ^ 64 ∧ r = [] ∧ 1 ≤ w / 2 ∧ f + w / 2 ≤ 2 ^ 64 := by
  simp only [BlockOK, if_neg hw]

theorem grow_spec_one (f w m id n : Nat) (hok : BlockOK (f, [w])) (hlast : LastOK (f, [w]) m)
    (hlen : (decode (f, [w])).length ≤ n) (hn : n + 1 < 2 ^ 63)
    (hm : m < id) (hid : id < 2 ^ 64) : GrowOK (grow f [w] id) (f, [w]) id := by
  have hfM : f < 2 ^ 64 := hok.1
  have hfm : f ≤ m := hlast.1
  have hd : (id + (2 ^ 64 - f)) % 2 ^ 64 = id - f := by omega
  have hlt : ∀ x ∈ decode (f, [w]), x < id := fun x hx => Nat.lt_of_le_of_lt (hlast.2.1 x hx) hm
  simp only [grow, hd]
  by_cases hodd : w &&& 1 ≠ 0
  · have hmask : IsMask [w] := ⟨w, [], rfl, hodd⟩
    rw [if_pos hodd]
    split_ifs with h192 h64
    · obtain ⟨h1, h2, h3, h4⟩ := mask_ext hmask hok hlt (by omega) hid ((id - f) / 64)
        (by simp; omega) (by simp)
      rw [resize_eq_append _ _ (by simp)]
      simp only [List.length_singleton, Nat.add_sub_cancel_left] at h1 h2 h3 h4 ⊢
      exact growOK_mask h3 h1 h2 hlt (by omega) (by rw [h4]; omega)
    · obtain ⟨h1, h2, h3, h4⟩ := mask_ext hmask hok hlt (by omega) hid 0
        (by simp) (by simp; omega)
      simp only [List.replicate_zero, List.append_nil, List.length_singleton] at h1 h2 h3 h4
      exact growOK_mask h3 h1 h2 hlt (by omega) (by rw [h4]; omega)
    · exact growOK_new hok hid
  · rw [if_neg hodd]
    obtain ⟨_, _, hc1, hc2⟩ := (blockOK_run hodd f []).mp hok
    have hev : w % 2 = 0 := by
      have := Nat.and_one_is_mod w
      omega
    rw [decode_run hodd, List.length_map, List.length_range] at hlen
    split_ifs with hrun
    · have hw2 : (w + 2) % 2 ^ 64 = w + 2 := Nat.mod_eq_of_lt (by omega)
      have hodd2 : ¬ ((w + 2) &&& 1 ≠ 0) := by
        rw [Nat.and_one_is_mod]; omega
      have hdec : decode (f, [w + 2]) = decode (f, [w]) ++ [id] := by
        rw [decode_run hodd2, decode_run hodd, show (w + 2) / 2 = w / 2 + 1 by omega,
          List.range_succ, List.map_append]
        simp only [List.map_cons, List.map_nil]
        rw [show f + w / 2 = id by omega, Nat.mod_eq_of_lt hid]
      rw [hw2]
      refine ⟨[], (f, [w + 2]), rfl, by rw [decodeAll_single, hdec], fun c hc => ?_, ?_⟩
      · rw [List.mem_singleton.mp hc, blockOK_run hodd2]
        exact ⟨hfM, rfl, by omega, by omega⟩
      · rw [lastOK_run hodd2, hdec]
        refine ⟨by omega, fun x hx => ?_⟩
        rcases List.mem_append.mp hx with h | h
        · exact Nat.le_of_lt (hlt x h)
        · rw [List.mem_singleton.mp h]
    · exact growOK_new hok hid

theorem grow_many (f : Nat) (t : List Nat) (id : Nat) (h2 : 2 ≤ t.length) :
    grow f t id =
      if ((id + (2 ^ 64 - f)) % 2 ^ 64 + 1) % 2 ^ 64 = (t.length * 64) % 2 ^ 64 ∧ t.length ≥ 4 then
        if fullCountOf (orWord t (t.length - 1) (1 <<< 63)) ≥ 4 then
          if fullCountOf (orWord t (t.length - 1) (1 <<< 63)) = t.length then
            [(f, [((fullCountOf (orWord t (t.length - 1) (1 <<< 63)) * 64) * 2) % 2 ^ 64])]
          else
            [(f, (orWord t (t.length - 1) (1 <<< 63)).take
                (t.length - fullCountOf (orWord t (t.length - 1) (1 <<< 63)))),
             ((f + ((t.length - fullCountOf (orWord t (t.length - 1) (1 <<< 63))) * 64) % 2 ^ 64)
                % 2 ^ 64,
              [((fullCountOf (orWord t (t.length - 1) (1 <<< 63)) * 64) * 2) % 2 ^ 64])]
        else [(f, orWord t (t.length - 1) (1 <<< 63))]
      else if (id + (2 ^ 64 - f)) % 2 ^ 64 < ((t.length + 2) * 64) % 2 ^ 64 then
        [(f, setBit (if (id + (2 ^ 64 - f)) % 2 ^ 64 ≥ (t.length * 64) % 2 ^ 64
                      then resize t (1 + (id + (2 ^ 64 - f)) % 2 ^ 64 / 64) else t)
              ((id + (2 ^ 64 - f)) % 2 ^ 64))]
      else [(f, t), (id, [])] := by
  match t, h2 with
  | w :: w1 :: r, _ => simp only [grow]

theorem isMask_of_blockOK {f : Nat} {t : List Nat} (hok : BlockOK (f, t)) (h2 : 2 ≤ t.length) :
    IsMask t := by
  match t, h2 with
  | w :: w1 :: r, _ =>
    by_cases hodd : w &&& 1 ≠ 0
    · exact ⟨w, w1 :: r, rfl, hodd⟩
    · have := ((blockOK_run hodd f (w1 :: r)).mp hok).2.1
      simp at this

theorem bits_length_decode {t : List Nat} (hm : IsMask t) (f : Nat) :
    (decode (f, t)).length = (bits t).length := by
  rw [decode_mask hm, List.length_map]

theorem grow_spec_many (f : Nat) (t : List Nat) (m id n : Nat) (h2 : 2 ≤ t.length)
    (hok : BlockOK (f, t)) (hlast : LastOK (f, t) m)
    (hlen : (decode (f, t)).length ≤ n) (hn : n + 1 < 2 ^ 63)
    (hm : m < id) (hid : id < 2 ^ 64) : GrowOK (grow f t id) (f, t) id := by
  have hmask : IsMask t := isMask_of_blockOK hok h2
  obtain ⟨hfM, hB, hnw⟩ := (blockOK_mask hmask f).mp hok
  obtain ⟨hfm, hle, hlastw⟩ := (lastOK_mask hmask f m).mp hlast
  have hd : (id + (2 ^ 64 - f)) % 2 ^ 64 = id - f := by omega
  have hlt : ∀ x ∈ decode (f, t), x < id := fun x hx => Nat.lt_of_le_of_lt (hle x hx) hm
  rw [grow_many f t id h2]
  simp only [hd]
  generalize hBdef : t.length = B at *
  by_cases htrig : (id - f + 1) % 2 ^ 64 = (B * 64) % 2 ^ 64 ∧ B ≥ 4
  · rw [if_pos htrig]
    have hdB : id - f + 1 = B * 64 := by omega
    obtain ⟨h1, h2', h3, h4⟩ := mask_ext hmask hok hlt (by omega) hid 0
      (by rw [hBdef]; omega) (by rw [hBdef]; omega)
    have e : setBit (t ++ List.replicate 0 0) (id - f) = orWord t (B - 1) (1 <<< 63) := by
      have e1 : (id - f) / 64 = B - 1 := by omega
      have e2 : (id - f) % 64 = 63 := by omega
      simp [setBit, e1, e2]
    rw [e] at h1 h2' h3 h4
    rw [hBdef, Nat.add_zero] at h4
    generalize orWord t (B - 1) (1 <<< 63) = t1 at h1 h2' h3 h4 ⊢
    obtain ⟨_, _, hnw1⟩ := (blockOK_mask h3 f).mp h2'
    have hfc := fullCountOf_le t1
    have hsplit := take_fullCountOf t1
    rw [h4] at hfc hsplit
    generalize fullCountOf t1 = fc at hfc hsplit ⊢
    have htl : (t1.take (B - fc)).length = B - fc := by
      rw [List.length_take, h4]; omega
    have hbits : bits t1 = bits (t1.take (B - fc)) ++ List.range' ((B - fc) * 64) (fc * 64) := by
      have := bits_append_full (t := t1.take (B - fc)) (k := fc) (by rw [htl]; omega)
      rw [← hsplit, htl] at this
      exact this
    have hcount : fc * 64 ≤ n + 1 := by
      have h5 : (decode (f, t1)).length = (decode (f, t)).length + 1 := by rw [h1]; simp
      rw [bits_length_decode h3, hbits] at h5
      simp only [List.length_append, List.length_range'] at h5
      omega
    have hW : ((fc * 64) * 2) % 2 ^ 64 = fc * 128 := by omega
    have hoddW : ¬ ((fc * 128) &&& 1 ≠ 0) := by
      rw [Nat.and_one_is_mod]; omega
    have hW2 : fc * 128 / 2 = fc * 64 := by omega
    have hle1 : ∀ x ∈ decode (f, t1), x ≤ id := by
      intro x hx
      rw [h1] at hx
      rcases List.mem_append.mp hx with h | h
      · exact Nat.le_of_lt (hlt x h)
      · rw [List.mem_singleton.mp h]
    rw [hW]
    split_ifs with hfc4 hfull
    · have hdec : decode (f, [fc * 128]) = decode (f, t1) := by
        rw [decode_run hoddW, decode_mask h3, hbits, hW2, hfull, Nat.sub_self, List.take_zero,
          List.range_eq_range']
        simp [bits]
      refine ⟨[], _, rfl, by rw [decodeAll_single, hdec, h1], fun c hc => ?_, ?_⟩
      · rw [List.mem_singleton.mp hc, blockOK_run hoddW]
        exact ⟨hfM, rfl, by omega, by omega⟩
      · rw [lastOK_run hoddW, hdec]
        exact ⟨by omega, hle1⟩
    · have hm0 : IsMask (t1.take (B - fc)) := isMask_take h3 (by omega)
      have hf' : (f + ((B - fc) * 64) % 2 ^ 64) % 2 ^ 64 = f + (B - fc) * 64 := by omega
      rw [hf']
      have hdec : decode (f, t1.take (B - fc)) ++ decode (f + (B - fc) * 64, [fc * 128])
          = decode (f, t1) := by
        rw [decode_run hoddW, decode_mask h3, decode_mask hm0, hbits, hW2, List.map_append,
          List.range'_eq_map_range, List.map_map]
        congr 1
        apply List.map_congr_left
        intro i _
        simp only [Function.comp]
        rw [Nat.add_assoc]
      have hdecAll : decodeAll [(f, t1.take (B - fc)), (f + (B - fc) * 64, [fc * 128])]
          = decode (f, t) ++ [id] := by
        rw [decodeAll_pair, hdec, h1]
      refine ⟨[(f, t1.take (B - fc))], _, rfl, hdecAll, fun c hc => ?_, ?_⟩
      · rcases List.mem_cons.mp hc with h | h
        · rw [h, blockOK_mask hm0, htl]
          refine ⟨hfM, by omega, fun i hi => hnw1 i ?_⟩
          rw [hbits]; exact List.mem_append_left _ hi
        · rw [List.mem_singleton.mp h, blockOK_run hoddW]
          exact ⟨by omega, rfl, by omega, by omega⟩
      · rw [lastOK_run hoddW]
        refine ⟨by omega, fun x hx => hle1 x ?_⟩
        rw [← hdec]; exact List.mem_append_right _ hx
    · exact growOK_mask h3 h1 h2' hlt (by omega) (by rw [h4]; omega)
  · rw [if_neg htrig]
    split_ifs with hext hrs
    · have hk : t.length + (1 + (id - f) / 64 - B) < 2 ^ 58 := by rw [hBdef]; omega
      obtain ⟨h1, h2', h3, h4⟩ := mask_ext hmask hok hlt (by omega) hid
        (1 + (id - f) / 64 - B) hk (by rw [hBdef]; omega)
      rw [resize_eq_append _ _ (by rw [hBdef]; omega), hBdef]
      exact growOK_mask h3 h1 h2' hlt (by omega) (by rw [h4, hBdef]; omega)
    · obtain ⟨h1, h2', h3, h4⟩ := mask_ext hmask hok hlt (by omega) hid 0
        (by rw [hBdef]; omega) (by rw [hBdef]; omega)
      simp only [List.replicate_zero, List.append_nil, Nat.add_zero] at h1 h2' h3 h4
      exact growOK_mask h3 h1 h2' hlt (by omega) (by rw [h4, hBdef]; omega)
    · exact growOK_new hok hid

/-- The growth step is correct on a well-formed last block when a larger id is pushed and
fewer than 2^63 ids are stored. -/
theorem grow_spec (f : Nat) (t : List Nat) (m id n : Nat)
    (hok : BlockOK (f, t)) (hlast : LastOK (f, t) m)
    (hlen : (decode (f, t)).length ≤ n) (hn : n + 1 < 2 ^ 63)
    (hm : m < id) (hid : id < 2 ^ 64) : GrowOK (grow f t id) (f, t) id := by
  match t with
  | [] => exact grow_spec_nil f m id hok hlast hm hid
  | [w] => exact grow_spec_one f w m id n hok hlast hlen hn hm hid
  | w :: w1 :: r =>
    exact grow_spec_many f (w :: w1 :: r) m id n (by simp) hok hlast hlen hn hm hid

theorem built_init {a : Nat} (ha : a < 2 ^ 64) : Built [(a, [])] [a] :=
  ⟨fun b hb => by rw [List.mem_singleton.mp hb]; exact blockOK_single ha, rfl,
    [], (a, []), a, rfl, rfl, lastOK_single a⟩

theorem built_step {bs : List Block} {seq : List Nat} {id : Nat} (hb : Built bs seq)
    (hlen : seq.length + 1 < 2 ^ 63) (hgt : ∀ x ∈ seq, x < id) (hid : id < 2 ^ 64) :
    ∃ bs0 f t, bs = bs0 ++ [(f, t)] ∧ f < id ∧ Built (bs0 ++ grow f t id) (seq ++ [id]) := by
  obtain ⟨hall, hdec, bs0, ⟨f, t⟩, m, rfl, hm, hlast⟩ := hb
  have hmem : m ∈ seq := List.mem_of_getLast?_eq_some hm
  have hmid : m < id := hgt m hmem
  have hdl : (decode (f, t)).length ≤ seq.length := by
    rw [← hdec, decodeAll_append, decodeAll_single, List.length_append]
    omega
  obtain ⟨g0, b1, hg, hgdec, hgok, hglast⟩ :=
    grow_spec f t m id seq.length (hall (f, t) (by simp)) hlast hdl hlen hmid hid
  refine ⟨bs0, f, t, rfl, Nat.lt_of_le_of_lt hlast.1 hmid, ?_, ?_, bs0 ++ g0, b1, id, ?_, ?_, hglast⟩
  · intro c hc
    rcases List.mem_append.mp hc with h | h
    · exact hall c (List.mem_append_left _ h)
    · exact hgok c h
  · rw [decodeAll_append, hgdec, ← List.append_assoc, ← decodeAll_single (f, t),
      ← decodeAll_append, hdec]
  · rw [hg, List.append_assoc]
  · simp

theorem count_ofBlocks (c : Nat) (bs : List Block) : (ofBlocks c bs).count = c := rfl

/-- Pushing further ascending ids onto a state built from `seq` (through `innPush` or
through `push`) gives a state built from the longer sequence. -/
theorem built_pushes (rest : List Nat) :
    ∀ (bs : List Block) (seq : List Nat), Built bs seq →
      (seq ++ rest).Pairwise (· < ·) → (∀ x ∈ rest, x < 2 ^ 64) →
      (seq ++ rest).length < 2 ^ 63 →
      ∃ bs1, Built bs1 (seq ++ rest) ∧
        rest.foldlM innPush (ofBlocks seq.length bs) = some (ofBlocks (seq ++ rest).length bs1) ∧
        pushAll (ofBlocks seq.length bs) rest = .returned (ofBlocks (seq ++ rest).length bs1) := by
  induction rest with
  | nil =>
    intro bs seq hb _ _ _
    exact ⟨bs, by simpa using hb, by simp, by simp [pushAll]⟩
  | cons id rest ih =>
    intro bs seq hb hasc hbd hlen
    have hid : id < 2 ^ 64 := hbd id (List.mem_cons_self _ _)
    have hgt : ∀ x ∈ seq, x < id := fun x hx =>
      (List.pairwise_append.mp hasc).2.2 x hx id (List.mem_cons_self _ _)
    simp only [List.length_append, List.length_cons] at hlen
    obtain ⟨bs0, f, t, rfl, hfid, hb1⟩ := built_step hb (by omega) hgt hid
    have e : seq ++ id :: rest = (seq ++ [id]) ++ rest := by simp
    have hc : (seq.length + 1) % 2 ^ 64 = (seq ++ [id]).length := by
      rw [Nat.mod_eq_of_lt (by omega)]; simp
    obtain ⟨bs1, hb2, h1, h2⟩ := ih (bs0 ++ grow f t id) (seq ++ [id]) hb1 (by rw [← e]; exact hasc)
      (fun x hx => hbd x (List.mem_cons_of_mem _ hx))
      (by simp only [List.length_append, List.length_cons, List.length_nil]; omega)
    refine ⟨bs1, by rw [e]; exact hb2, ?_, ?_⟩
    · rw [List.foldlM_cons, innPush_ofBlocks, hc, e]
      exact h1
    · rw [pushAll, push_ofBlocks _ _ _ _ _ hfid, hc, e]
      exact h2

/-- Every non-empty strictly ascending sequence of fewer than 2^63 64-bit ids is built,
by the range constructor and by sequential pushes alike, into a state that satisfies the
invariant. -/
theorem built_of_ascending (seq : List Nat) (hne : seq ≠ []) (hasc : seq.Pairwise (· < ·))
    (hbd : ∀ x ∈ seq, x < 2 ^ 64) (hlen : seq.length < 2 ^ 63) :
    ∃ bs, Built bs seq ∧ ofRange seq = .returned (ofBlocks seq.length bs) ∧
      pushAll fixedIdset.default seq = .returned (ofBlocks seq.length bs) := by
  cases seq with
  | nil => exact absurd rfl hne
  | cons a rest =>
    obtain ⟨bs1, hb, h1, h2⟩ := built_pushes rest [(a, [])] [a]
      (built_init (hbd a (List.mem_cons_self _ _))) hasc
      (fun x hx => hbd x (List.mem_cons_of_mem _ hx)) hlen
    refine ⟨bs1, hb, ?_, ?_⟩
    · simp only [ofRange, push_default]
      rw [show ofBlocks 1 [(a, [])] = ofBlocks [a].length [(a, [])] from rfl, h1]
      rfl
    · simp only [pushAll, push_default]
      exact h2

/-- The member `getIds` on an object given by its blocks: `reserve` throws when the count
word exceeds `max_size`, a `push_back` throws when the ids of the blocks are more than
`max_size`, and otherwise the ids of the blocks are returned. -/
theorem getIds_ofBlocks (c : Nat) (bs : List Block) :
    getIds (ofBlocks c bs) =
      if c > max_size then .length_error
      else if (decodeAll bs).length > max_size then .length_error
      else .returned (decodeAll bs) := by
  unfold getIds
  rw [getIdsLoop_ofBlocks]
  rfl

theorem getIds_of_built {bs : List Block} {seq : List Nat} (hb : Built bs seq) (c : Nat)
    (hc : c ≤ max_size) (hl : seq.length ≤ max_size) :
    getIds (ofBlocks c bs) = .returned seq := by
  rw [getIds_ofBlocks, hb.2.1, if_neg (by omega), if_neg (by omega)]

theorem max_size_lt : max_size < 2 ^ 63 := by decide

theorem ofRange_snoc (l : List Nat) (x : Nat) (s : fixedIdset) (h : ofRange l = .returned s) :
    ofRange (l ++ [x]) = match innPush s x with
      | some s1 => .returned s1
      | none => .undefined := by
  cases l with
  | nil => simp [ofRange] at h
  | cons a rest =>
    simp only [ofRange, push_default, List.cons_append] at h ⊢
    rw [List.foldlM_append]
    cases hf : rest.foldlM innPush (ofBlocks 1 [(a, [])]) with
    | none => rw [hf] at h; simp at h
    | some s1 =>
      rw [hf] at h
      simp only [Outcome.returned.injEq] at h
      subst h
      simp only [Option.bind_eq_bind, Option.some_bind, List.foldlM_cons, List.foldlM_nil]
      cases innPush s1 x <;> rfl

theorem grow_run_next (k : Nat) (hk : k < 2 ^ 63) :
    grow 0 [(2 * k) % 2 ^ 64] k = [(0, [(2 * (k + 1)) % 2 ^ 64])] := by
  have h1 : (2 * k) % 2 ^ 64 = 2 * k := Nat.mod_eq_of_lt (by omega)
  have hodd : ¬ ((2 * k) &&& 1 ≠ 0) := by rw [Nat.and_one_is_mod]; omega
  have hd : (k + (2 ^ 64 - 0)) % 2 ^ 64 = k := by omega
  simp only [grow, h1, hd, if_neg hodd]
  rw [if_pos (by omega)]
  congr 3

/-- Pushing the consecutive ids 0, ..., k - 1 for 256 ≤ k ≤ 2^63 leaves the single run block
`[0, 2 * k mod 2^64]`. -/
theorem consecutive_run (k : Nat) (hk : 256 ≤ k) (hk2 : k ≤ 2 ^ 63) :
    ofRange (List.range k) = .returned (ofBlocks k [(0, [(2 * k) % 2 ^ 64])]) ∧
    pushAll fixedIdset.default (List.range k)
      = .returned (ofBlocks k [(0, [(2 * k) % 2 ^ 64])]) := by
  induction k, hk using Nat.le_induction with
  | base => exact ⟨by decide!, by decide!⟩
  | succ k hk ih =>
    obtain ⟨h1, h2⟩ := ih (by omega)
    have hg := grow_run_next k (by omega)
    have hc : (k + 1) % 2 ^ 64 = k + 1 := Nat.mod_eq_of_lt (by omega)
    constructor
    · rw [List.range_succ, ofRange_snoc _ _ _ h1,
        show ofBlocks k [(0, [(2 * k) % 2 ^ 64])] = ofBlocks k ([] ++ [(0, [(2 * k) % 2 ^ 64])])
          from rfl, innPush_ofBlocks, hg, hc]
      rfl
    · rw [List.range_succ, pushAll_append, h2]
      simp only [pushAll]
      rw [show ofBlocks k [(0, [(2 * k) % 2 ^ 64])] = ofBlocks k ([] ++ [(0, [(2 * k) % 2 ^ 64])])
          from rfl, push_ofBlocks _ _ _ _ _ (by omega), hg, hc]
      rfl

/-- C1, counterexample: the 2^63 consecutive ids 0, ..., 2^63 - 1 are strictly ascending
64-bit ids and the range constructor returns, with the count word at 2^63; `getIds` then
throws `std::length_error` from `v.reserve(count())` instead of yielding the sequence. -/
theorem round_trip_fails_at_two_pow_63 :
    List.range (2 ^ 63) ≠ [] ∧ (List.range (2 ^ 63)).Pairwise (· < ·) ∧
    (∀ x ∈ List.range (2 ^ 63), x < 2 ^ 64) ∧
    ofRange (List.range (2 ^ 63)) = .returned ⟨[1], [2 ^ 63, 0, 0]⟩ ∧
    count ⟨[1], [2 ^ 63, 0, 0]⟩ = 2 ^ 63 ∧
    getIds ⟨[1], [2 ^ 63, 0, 0]⟩ = .length_error ∧
    getIds ⟨[1], [2 ^ 63, 0, 0]⟩ ≠ .returned (List.range (2 ^ 63)) := by
  have hget : getIds ⟨[1], [2 ^ 63, 0, 0]⟩ = .length_error := by decide
  refine ⟨?_, List.pairwise_lt_range _, ?_, ?_, rfl, hget, ?_⟩
  · intro h
    have := congrArg List.length h
    simp at this
  · intro x hx
    have := List.mem_range.mp hx
    omega
  · exact (consecutive_run (2 ^ 63) (by norm_num) (le_refl _)).1
  · rw [hget]
    exact fun h => IdsOutcome.noConfusion h

/-- C1, amended: for every non-empty strictly ascending sequence of at most `max_size`
(2^60 - 1) 64-bit ids the range constructor returns and `getIds` then yields exactly the
sequence, in order; `push(5); push(6); push(7)` gives `getIds == [5, 6, 7]`. -/
theorem round_trip (seq : List Nat) (hne : seq ≠ []) (hasc : seq.Pairwise (· < ·))
    (hbd : ∀ x ∈ seq, x < 2 ^ 64) (hlen : seq.length ≤ max_size) :
    (∃ s, ofRange seq = .returned s ∧ getIds s = .returned seq) ∧
    pushAll fixedIdset.default [5, 6, 7] = .returned ⟨[1], [3, 5, 7]⟩ ∧
    getIds ⟨[1], [3, 5, 7]⟩ = .returned [5, 6, 7] := by
  have h63 := max_size_lt
  obtain ⟨bs, hb, h1, _⟩ := built_of_ascending seq hne hasc hbd (by omega)
  exact ⟨⟨_, h1, getIds_of_built hb _ hlen hlen⟩, by decide, by decide⟩

theorem round_trip_witness :
    ([5, 6, 7] : List Nat) ≠ [] ∧ ([5, 6, 7] : List Nat).Pairwise (· < ·) ∧
    (∀ x ∈ ([5, 6, 7] : List Nat), x < 2 ^ 64) ∧ ([5, 6, 7] : List Nat).length ≤ max_size ∧
    ((∃ s, ofRange [5, 6, 7] = .returned s ∧ getIds s = .returned [5, 6, 7]) ∧
    pushAll fixedIdset.default [5, 6, 7] = .returned ⟨[1], [3, 5, 7]⟩ ∧
    getIds ⟨[1], [3, 5, 7]⟩ = .returned [5, 6, 7]) :=
  ⟨by decide, by decide, by decide, by decide,
    round_trip [5, 6, 7] (by decide) (by decide) (by decide) (by decide)⟩

/-- C5, counterexample: the 2^63 - 1 strictly ascending pushes 0, ..., 2^63 - 2 return and
leave the run block `[0, 2^64 - 2]`; `push(2^63 - 1)` returns and `count` grows by 1 to
2^63, but the run word wraps to 0, and `getIds` afterwards throws `std::length_error` from
`v.reserve(count())`: it yields no vector, so not the previous ids with the id appended. -/
theorem push_postcondition_fails_at_two_pow_63 :
    (List.range (2 ^ 63 - 1)).Pairwise (· < ·) ∧
    (∀ x ∈ List.range (2 ^ 63 - 1), x < 2 ^ 63 - 1) ∧ 2 ^ 63 - 1 < 2 ^ 64 ∧
    pushAll fixedIdset.default (List.range (2 ^ 63 - 1))
      = .returned ⟨[1], [2 ^ 63 - 1, 0, 2 ^ 64 - 2]⟩ ∧
    push ⟨[1], [2 ^ 63 - 1, 0, 2 ^ 64 - 2]⟩ (2 ^ 63 - 1) = .returned ⟨[1], [2 ^ 63, 0, 0]⟩ ∧
    count ⟨[1], [2 ^ 63, 0, 0]⟩ = count ⟨[1], [2 ^ 63 - 1, 0, 2 ^ 64 - 2]⟩ + 1 ∧
    getIds ⟨[1], [2 ^ 63, 0, 0]⟩ = .length_error ∧
    getIds ⟨[1], [2 ^ 63, 0, 0]⟩ ≠ .returned (List.range (2 ^ 63 - 1) ++ [2 ^ 63 - 1]) := by
  have hget : getIds ⟨[1], [2 ^ 63, 0, 0]⟩ = .length_error := by decide
  refine ⟨List.pairwise_lt_range _, fun x hx => List.mem_range.mp hx, by norm_num, ?_,
    by decide, by decide, hget, ?_⟩
  · exact (consecutive_run (2 ^ 63 - 1) (by norm_num) (by norm_num)).2
  · rw [hget]
    exact fun h => IdsOutcome.noConfusion h

/-- C5, amended: after pushing a strictly ascending sequence of 64-bit ids that, with the
new id, has at most `max_size` (2^60 - 1) ids, `push` of a larger 64-bit id returns, `count`
grows by exactly 1 and `getIds` is the previous result with the id appended; on the empty
set `push` leaves `m_idBuf == [1, id]` and `m_idOff == [1]`. -/
theorem push_postcondition (seq : List Nat) (id : Nat) (hasc : seq.Pairwise (· < ·))
    (hbd : ∀ x ∈ seq, x < 2 ^ 64) (hlen : seq.length + 1 ≤ max_size)
    (hgt : ∀ x ∈ seq, x < id) (hid : id < 2 ^ 64) :
    (∃ s s1, pushAll fixedIdset.default seq = .returned s ∧ push s id = .returned s1 ∧
      s1.count = s.count + 1 ∧ getIds s = .returned seq ∧
      getIds s1 = .returned (seq ++ [id])) ∧
    push fixedIdset.default id = .returned ⟨[1], [1, id]⟩ := by
  have h63 := max_size_lt
  refine ⟨?_, rfl⟩
  by_cases hne : seq = []
  · subst hne
    exact ⟨fixedIdset.default, ofBlocks 1 [(id, [])], rfl, push_default id, rfl, by decide,
      getIds_of_built (built_init hid) 1 (by decide)
        (by rw [List.length_singleton]; decide)⟩
  · obtain ⟨bs, hb, _, h2⟩ := built_of_ascending seq hne hasc hbd (by omega)
    obtain ⟨bs0, f, t, rfl, hfid, hb1⟩ := built_step hb (by omega) hgt hid
    refine ⟨_, _, h2, push_ofBlocks _ _ _ _ _ hfid, ?_,
      getIds_of_built hb _ (by omega) (by omega),
      getIds_of_built hb1 _ ?_ (by simp only [List.length_append, List.length_singleton]; omega)⟩
    · rw [count_ofBlocks, count_ofBlocks, Nat.mod_eq_of_lt (by omega)]
    · have := Nat.mod_le (seq.length + 1) (2 ^ 64)
      omega

theorem push_postcondition_witness :
    ([5, 6] : List Nat).Pairwise (· < ·) ∧ (∀ x ∈ ([5, 6] : List Nat), x < 2 ^ 64) ∧
    ([5, 6] : List Nat).length + 1 ≤ max_size ∧ (∀ x ∈ ([5, 6] : List Nat), x < 7) ∧
    7 < 2 ^ 64 ∧
    ((∃ s s1, pushAll fixedIdset.default [5, 6] = .returned s ∧ push s 7 = .returned s1 ∧
      s1.count = s.count + 1 ∧ getIds s = .returned [5, 6] ∧
      getIds s1 = .returned ([5, 6] ++ [7])) ∧
    push fixedIdset.default 7 = .returned ⟨[1], [1, 7]⟩) :=
  ⟨by decide, by decide, by decide, by decide, by decide,
    push_postcondition [5, 6] 7 (by decide) (by decide) (by decide) (by decide) (by decide)⟩

theorem split_at {bs : List Block} {j : Nat} (hj : j < bs.length) :
    bs = bs.take j ++ bs[j] :: bs.drop (j + 1) ∧ (bs.take j).length = j := by
  constructor
  · rw [← List.drop_eq_getElem_cons hj, List.take_append_drop]
  · rw [List.length_take]; omega

theorem firstAt_eq {bs : List Block} {j : Nat} (hj : j < bs.length) :
    firstAt bs j = bs[j].1 := by
  simp [firstAt, List.getD_eq_getElem?_getD, List.getElem?_eq_getElem hj]

theorem off_first (c : Nat) (bs : List Block) (j : Nat) (hj : j < bs.length) :
    ∃ o, (ofBlocks c bs).m_idOff[j]? = some o ∧
      (ofBlocks c bs).m_idBuf[o]? = some (firstAt bs j) := by
  obtain ⟨hs, hl⟩ := split_at hj
  refine ⟨(flat (bs.take j)).length + 1, ?_, ?_⟩
  · have := start_ofBlocks c (bs.take j) (bs.drop (j + 1)) bs[j]
    rw [← hs, hl] at this
    exact this
  · have := first_ofBlocks c (bs.take j) (bs.drop (j + 1)) bs[j]
    rw [← hs] at this
    rw [this, firstAt_eq hj]

/-- The halving search returns the number of blocks whose first id is at most `id`, when
the first ids increase strictly. -/
theorem upperBound_spec (c : Nat) (bs : List Block) (id : Nat)
    (hmono : ∀ i j, i < j → j < bs.length → firstAt bs i < firstAt bs j) :
    ∀ fuel first len, len ≤ fuel → first + len ≤ bs.length →
      (∀ j, j < first → firstAt bs j ≤ id) →
      (∀ j, first + len ≤ j → j < bs.length → id < firstAt bs j) →
      ∃ p, upperBound (ofBlocks c bs) id fuel first len = some p ∧ p ≤ bs.length ∧
        (∀ j, j < p → firstAt bs j ≤ id) ∧
        (∀ j, p ≤ j → j < bs.length → id < firstAt bs j) := by
  intro fuel
  induction fuel with
  | zero =>
    intro first len hlen hb hlo hhi
    have : len = 0 := by omega
    subst this
    exact ⟨first, by simp [upperBound], by omega, hlo, fun j hj => hhi j (by omega)⟩
  | succ fuel ih =>
    intro first len hlen hb hlo hhi
    by_cases h0 : len = 0
    · subst h0
      exact ⟨first, by simp [upperBound], by omega, hlo, fun j hj => hhi j (by omega)⟩
    · have hmid : first + len / 2 < bs.length := by omega
      obtain ⟨o, ho1, ho2⟩ := off_first c bs (first + len / 2) hmid
      rw [upperBound, if_neg h0]
      simp only [ho1, ho2]
      by_cases hlt : id < firstAt bs (first + len / 2)
      · rw [if_pos hlt]
        refine ih first (len / 2) (by omega) (by omega) hlo (fun j hj1 hj2 => ?_)
        rcases Nat.eq_or_lt_of_le hj1 with h | h
        · rw [← h]; exact hlt
        · exact Nat.lt_trans hlt (hmono _ _ h hj2)
      · rw [if_neg hlt]
        refine ih (first + len / 2 + 1) (len - len / 2 - 1) (by omega) (by omega)
          (fun j hj => ?_) (fun j hj1 hj2 => hhi j (by omega) hj2)
        rcases Nat.eq_or_lt_of_le (Nat.lt_succ_iff.mp hj) with h | h
        · rw [h]; omega
        · have := hmono _ _ h hmid
          omega

theorem hasId_ofBlocks (c : Nat) (xs ys : List Block) (b : Block) (id : Nat)
    (hub : upperBound (ofBlocks c (xs ++ b :: ys)) id (xs ++ b :: ys).length 0
      (xs ++ b :: ys).length = some (xs.length + 1)) :
    hasId (ofBlocks c (xs ++ b :: ys)) id = some (blockHas b id) := by
  unfold hasId
  rw [ofBlocks_off_length, hub]
  simp only [Option.bind_eq_bind, Option.some_bind, Nat.add_sub_cancel]
  rw [if_neg (by omega), blockBufCount_ofBlocks, start_ofBlocks]
  simp only [Option.some_bind, first_ofBlocks]
  obtain ⟨f, t⟩ := b
  cases t with
  | nil => simp [blockHas]
  | cons w t =>
    have h0 := tail_ofBlocks c xs ys (f, w :: t) 0 (by simp)
    simp only [Nat.add_zero] at h0
    rw [if_neg (by simp), h0]
    simp only [Option.some_bind, List.getD_cons_zero, blockHas]
    by_cases hodd : ¬ (w &&& 1 ≠ 0)
    · rw [if_pos hodd, if_pos hodd]
    · rw [if_neg hodd, if_neg hodd]
      by_cases hlt : (id + (2 ^ 64 - f)) % 2 ^ 64 < ((w :: t).length * 64) % 2 ^ 64
      · rw [if_pos hlt, if_pos hlt]
        have hj : (id + (2 ^ 64 - f)) % 2 ^ 64 / 64 < (w :: t).length := by
          have := Nat.mod_le ((w :: t).length * 64) (2 ^ 64)
          omega
        rw [tail_ofBlocks c xs ys (f, w :: t) _ hj, kthBitU64_lt (Nat.mod_lt _ (by norm_num))]
        simp only [Option.some_bind, bitAt]
      · rw [if_neg hlt, if_neg hlt]

theorem mem_decodeAll {bs : List Block} {x : Nat} :
    x ∈ decodeAll bs ↔ ∃ b ∈ bs, x ∈ decode b := by
  induction bs with
  | nil => simp [decodeAll]
  | cons a bs ih => simp [decodeAll, ih]

theorem mem_decode_mask {t : List Nat} (hm : IsMask t) {f : Nat} (hok : BlockOK (f, t))
    (x : Nat) : x ∈ decode (f, t) ↔ f ≤ x ∧ bitAt t (x - f) = true := by
  obtain ⟨_, hB, hnw⟩ := (blockOK_mask hm f).mp hok
  rw [decode_mask hm, List.mem_map]
  constructor
  · rintro ⟨i, hi, rfl⟩
    rw [Nat.mod_eq_of_lt (hnw i hi), Nat.add_sub_cancel_left]
    exact ⟨Nat.le_add_right _ _, (mem_bits hB i).mp hi⟩
  · rintro ⟨h1, h2⟩
    have hi := (mem_bits hB (x - f)).mpr h2
    refine ⟨x - f, hi, ?_⟩
    rw [Nat.mod_eq_of_lt (hnw _ hi)]
    omega

theorem mem_decode_run {w : Nat} (hw : ¬ (w &&& 1 ≠ 0)) {f : Nat} {r : List Nat}
    (hok : BlockOK (f, w :: r)) (x : Nat) :
    x ∈ decode (f, w :: r) ↔ f ≤ x ∧ x < f + w / 2 := by
  obtain ⟨_, _, _, hb⟩ := (blockOK_run hw f r).mp hok
  rw [decode_run hw, List.mem_map]
  constructor
  · rintro ⟨i, hi, rfl⟩
    have := List.mem_range.mp hi
    rw [Nat.mod_eq_of_lt (by omega)]
    omega
  · rintro ⟨h1, h2⟩
    refine ⟨x - f, List.mem_range.mpr (by omega), ?_⟩
    rw [Nat.mod_eq_of_lt (by omega)]
    omega

theorem decode_ge {b : Block} (hok : BlockOK b) : ∀ x ∈ decode b, b.1 ≤ x := by
  obtain ⟨f, t⟩ := b
  intro x hx
  cases t with
  | nil => rw [decode_single, List.mem_singleton] at hx; omega
  | cons w r =>
    by_cases hodd : w &&& 1 ≠ 0
    · exact ((mem_decode_mask ⟨w, r, rfl, hodd⟩ hok x).mp hx).1
    · exact ((mem_decode_run hodd hok x).mp hx).1

theorem first_mem_decode {b : Block} (hok : BlockOK b) : b.1 ∈ decode b := by
  obtain ⟨f, t⟩ := b
  cases t with
  | nil => simp [decode_single]
  | cons w r =>
    by_cases hodd : w &&& 1 ≠ 0
    · have hm : IsMask (w :: r) := ⟨w, r, rfl, hodd⟩
      rw [mem_decode_mask hm hok, Nat.sub_self]
      exact ⟨le_refl _, (isMask_iff_bitAt _).mp hm⟩
    · obtain ⟨_, _, h1, _⟩ := (blockOK_run hodd f r).mp hok
      rw [mem_decode_run hodd hok]
      exact ⟨le_refl _, by omega⟩

theorem blockHas_spec {b : Block} (hok : BlockOK b) {id : Nat} (hle : b.1 ≤ id)
    (hid : id < 2 ^ 64) (htop : 2 ^ 64 - 1 ∉ decode b) :
    blockHas b id = decide (id ∈ decode b) := by
  obtain ⟨f, t⟩ := b
  cases t with
  | nil =>
    simp only [blockHas, decode_single, List.mem_singleton]
    exact decide_eq_decide.mpr ⟨fun h => h.symm, fun h => h.symm⟩
  | cons w r =>
    by_cases hodd : w &&& 1 ≠ 0
    · have hm : IsMask (w :: r) := ⟨w, r, rfl, hodd⟩
      obtain ⟨_, hB, _⟩ := (blockOK_mask hm f).mp hok
      have hd : (id + (2 ^ 64 - f)) % 2 ^ 64 = id - f := by
        have : f ≤ id := hle
        omega
      simp only [blockHas, if_neg (not_not.mpr hodd), hd]
      rw [Nat.mod_eq_of_lt (by omega)]
      have hiff := mem_decode_mask hm hok id
      by_cases hlt : id - f < (w :: r).length * 64
      · rw [if_pos hlt]
        by_cases hb : bitAt (w :: r) (id - f) = true
        · rw [hb]; exact (decide_eq_true (hiff.mpr ⟨hle, hb⟩)).symm
        · rw [Bool.not_eq_true] at hb
          rw [hb]
          exact (decide_eq_false (fun hc => by
            have := (hiff.mp hc).2; rw [hb] at this; exact Bool.noConfusion this)).symm
      · rw [if_neg hlt]
        exact (decide_eq_false (fun hc => hlt (bitAt_lt (hiff.mp hc).2))).symm
    · obtain ⟨hfM, _, h1, h2⟩ := (blockOK_run hodd f r).mp hok
      have hiff := mem_decode_run hodd hok
      have hlast : f + w / 2 - 1 ∈ decode (f, w :: r) := (hiff _).mpr ⟨by omega, by omega⟩
      have hne : f + w / 2 - 1 ≠ 2 ^ 64 - 1 := fun hc => htop (hc ▸ hlast)
      simp only [blockHas, if_pos hodd]
      rw [Nat.mod_eq_of_lt (by omega)]
      exact decide_eq_decide.mpr ((hiff id).symm)

theorem blocks_ordered (bs : List Block) (hs : (decodeAll bs).Pairwise (· < ·)) :
    bs.Pairwise (fun a b => ∀ x ∈ decode a, ∀ y ∈ decode b, x < y) := by
  induction bs with
  | nil => exact List.Pairwise.nil
  | cons a bs ih =>
    simp only [decodeAll] at hs
    obtain ⟨_, h2, h3⟩ := List.pairwise_append.mp hs
    exact List.Pairwise.cons
      (fun b hb x hx y hy => h3 x hx y (mem_decodeAll.mpr ⟨b, hb, hy⟩)) (ih h2)

/-- On a state built from a strictly ascending sequence that does not contain 2^64 - 1,
`hasId` answers membership in the sequence for every 64-bit id. -/
theorem hasId_built {bs : List Block} {seq : List Nat} (hb : Built bs seq)
    (hasc : seq.Pairwise (· < ·)) (htop : 2 ^ 64 - 1 ∉ seq) (c id : Nat) (hid : id < 2 ^ 64) :
    hasId (ofBlocks c bs) id = some (decide (id ∈ seq)) := by
  obtain ⟨hall, hdec, _⟩ := hb
  have hord := List.pairwise_iff_getElem.mp (blocks_ordered bs (by rw [hdec]; exact hasc))
  have hmono : ∀ i j, i < j → j < bs.length → firstAt bs i < firstAt bs j := by
    intro i j hij hj
    have hi : i < bs.length := by omega
    rw [firstAt_eq hi, firstAt_eq hj]
    exact hord i j hi hj hij _ (first_mem_decode (hall _ (List.getElem_mem _)))
      _ (first_mem_decode (hall _ (List.getElem_mem _)))
  obtain ⟨p, hub, hp, hlo, hhi⟩ := upperBound_spec c bs id hmono bs.length 0 bs.length
    (le_refl _) (by omega) (fun j hj => absurd hj (Nat.not_lt_zero _)) (fun j hj1 hj2 => by omega)
  have hseq : ∀ x, x ∈ seq ↔ ∃ j, ∃ hj : j < bs.length, x ∈ decode bs[j] := by
    intro x
    rw [← hdec, mem_decodeAll]
    constructor
    · rintro ⟨b, hb, hx⟩
      obtain ⟨j, hj, rfl⟩ := List.getElem_of_mem hb
      exact ⟨j, hj, hx⟩
    · rintro ⟨j, hj, hx⟩
      exact ⟨bs[j], List.getElem_mem _, hx⟩
  by_cases hp0 : p = 0
  · subst hp0
    have hnot : id ∉ seq := by
      intro hc
      obtain ⟨j, hj, hx⟩ := (hseq id).mp hc
      have h1 := decode_ge (hall _ (List.getElem_mem _)) id hx
      have h2 := hhi j (Nat.zero_le _) hj
      rw [firstAt_eq hj] at h2
      omega
    unfold hasId
    rw [ofBlocks_off_length, hub]
    simp [hnot]
  · have hj : p - 1 < bs.length := by omega
    obtain ⟨hs, hl⟩ := split_at hj
    have hok := hall _ (List.getElem_mem (l := bs) hj)
    have hfirst : bs[p - 1].1 ≤ id := by
      have := hlo (p - 1) (by omega)
      rwa [firstAt_eq hj] at this
    have hsub : ∀ x ∈ decode bs[p - 1], x ∈ seq := fun x hx => (hseq x).mpr ⟨p - 1, hj, hx⟩
    have hhas : hasId (ofBlocks c bs) id = some (blockHas bs[p - 1] id) := by
      obtain ⟨xs, b, ys, hbs, hxl, hbj⟩ : ∃ xs b ys, bs = xs ++ b :: ys ∧ xs.length = p - 1 ∧
          bs[p - 1] = b := ⟨_, _, _, hs, hl, rfl⟩
      have h := hasId_ofBlocks c xs ys b id (by rw [← hbs, hxl, hub]; congr 1; omega)
      rw [← hbs] at h
      rw [h, hbj]
    rw [hhas, blockHas_spec hok hfirst hid (fun hc => htop (hsub _ hc))]
    congr 1
    apply decide_eq_decide.mpr
    constructor
    · exact hsub id
    · intro hc
      obtain ⟨j, hj', hx⟩ := (hseq id).mp hc
      rcases Nat.lt_trichotomy j (p - 1) with h | h | h
      · have := hord j (p - 1) hj' hj h id hx _ (first_mem_decode hok)
        omega
      · subst h; exact hx
      · have h1 := decode_ge (hall _ (List.getElem_mem _)) id hx
        have h2 := hhi j (by omega) hj'
        rw [firstAt_eq hj'] at h2
        omega

/-- The 256 consecutive ids 2^64 - 256, ..., 2^64 - 1 are compacted into one run block
whose end `first_id + count` is 2^64. -/
theorem top_run_state :
    ofRange (List.range' (2 ^ 64 - 256) 256) = .returned ⟨[1], [256, 2 ^ 64 - 256, 512]⟩ ∧
    pushAll fixedIdset.default (List.range' (2 ^ 64 - 256) 256)
      = .returned ⟨[1], [256, 2 ^ 64 - 256, 512]⟩ ∧
    getIds ⟨[1], [256, 2 ^ 64 - 256, 512]⟩ = .returned (List.range' (2 ^ 64 - 256) 256) ∧
    hasId ⟨[1], [256, 2 ^ 64 - 256, 512]⟩ (2 ^ 64 - 1) = some false := by
  refine ⟨by decide!, by decide!, by decide!, by decide⟩

/-- C2, counterexample: after the range constructor is given the 2^63 strictly ascending
ids 0, ..., 2^63 - 1 the run word has wrapped to 0, and `hasId(0)` is false although 0 is
in the sequence (and below its maximum); and after it is given the 256 ids
2^64 - 256, ..., 2^64 - 1 the run test of `hasId` wraps, and `hasId(2^64 - 1)` is false
although 2^64 - 1 is the maximum of the sequence. -/
theorem membership_fails_at_two_pow_63 :
    (List.range (2 ^ 63) ≠ [] ∧ (List.range (2 ^ 63)).Pairwise (· < ·) ∧
      (∀ x ∈ List.range (2 ^ 63), x < 2 ^ 64) ∧
      ofRange (List.range (2 ^ 63)) = .returned ⟨[1], [2 ^ 63, 0, 0]⟩ ∧
      0 ∈ List.range (2 ^ 63) ∧
      hasId ⟨[1], [2 ^ 63, 0, 0]⟩ 0 = some false) ∧
    (ofRange (List.range' (2 ^ 64 - 256) 256) = .returned ⟨[1], [256, 2 ^ 64 - 256, 512]⟩ ∧
      2 ^ 64 - 1 ∈ List.range' (2 ^ 64 - 256) 256 ∧
      hasId ⟨[1], [256, 2 ^ 64 - 256, 512]⟩ (2 ^ 64 - 1) = some false) := by
  refine ⟨⟨?_, List.pairwise_lt_range _, ?_, ?_, ?_, by decide⟩,
    top_run_state.1, ?_, top_run_state.2.2.2⟩
  · intro h
    have := congrArg List.length h
    simp at this
  · intro x hx
    have := List.mem_range.mp hx
    omega
  · exact (consecutive_run (2 ^ 63) (by norm_num) (le_refl _)).1
  · exact List.mem_range.mpr (by norm_num)
  · exact List.mem_range'_1.mpr ⟨by norm_num, by norm_num⟩

/-- C2, amended: for every non-empty strictly ascending sequence of fewer than 2^63 64-bit
ids that does not contain 2^64 - 1, `hasId(id)` on the set built by the range constructor is
true exactly when `id` is in the sequence, for every 64-bit id (so for every id up to the
maximum); `push(10); push(12)` gives `hasId(11) == false`. -/
theorem membership_agreement (seq : List Nat) (hne : seq ≠ []) (hasc : seq.Pairwise (· < ·))
    (hbd : ∀ x ∈ seq, x < 2 ^ 64) (hlen : seq.length < 2 ^ 63) (htop : 2 ^ 64 - 1 ∉ seq) :
    (∃ s, ofRange seq = .returned s ∧
      ∀ id, id < 2 ^ 64 → hasId s id = some (decide (id ∈ seq))) ∧
    pushAll fixedIdset.default [10, 12] = .returned ⟨[1], [2, 10, 5]⟩ ∧
    hasId ⟨[1], [2, 10, 5]⟩ 11 = some false := by
  obtain ⟨bs, hb, h1, _⟩ := built_of_ascending seq hne hasc hbd hlen
  exact ⟨⟨_, h1, fun id hid => hasId_built hb hasc htop _ id hid⟩, by decide, by decide⟩

theorem membership_agreement_witness :
    ([10, 12] : List Nat) ≠ [] ∧ ([10, 12] : List Nat).Pairwise (· < ·) ∧
    (∀ x ∈ ([10, 12] : List Nat), x < 2 ^ 64) ∧ ([10, 12] : List Nat).length < 2 ^ 63 ∧
    2 ^ 64 - 1 ∉ ([10, 12] : List Nat) ∧
    ((∃ s, ofRange [10, 12] = .returned s ∧
      ∀ id, id < 2 ^ 64 → hasId s id = some (decide (id ∈ ([10, 12] : List Nat)))) ∧
    pushAll fixedIdset.default [10, 12] = .returned ⟨[1], [2, 10, 5]⟩ ∧
    hasId ⟨[1], [2, 10, 5]⟩ 11 = some false) :=
  ⟨by decide, by decide, by decide, by decide, by decide,
    membership_agreement [10, 12] (by decide) (by decide) (by decide) (by decide) (by decide)⟩

/-- C4, counterexample: `push(5); push(7); push(7)` all return and leave `count` at 3 with
only the ids 5 and 7 decoded; and the 2^63 ascending pushes of 0, ..., 2^63 - 1 all return
and leave `count` at 2^63, for which `getIds` produces no vector: `v.reserve(count())`
throws `std::length_error`. -/
theorem count_invariant_fails :
    (pushAll fixedIdset.default [5, 7, 7] = .returned ⟨[1], [3, 5, 5]⟩ ∧
      count ⟨[1], [3, 5, 5]⟩ = 3 ∧ getIds ⟨[1], [3, 5, 5]⟩ = .returned [5, 7]) ∧
    (pushAll fixedIdset.default (List.range (2 ^ 63)) = .returned ⟨[1], [2 ^ 63, 0, 0]⟩ ∧
      count ⟨[1], [2 ^ 63, 0, 0]⟩ = 2 ^ 63 ∧
      getIds ⟨[1], [2 ^ 63, 0, 0]⟩ = .length_error) :=
  ⟨by decide, (consecutive_run (2 ^ 63) (by norm_num) (le_refl _)).2, rfl, by decide⟩

/-- C4, amended: after pushing any strictly ascending sequence of at most `max_size`
(2^60 - 1) 64-bit ids, starting from the empty set, every call has returned and `count`
equals the length of the vector produced by `getIds` (which is the sequence pushed). -/
theorem count_invariant (seq : List Nat) (hasc : seq.Pairwise (· < ·))
    (hbd : ∀ x ∈ seq, x < 2 ^ 64) (hlen : seq.length ≤ max_size) :
    ∃ s v, pushAll fixedIdset.default seq = .returned s ∧ getIds s = .returned v ∧
      s.count = v.length ∧ v = seq := by
  have h63 := max_size_lt
  by_cases hne : seq = []
  · subst hne
    exact ⟨fixedIdset.default, [], rfl, by decide, rfl, rfl⟩
  · obtain ⟨bs, hb, _, h2⟩ := built_of_ascending seq hne hasc hbd (by omega)
    exact ⟨_, seq, h2, getIds_of_built hb _ hlen hlen, count_ofBlocks _ _, rfl⟩

theorem count_invariant_witness :
    ([5, 6, 7] : List Nat).Pairwise (· < ·) ∧ (∀ x ∈ ([5, 6, 7] : List Nat), x < 2 ^ 64) ∧
    ([5, 6, 7] : List Nat).length ≤ max_size ∧
    ∃ s v, pushAll fixedIdset.default [5, 6, 7] = .returned s ∧ getIds s = .returned v ∧
      s.count = v.length ∧ v = [5, 6, 7] :=
  ⟨by decide, by decide, by decide, count_invariant [5, 6, 7] (by decide) (by decide) (by decide)⟩

/-- Induction over the successful pushes: a property of the count of pushes and the blocks
that holds after the first push and is kept by every accepted push holds in every reachable
non-empty state. -/
theorem reachable_induction (P : Nat → List Block → Prop)
    (h1 : ∀ a, a < 2 ^ 64 → P 1 [(a, [])])
    (hstep : ∀ n bs0 f t id, P n (bs0 ++ [(f, t)]) → f < id → id < 2 ^ 64 →
      P (n + 1) (bs0 ++ grow f t id))
    (s : fixedIdset) (n : Nat) (hr : Reachable s n) (hn : 1 ≤ n) :
    ∃ bs0 f t, s = ofBlocks (n % 2 ^ 64) (bs0 ++ [(f, t)]) ∧ P n (bs0 ++ [(f, t)]) := by
  obtain ⟨ids, hlen, hbd, hp⟩ := hr
  have key : ∀ (rest : List Nat) (k : Nat) (bs0 : List Block) (f : Nat) (t : List Nat)
      (s : fixedIdset), P k (bs0 ++ [(f, t)]) → (∀ x ∈ rest, x < 2 ^ 64) →
      pushAll (ofBlocks (k % 2 ^ 64) (bs0 ++ [(f, t)])) rest = .returned s →
      ∃ bs1 f1 t1, s = ofBlocks ((k + rest.length) % 2 ^ 64) (bs1 ++ [(f1, t1)]) ∧
        P (k + rest.length) (bs1 ++ [(f1, t1)]) := by
    intro rest
    induction rest with
    | nil =>
      intro k bs0 f t s hP _ hs
      simp only [pushAll, Outcome.returned.injEq] at hs
      exact ⟨bs0, f, t, by simp [← hs], by simpa using hP⟩
    | cons id rest ih =>
      intro k bs0 f t s hP hb hs
      have hid : id < 2 ^ 64 := hb id (List.mem_cons_self _ _)
      by_cases hle : id ≤ f
      · rw [pushAll, push_le_first _ id ((flat bs0).length + 1) f (by
            simp [ofBlocks, offsets_append, offsets, Nat.add_comm])
          (first_ofBlocks _ bs0 [] (f, t)) hle] at hs
        simp at hs
      · have hlt : f < id := Nat.lt_of_not_le hle
        rw [pushAll, push_ofBlocks _ _ _ _ _ hlt] at hs
        simp only at hs
        obtain ⟨g0, b1, hg⟩ : ∃ g0 b1, bs0 ++ grow f t id = g0 ++ [b1] := by
          have hne : bs0 ++ grow f t id ≠ [] := by simp [grow_ne_nil]
          obtain ⟨g0, b1, h⟩ := (List.eq_nil_or_concat _).resolve_left hne
          exact ⟨g0, b1, by rw [h, List.concat_eq_append]⟩
        have hP1 := hstep k bs0 f t id hP hlt hid
        rw [hg] at hP1 hs
        rw [show (k % 2 ^ 64 + 1) % 2 ^ 64 = (k + 1) % 2 ^ 64 by omega] at hs
        obtain ⟨bs1, f1, t1, h3, h4⟩ := ih (k + 1) g0 b1.1 b1.2 s hP1
          (fun x hx => hb x (List.mem_cons_of_mem _ hx)) hs
        refine ⟨bs1, f1, t1, ?_, ?_⟩
        · rw [h3, List.length_cons]; congr 2; omega
        · rw [List.length_cons, show k + (rest.length + 1) = k + 1 + rest.length by omega]
          exact h4
  cases ids with
  | nil => simp at hlen; omega
  | cons a rest =>
    rw [pushAll, push_default] at hp
    simp only at hp
    have := key rest 1 [] a [] s (h1 a (hbd a (List.mem_cons_self _ _)))
      (fun x hx => hbd x (List.mem_cons_of_mem _ hx)) hp
    simp only [List.length_cons] at hlen
    rw [show 1 + rest.length = n by omega] at this
    exact this

theorem reachable_zero (s : fixedIdset) (hr : Reachable s 0) : s = fixedIdset.default := by
  obtain ⟨ids, hlen, _, hp⟩ := hr
  rw [List.length_eq_zero] at hlen
  subst hlen
  simp only [pushAll, Outcome.returned.injEq] at hp
  exact hp.symm

theorem isMask_orWord {t : List Nat} (h : IsMask t) (j k : Nat) : IsMask (orWord t j k) := by
  obtain ⟨w, r, rfl, hodd⟩ := h
  cases j with
  | zero =>
    refine ⟨w ||| k, r, by simp [orWord], ?_⟩
    rw [Nat.and_one_is_mod] at hodd ⊢
    have := @Nat.or_mod_two_eq_one w k
    omega
  | succ j => exact ⟨w, r.set j ((w :: r).getD (j + 1) 0 ||| k), by simp [orWord], hodd⟩

theorem isMask_resize {t : List Nat} (h : IsMask t) {n : Nat} (hn : t.length ≤ n) :
    IsMask (resize t n) := by
  rw [resize_eq_append _ _ hn]
  exact isMask_append h _

/-- The blocks that replace the last block: the first keeps the first id, at most one block
is added, tails of two or more words stay bitmask tails shorter than 2^58 words, and at most
two words are added. -/
theorem grow_shape (f : Nat) (t : List Nat) (id : Nat) (hm : 2 ≤ t.length → IsMask t)
    (ht : t.length < 2 ^ 58) :
    ∃ t1 rest, grow f t id = (f, t1) :: rest ∧ rest.length ≤ 1 ∧
      (∀ b ∈ grow f t id, (2 ≤ b.2.length → IsMask b.2) ∧ b.2.length < 2 ^ 58) ∧
      (flat (grow f t id)).length ≤ t.length + 3 := by
  generalize hd : (id + (2 ^ 64 - f)) % 2 ^ 64 = d
  have hdM : d < 2 ^ 64 := by rw [← hd]; exact Nat.mod_lt _ (by norm_num)
  match t with
  | [] =>
    simp only [grow, hd]
    split_ifs
    · exact ⟨_, [], rfl, by simp, by simp, by simp [flat]⟩
    · refine ⟨_, [], rfl, by simp, ?_, by simp [flat]⟩
      intro b hb
      rw [List.mem_singleton.mp hb]
      exact ⟨fun _ => ⟨1, _, rfl, by decide⟩, by simp⟩
    · exact ⟨_, [(id, [])], rfl, by simp, by simp, by simp [flat]⟩
  | [w] =>
    simp only [grow, hd]
    split_ifs with h1 h2 h3 h4
    · have hmk : IsMask (setBit (resize [w] (1 + d / 64)) d) :=
        isMask_setBit (isMask_resize ⟨w, [], rfl, h1⟩ (by simp)) d (by rw [resize_length]; omega)
      refine ⟨_, [], rfl, by simp, ?_, ?_⟩
      · intro b hb
        rw [List.mem_singleton.mp hb]
        exact ⟨fun _ => hmk, by simp only [setBit_length, resize_length]; omega⟩
      · simp only [flat, List.append_nil, List.length_cons, setBit_length, resize_length,
          List.length_singleton]
        omega
    · refine ⟨_, [], rfl, by simp, ?_, by simp [flat, setBit_length]⟩
      intro b hb
      rw [List.mem_singleton.mp hb]
      exact ⟨fun h => by simp [setBit_length] at h, by simp [setBit_length]⟩
    · exact ⟨_, [(id, [])], rfl, by simp, by simp, by simp [flat]⟩
    · exact ⟨_, [], rfl, by simp, by simp, by simp [flat]⟩
    · exact ⟨_, [(id, [])], rfl, by simp, by simp, by simp [flat]⟩
  | w :: w1 :: r =>
    have hmask : IsMask (w :: w1 :: r) := hm (by simp)
    rw [grow_many f _ id (by simp)]
    simp only [hd]
    generalize hB : (w :: w1 :: r).length = B at ht ⊢
    have hB2 : 2 ≤ B := by rw [← hB]; simp
    generalize w :: w1 :: r = t at hB hmask ⊢
    have hfc := fullCountOf_le (orWord t (B - 1) (1 <<< 63))
    rw [orWord_length, hB] at hfc
    have hm1 : IsMask (orWord t (B - 1) (1 <<< 63)) := isMask_orWord hmask _ _
    split_ifs with h1 h2 h3 h4 h5
    · exact ⟨_, [], rfl, by simp, by simp, by simp [flat]⟩
    · generalize fullCountOf (orWord t (B - 1) (1 <<< 63)) = fc at *
      refine ⟨_, [_], rfl, by simp, ?_, ?_⟩
      · intro b hb
        rcases List.mem_cons.mp hb with h | h
        · rw [h]
          exact ⟨fun _ => isMask_take hm1 (by omega),
            by simp only [List.length_take, orWord_length, hB]; omega⟩
        · rw [List.mem_singleton.mp h]; simp
      · simp only [flat, List.append_nil, List.length_cons, List.length_append, List.length_take,
          orWord_length, hB, List.length_singleton, List.length_nil]
        omega
    · refine ⟨_, [], rfl, by simp, ?_, by simp [flat, orWord_length, hB]⟩
      intro b hb
      rw [List.mem_singleton.mp hb]
      exact ⟨fun _ => hm1, by simp only [orWord_length, hB]; omega⟩
    · have hk : IsMask (setBit (resize t (1 + d / 64)) d) :=
        isMask_setBit (isMask_resize hmask (by omega)) d (by rw [resize_length]; omega)
      refine ⟨_, [], rfl, by simp, ?_, ?_⟩
      · intro b hb
        rw [List.mem_singleton.mp hb]
        exact ⟨fun _ => hk, by simp only [setBit_length, resize_length]; omega⟩
      · simp only [flat, List.append_nil, List.length_cons, setBit_length, resize_length]
        omega
    · have hk : IsMask (setBit t d) := isMask_setBit hmask d (by omega)
      refine ⟨_, [], rfl, by simp, ?_, by simp [flat, setBit_length, hB]⟩
      intro b hb
      rw [List.mem_singleton.mp hb]
      exact ⟨fun _ => hk, by simp only [setBit_length, hB]; omega⟩
    · refine ⟨_, [(id, [])], rfl, by simp, ?_, by simp [flat, hB]⟩
      intro b hb
      rcases List.mem_cons.mp hb with h | h
      · rw [h]; exact ⟨fun _ => hmask, by simp only [hB]; omega⟩
      · rw [List.mem_singleton.mp h]; simp

theorem shapeOK_init (a : Nat) : ShapeOK 1 [(a, [])] :=
  ⟨by simp, by simp, by simp, by simp [flat], by simp⟩

theorem shapeOK_step (n : Nat) (bs0 : List Block) (f : Nat) (t : List Nat) (id : Nat)
    (h : ShapeOK n (bs0 ++ [(f, t)])) : ShapeOK (n + 1) (bs0 ++ grow f t id) := by
  obtain ⟨_, hmask, hlen, hflat, hcnt⟩ := h
  obtain ⟨t1, rest, hg, hrest, hall, hfl⟩ := grow_shape f t id
    (hmask (f, t) (by simp)) (hlen (f, t) (by simp))
  refine ⟨by simp [grow_ne_nil], ?_, ?_, ?_, ?_⟩
  · intro b hb
    rcases List.mem_append.mp hb with h | h
    · exact hmask b (List.mem_append_left _ h)
    · exact (hall b h).1
  · intro b hb
    rcases List.mem_append.mp hb with h | h
    · exact hlen b (List.mem_append_left _ h)
    · exact (hall b h).2
  · simp only [flat_append, List.length_append, flat_single, List.length_cons] at hflat ⊢
    omega
  · simp only [List.length_append, List.length_singleton, hg, List.length_cons] at hcnt ⊢
    omega

/-- Every reachable non-empty state is given by blocks of the right shape, with the count
word equal to the number of pushes modulo 2^64. -/
theorem reachable_shape (s : fixedIdset) (n : Nat) (hr : Reachable s n) (hn : 1 ≤ n) :
    ∃ bs0 f t, s = ofBlocks (n % 2 ^ 64) (bs0 ++ [(f, t)]) ∧ ShapeOK n (bs0 ++ [(f, t)]) :=
  reachable_induction ShapeOK (fun a _ => shapeOK_init a)
    (fun n bs0 f t id h _ _ => shapeOK_step n bs0 f t id h) s n hr hn

theorem offsets_bounds (bs : List Block) :
    ∀ k, (offsets k bs).Pairwise (· < ·) ∧ ∀ o ∈ offsets k bs, k ≤ o ∧ o < k + (flat bs).length := by
  induction bs with
  | nil => intro k; simp [offsets]
  | cons b bs ih =>
    intro k
    obtain ⟨h1, h2⟩ := ih (k + 1 + b.2.length)
    simp only [offsets, flat, List.length_cons, List.length_append]
    refine ⟨List.Pairwise.cons (fun o ho => ?_) h1, fun o ho => ?_⟩
    · have := (h2 o ho).1
      omega
    · rcases List.mem_cons.mp ho with h | h
      · omega
      · have := h2 o h
        omega

theorem offsets_head (bs : List Block) (k : Nat) (h : bs ≠ []) : (offsets k bs)[0]? = some k := by
  cases bs with
  | nil => exact absurd rfl h
  | cons b bs => simp [offsets]

/-- The block `i` of an object given by its blocks: its offset, its length as the source
computes it, its first id and its tail words. -/
theorem block_view (c : Nat) (bs : List Block) (i : Nat) (hi : i < bs.length) :
    ∃ o, (ofBlocks c bs).m_idOff[i]? = some o ∧
      blockBufCount (ofBlocks c bs) i = some bs[i].2.length ∧
      (ofBlocks c bs).m_idBuf[o]? = some bs[i].1 ∧
      ∀ j, j < bs[i].2.length → (ofBlocks c bs).m_idBuf[o + 1 + j]? = some (bs[i].2.getD j 0) := by
  obtain ⟨hs, hl⟩ := split_at hi
  refine ⟨(flat (bs.take i)).length + 1, ?_, ?_, ?_, ?_⟩
  · have := start_ofBlocks c (bs.take i) (bs.drop (i + 1)) bs[i]
    rw [← hs, hl] at this
    exact this
  · have := blockBufCount_ofBlocks c (bs.take i) (bs.drop (i + 1)) bs[i]
    rw [← hs, hl] at this
    exact this
  · have := first_ofBlocks c (bs.take i) (bs.drop (i + 1)) bs[i]
    rw [← hs] at this
    exact this
  · intro j hj
    have := tail_ofBlocks c (bs.take i) (bs.drop (i + 1)) bs[i] j hj
    rw [← hs] at this
    exact this

/-- C11: in every state reached by successful pushes `m_idOff` is empty exactly when
`m_idBuf` is empty, and otherwise `m_idOff[0] == 1`, `m_idOff` increases strictly and each
of its entries is a valid index into `m_idBuf`. -/
theorem block_index_invariant (s : fixedIdset) (n : Nat) (hr : Reachable s n) :
    (s.m_idOff = [] ↔ s.m_idBuf = []) ∧
    (s.m_idBuf ≠ [] → s.m_idOff[0]? = some 1 ∧ s.m_idOff.Pairwise (· < ·) ∧
      ∀ o ∈ s.m_idOff, o < s.m_idBuf.length) := by
  by_cases hn : n = 0
  · subst hn
    rw [reachable_zero s hr]
    simp [fixedIdset.default]
  · obtain ⟨bs0, f, t, rfl, _⟩ := reachable_shape s n hr (by omega)
    have hne : bs0 ++ [(f, t)] ≠ [] := by simp
    obtain ⟨h1, h2⟩ := offsets_bounds (bs0 ++ [(f, t)]) 1
    refine ⟨?_, fun _ => ⟨offsets_head _ 1 hne, h1, fun o ho => ?_⟩⟩
    · constructor
      · intro h
        have := congrArg List.length h
        simp [ofBlocks, offsets_length] at this
      · intro h
        simp [ofBlocks] at h
    · have := (h2 o ho).2
      simp only [ofBlocks, List.length_cons]
      omega

theorem block_index_invariant_witness :
    Reachable ⟨[1], [3, 5, 7]⟩ 3 ∧
    (((⟨[1], [3, 5, 7]⟩ : fixedIdset).m_idOff = [] ↔ (⟨[1], [3, 5, 7]⟩ : fixedIdset).m_idBuf = []) ∧
    ((⟨[1], [3, 5, 7]⟩ : fixedIdset).m_idBuf ≠ [] →
      (⟨[1], [3, 5, 7]⟩ : fixedIdset).m_idOff[0]? = some 1 ∧
      (⟨[1], [3, 5, 7]⟩ : fixedIdset).m_idOff.Pairwise (· < ·) ∧
      ∀ o ∈ (⟨[1], [3, 5, 7]⟩ : fixedIdset).m_idOff, o < (⟨[1], [3, 5, 7]⟩ : fixedIdset).m_idBuf.length)) :=
  ⟨⟨[5, 6, 7], rfl, by decide, by decide⟩,
    block_index_invariant ⟨[1], [3, 5, 7]⟩ 3 ⟨[5, 6, 7], rfl, by decide, by decide⟩⟩

/-- A returned `push` on an object given by its blocks was accepted by the order check and
replaced the last block by `grow`. -/
theorem push_returned_ofBlocks {c : Nat} {bs0 : List Block} {f : Nat} {t : List Nat}
    {id : Nat} {s1 : fixedIdset} (h : push (ofBlocks c (bs0 ++ [(f, t)])) id = .returned s1) :
    f < id ∧ s1 = ofBlocks ((c + 1) % 2 ^ 64) (bs0 ++ grow f t id) := by
  by_cases hle : id ≤ f
  · rw [push_le_first _ id ((flat bs0).length + 1) f (by
        simp [ofBlocks, offsets_append, offsets, Nat.add_comm])
      (first_ofBlocks _ bs0 [] (f, t)) hle] at h
    simp at h
  · have hlt : f < id := Nat.lt_of_not_le hle
    rw [push_ofBlocks _ _ _ _ _ hlt] at h
    simp only [Outcome.returned.injEq] at h
    exact ⟨hlt, h.symm⟩

/-- C19: after `n` successful pushes `m_idBuf` has at most `2 * n` words and `m_idOff` at
most `n` entries, and each further successful push adds at most 2 words to `m_idBuf`. -/
theorem buffer_size_bound (s : fixedIdset) (n : Nat) (hr : Reachable s n) :
    s.m_idBuf.length ≤ 2 * n ∧ s.m_idOff.length ≤ n ∧
    ∀ id s1, push s id = .returned s1 → s1.m_idBuf.length ≤ s.m_idBuf.length + 2 := by
  by_cases hn : n = 0
  · subst hn
    rw [reachable_zero s hr]
    refine ⟨by simp [fixedIdset.default], by simp [fixedIdset.default], fun id s1 h => ?_⟩
    rw [push_default] at h
    simp only [Outcome.returned.injEq] at h
    simp [← h, ofBlocks, flat, fixedIdset.default]
  · obtain ⟨bs0, f, t, rfl, _, hmask, hlen, hflat, hcnt⟩ := reachable_shape s n hr (by omega)
    refine ⟨by simp only [ofBlocks, List.length_cons]; omega,
      by rw [ofBlocks_off_length]; exact hcnt, fun id s1 h => ?_⟩
    obtain ⟨_, rfl⟩ := push_returned_ofBlocks h
    obtain ⟨_, _, _, _, _, hfl⟩ := grow_shape f t id (hmask (f, t) (by simp)) (hlen (f, t) (by simp))
    simp only [ofBlocks, List.length_cons, flat_append, List.length_append, flat_single]
    omega

theorem buffer_size_bound_witness :
    Reachable ⟨[1], [3, 5, 7]⟩ 3 ∧
    ((⟨[1], [3, 5, 7]⟩ : fixedIdset).m_idBuf.length ≤ 2 * 3 ∧
    (⟨[1], [3, 5, 7]⟩ : fixedIdset).m_idOff.length ≤ 3 ∧
    ∀ id s1, push ⟨[1], [3, 5, 7]⟩ id = .returned s1 →
      s1.m_idBuf.length ≤ (⟨[1], [3, 5, 7]⟩ : fixedIdset).m_idBuf.length + 2) :=
  ⟨⟨[5, 6, 7], rfl, by decide, by decide⟩,
    buffer_size_bound ⟨[1], [3, 5, 7]⟩ 3 ⟨[5, 6, 7], rfl, by decide, by decide⟩⟩

theorem getElem?_ofBlocks_prefix (c1 c2 : Nat) (bs0 : List Block) (f : Nat) (X Y : List Nat)
    (i : Nat) (h1 : 1 ≤ i) (h2 : i ≤ (flat bs0).length + 1) :
    (c1 :: (flat bs0 ++ f :: X))[i]? = (c2 :: (flat bs0 ++ f :: Y))[i]? := by
  obtain ⟨j, rfl⟩ : ∃ j, i = j + 1 := ⟨i - 1, by omega⟩
  rw [List.getElem?_cons_succ, List.getElem?_cons_succ]
  rcases Nat.lt_or_ge j (flat bs0).length with h | h
  · rw [List.getElem?_append_left h, List.getElem?_append_left h]
  · have hj : j = (flat bs0).length := by omega
    subst hj
    rw [List.getElem?_append_right (le_refl _), List.getElem?_append_right (le_refl _)]
    simp

/-- C14: a successful push on a reachable non-empty set leaves every word of `m_idBuf` from
index 1 up to the old last offset unchanged, leaves the first id of the old last block
unchanged, keeps the old `m_idOff` as a prefix of the new one and adds at most one offset. -/
theorem earlier_blocks_frozen (s : fixedIdset) (n : Nat) (hr : Reachable s n)
    (hne : s.empty = false) (id : Nat) (s1 : fixedIdset) (hp : push s id = .returned s1) :
    ∃ last, s.m_idOff.getLast? = some last ∧
      (∀ i, 1 ≤ i → i < last → s1.m_idBuf[i]? = s.m_idBuf[i]?) ∧
      s1.m_idBuf[last]? = s.m_idBuf[last]? ∧
      s.m_idOff <+: s1.m_idOff ∧ s1.m_idOff.length ≤ s.m_idOff.length + 1 := by
  have hn : 1 ≤ n := by
    by_contra hc
    have h0 : n = 0 := by omega
    subst h0
    rw [reachable_zero s hr] at hne
    simp [fixedIdset.default, fixedIdset.empty] at hne
  obtain ⟨bs0, f, t, rfl, _, hmask, hlen, _⟩ := reachable_shape s n hr hn
  obtain ⟨_, rfl⟩ := push_returned_ofBlocks hp
  obtain ⟨t1, rest, hg, hrest, _⟩ := grow_shape f t id (hmask (f, t) (by simp))
    (hlen (f, t) (by simp))
  rw [hg]
  have hb1 : (ofBlocks (n % 2 ^ 64) (bs0 ++ [(f, t)])).m_idBuf
      = (n % 2 ^ 64) :: (flat bs0 ++ f :: t) := by
    simp [ofBlocks, flat_append, flat]
  have hb2 : (ofBlocks ((n % 2 ^ 64 + 1) % 2 ^ 64) (bs0 ++ (f, t1) :: rest)).m_idBuf
      = ((n % 2 ^ 64 + 1) % 2 ^ 64) :: (flat bs0 ++ f :: (t1 ++ flat rest)) := by
    simp [ofBlocks, flat_append, flat]
  have ho1 : (ofBlocks (n % 2 ^ 64) (bs0 ++ [(f, t)])).m_idOff
      = offsets 1 bs0 ++ [(flat bs0).length + 1] := by
    simp [ofBlocks, offsets_append, offsets, Nat.add_comm]
  have ho2 : (ofBlocks ((n % 2 ^ 64 + 1) % 2 ^ 64) (bs0 ++ (f, t1) :: rest)).m_idOff
      = (offsets 1 bs0 ++ [(flat bs0).length + 1])
        ++ offsets ((flat bs0).length + 1 + 1 + t1.length) rest := by
    simp [ofBlocks, offsets_append, offsets, Nat.add_comm]
  rw [hb1, hb2, ho1, ho2]
  refine ⟨(flat bs0).length + 1, by simp, fun i hi1 hi2 => ?_, ?_, List.prefix_append _ _, ?_⟩
  · exact getElem?_ofBlocks_prefix _ _ bs0 f _ _ i hi1 (by omega)
  · exact getElem?_ofBlocks_prefix _ _ bs0 f _ _ _ (by omega) (le_refl _)
  · simp only [List.length_append, offsets_length, List.length_singleton]
    omega

theorem earlier_blocks_frozen_witness :
    Reachable ⟨[1], [2, 5, 3]⟩ 2 ∧ (⟨[1], [2, 5, 3]⟩ : fixedIdset).empty = false ∧
    push ⟨[1], [2, 5, 3]⟩ 7 = .returned ⟨[1], [3, 5, 7]⟩ ∧
    ∃ last, (⟨[1], [2, 5, 3]⟩ : fixedIdset).m_idOff.getLast? = some last ∧
      (∀ i, 1 ≤ i → i < last →
        (⟨[1], [3, 5, 7]⟩ : fixedIdset).m_idBuf[i]? = (⟨[1], [2, 5, 3]⟩ : fixedIdset).m_idBuf[i]?) ∧
      (⟨[1], [3, 5, 7]⟩ : fixedIdset).m_idBuf[last]? = (⟨[1], [2, 5, 3]⟩ : fixedIdset).m_idBuf[last]? ∧
      (⟨[1], [2, 5, 3]⟩ : fixedIdset).m_idOff <+: (⟨[1], [3, 5, 7]⟩ : fixedIdset).m_idOff ∧
      (⟨[1], [3, 5, 7]⟩ : fixedIdset).m_idOff.length
        ≤ (⟨[1], [2, 5, 3]⟩ : fixedIdset).m_idOff.length + 1 :=
  ⟨⟨[5, 6], rfl, by decide, by decide⟩, by decide, by decide,
    earlier_blocks_frozen ⟨[1], [2, 5, 3]⟩ 2 ⟨[5, 6], rfl, by decide, by decide⟩ (by decide) 7
      ⟨[1], [3, 5, 7]⟩ (by decide)⟩

/-- C17: `push(id)` raises `std::invalid_argument` exactly when the set is non-empty and
`id <= m_idBuf[m_idOff.back()]`, the first id of the last block; on an empty set it returns,
and on a reachable non-empty set it returns for every id above that first id. -/
theorem push_raises_iff (s : fixedIdset) (n : Nat) (hr : Reachable s n) (id : Nat) :
    ((∃ s1, push s id = .invalid_argument s1) ↔
      (s.empty = false ∧ ∃ last first, s.m_idOff.getLast? = some last ∧
        s.m_idBuf[last]? = some first ∧ id ≤ first)) ∧
    (s.empty = true → ∃ s1, push s id = .returned s1) ∧
    (∀ last first, s.m_idOff.getLast? = some last → s.m_idBuf[last]? = some first →
      first < id → ∃ s1, push s id = .returned s1) := by
  refine ⟨⟨?_, ?_⟩, ?_, ?_⟩
  · rintro ⟨s1, h⟩
    unfold push at h
    split_ifs at h with he
    refine ⟨by simpa using he, ?_⟩
    split at h
    · exact absurd h (by simp)
    · rename_i last hl
      split at h
      · exact absurd h (by simp)
      · rename_i first hf
        split_ifs at h with hge
        · exact ⟨last, first, hl, hf, hge⟩
        · split at h <;> exact absurd h (by simp)
  · rintro ⟨_, last, first, hl, hf, hle⟩
    exact ⟨s, push_le_first s id last first hl hf hle⟩
  · intro he
    exact ⟨⟨s.m_idOff ++ [1], [1, id]⟩, by simp [push, he]⟩
  · intro last first hl hf hlt
    by_cases hn : n = 0
    · subst hn
      rw [reachable_zero s hr] at hl
      simp [fixedIdset.default] at hl
    · obtain ⟨bs0, f, t, rfl, _⟩ := reachable_shape s n hr (by omega)
      have hl2 : (ofBlocks (n % 2 ^ 64) (bs0 ++ [(f, t)])).m_idOff.getLast?
          = some ((flat bs0).length + 1) := by
        simp [ofBlocks, offsets_append, offsets, Nat.add_comm]
      rw [hl2] at hl
      simp only [Option.some.injEq] at hl
      subst hl
      rw [first_ofBlocks _ bs0 [] (f, t)] at hf
      simp only [Option.some.injEq] at hf
      subst hf
      exact ⟨_, push_ofBlocks _ _ _ _ _ hlt⟩

theorem push_raises_iff_witness :
    Reachable ⟨[1], [2, 5, 5]⟩ 2 ∧
    (((∃ s1, push ⟨[1], [2, 5, 5]⟩ 5 = .invalid_argument s1) ↔
      ((⟨[1], [2, 5, 5]⟩ : fixedIdset).empty = false ∧
        ∃ last first, (⟨[1], [2, 5, 5]⟩ : fixedIdset).m_idOff.getLast? = some last ∧
        (⟨[1], [2, 5, 5]⟩ : fixedIdset).m_idBuf[last]? = some first ∧ 5 ≤ first)) ∧
    ((⟨[1], [2, 5, 5]⟩ : fixedIdset).empty = true → ∃ s1, push ⟨[1], [2, 5, 5]⟩ 5 = .returned s1) ∧
    (∀ last first, (⟨[1], [2, 5, 5]⟩ : fixedIdset).m_idOff.getLast? = some last →
      (⟨[1], [2, 5, 5]⟩ : fixedIdset).m_idBuf[last]? = some first →
      first < 5 → ∃ s1, push ⟨[1], [2, 5, 5]⟩ 5 = .returned s1)) :=
  ⟨⟨[5, 7], rfl, by decide, by decide⟩,
    push_raises_iff ⟨[1], [2, 5, 5]⟩ 2 ⟨[5, 7], rfl, by decide, by decide⟩ 5⟩

/-- The halving search of `hasId` stays inside both vectors and ends within its fuel on every
object given by its blocks. -/
theorem upperBound_total (c : Nat) (bs : List Block) (id : Nat) :
    ∀ fuel first len, len ≤ fuel → first + len ≤ bs.length →
      ∃ p, upperBound (ofBlocks c bs) id fuel first len = some p ∧ p ≤ first + len := by
  intro fuel
  induction fuel with
  | zero =>
    intro first len hlen _
    have : len = 0 := by omega
    subst this
    exact ⟨first, by simp [upperBound], by omega⟩
  | succ fuel ih =>
    intro first len hlen hb
    by_cases h0 : len = 0
    · subst h0
      exact ⟨first, by simp [upperBound], by omega⟩
    · have hmid : first + len / 2 < bs.length := by omega
      obtain ⟨o, ho1, ho2⟩ := off_first c bs (first + len / 2) hmid
      rw [upperBound, if_neg h0]
      simp only [ho1, ho2]
      split_ifs
      · obtain ⟨p, hp1, hp2⟩ := ih first (len / 2) (by omega) (by omega)
        exact ⟨p, hp1, by omega⟩
      · obtain ⟨p, hp1, hp2⟩ := ih (first + len / 2 + 1) (len - len / 2 - 1) (by omega) (by omega)
        exact ⟨p, hp1, by omega⟩

theorem hasId_total (c : Nat) (bs : List Block) (id : Nat) :
    ∃ b, hasId (ofBlocks c bs) id = some b := by
  obtain ⟨p, hub, hp⟩ := upperBound_total c bs id bs.length 0 bs.length (le_refl _) (by omega)
  by_cases hp0 : p = 0
  · subst hp0
    refine ⟨false, ?_⟩
    unfold hasId
    rw [ofBlocks_off_length, hub]
    simp
  · have hj : p - 1 < bs.length := by omega
    obtain ⟨hs, hl⟩ := split_at hj
    obtain ⟨xs, b, ys, hbs, hxl⟩ : ∃ xs b ys, bs = xs ++ b :: ys ∧ xs.length = p - 1 :=
      ⟨_, _, _, hs, hl⟩
    have h := hasId_ofBlocks c xs ys b id (by rw [← hbs, hxl, hub]; congr 1; omega)
    rw [← hbs] at h
    exact ⟨_, h⟩

/-- A block that `grow` adds after the old last block has a first id above the old first id
and at most the pushed id. -/
theorem grow_rest_first (f : Nat) (t : List Nat) (id : Nat) (hf : f < id) (hid : id < 2 ^ 64)
    (ht : t.length < 2 ^ 58) :
    ∃ t1 rest, grow f t id = (f, t1) :: rest ∧ ∀ b ∈ rest, f < b.1 ∧ b.1 ≤ id := by
  have hd : (id + (2 ^ 64 - f)) % 2 ^ 64 = id - f := by omega
  match t with
  | [] =>
    simp only [grow, hd]
    split_ifs
    · exact ⟨_, [], rfl, by simp⟩
    · exact ⟨_, [], rfl, by simp⟩
    · exact ⟨_, [(id, [])], rfl, by simp; omega⟩
  | [w] =>
    simp only [grow, hd]
    split_ifs
    · exact ⟨_, [], rfl, by simp⟩
    · exact ⟨_, [], rfl, by simp⟩
    · exact ⟨_, [(id, [])], rfl, by simp; omega⟩
    · exact ⟨_, [], rfl, by simp⟩
    · exact ⟨_, [(id, [])], rfl, by simp; omega⟩
  | w :: w1 :: r =>
    simp only [grow, hd]
    generalize hB : (w :: w1 :: r).length = B at ht ⊢
    generalize w :: w1 :: r = t at hB ⊢
    have hfc := fullCountOf_le (orWord t (B - 1) (1 <<< 63))
    rw [orWord_length, hB] at hfc
    split_ifs with h1 h2 h3 h4 h5
    · exact ⟨_, [], rfl, by simp⟩
    · refine ⟨_, [_], rfl, ?_⟩
      generalize fullCountOf (orWord t (B - 1) (1 <<< 63)) = fc at *
      intro b hb
      rw [List.mem_singleton.mp hb]
      simp only
      omega
    · exact ⟨_, [], rfl, by simp⟩
    · exact ⟨_, [], rfl, by simp⟩
    · exact ⟨_, [], rfl, by simp⟩
    · exact ⟨_, [(id, [])], rfl, by simp; omega⟩

theorem firstsOK_step (n : Nat) (bs0 : List Block) (f : Nat) (t : List Nat) (id : Nat)
    (h : ShapeOK n (bs0 ++ [(f, t)]) ∧ FirstsOK (bs0 ++ [(f, t)])) (hf : f < id)
    (hid : id < 2 ^ 64) :
    ShapeOK (n + 1) (bs0 ++ grow f t id) ∧ FirstsOK (bs0 ++ grow f t id) := by
  refine ⟨shapeOK_step n bs0 f t id h.1, ?_⟩
  obtain ⟨t1, rest, hg, hrest⟩ := grow_rest_first f t id hf hid (h.1.2.2.1 (f, t) (by simp))
  obtain ⟨_, rest2, hg2, hlen, _⟩ := grow_shape f t id (h.1.2.1 (f, t) (by simp))
    (h.1.2.2.1 (f, t) (by simp))
  have hF := h.2
  unfold FirstsOK at hF ⊢
  rw [hg, List.map_append, List.map_cons]
  rw [List.map_append, List.map_cons, List.map_nil] at hF
  obtain ⟨hp1, _, hp3⟩ := List.pairwise_append.mp hF
  have hr1 : rest.length ≤ 1 := by
    rw [hg] at hg2
    simp only [List.cons.injEq] at hg2
    rw [hg2.2]; exact hlen
  refine List.pairwise_append.mpr ⟨hp1, List.Pairwise.cons ?_ ?_, ?_⟩
  · intro x hx
    obtain ⟨b, hb, rfl⟩ := List.mem_map.mp hx
    exact (hrest b hb).1
  · match rest, hr1 with
    | [], _ => exact List.Pairwise.nil
    | [b], _ => exact List.pairwise_singleton _ _
  · intro a ha x hx
    have h1 := hp3 a ha f (List.mem_singleton_self _)
    rcases List.mem_cons.mp hx with h2 | h2
    · rw [h2]; exact h1
    · obtain ⟨b, hb, rfl⟩ := List.mem_map.mp h2
      exact Nat.lt_trans h1 (hrest b hb).1

/-- Every reachable non-empty state is given by blocks of the right shape whose first ids
increase strictly. -/
theorem reachable_sorted (s : fixedIdset) (n : Nat) (hr : Reachable s n) (hn : 1 ≤ n) :
    ∃ bs0 f t, s = ofBlocks (n % 2 ^ 64) (bs0 ++ [(f, t)]) ∧
      (ShapeOK n (bs0 ++ [(f, t)]) ∧ FirstsOK (bs0 ++ [(f, t)])) :=
  reachable_induction (fun n bs => ShapeOK n bs ∧ FirstsOK bs)
    (fun a _ => ⟨shapeOK_init a, by simp [FirstsOK]⟩)
    (fun n bs0 f t id h hf hid => firstsOK_step n bs0 f t id h hf hid) s n hr hn

theorem firsts_sorted_ofBlocks (c : Nat) (bs : List Block) (h : FirstsOK bs)
    (i j oi oj fi fj : Nat) (hij : i < j)
    (hoi : (ofBlocks c bs).m_idOff[i]? = some oi) (hoj : (ofBlocks c bs).m_idOff[j]? = some oj)
    (hfi : (ofBlocks c bs).m_idBuf[oi]? = some fi) (hfj : (ofBlocks c bs).m_idBuf[oj]? = some fj) :
    fi < fj := by
  have hj : j < bs.length := by
    rw [← ofBlocks_off_length c]; exact (List.getElem?_eq_some_iff.mp hoj).1
  have hi : i < bs.length := by omega
  obtain ⟨o1, h1, h2⟩ := off_first c bs i hi
  obtain ⟨o2, h3, h4⟩ := off_first c bs j hj
  rw [h1] at hoi
  rw [h3] at hoj
  simp only [Option.some.injEq] at hoi hoj
  subst hoi hoj
  rw [h2] at hfi
  rw [h4] at hfj
  simp only [Option.some.injEq] at hfi hfj
  subst hfi hfj
  rw [firstAt_eq hi, firstAt_eq hj]
  have := List.pairwise_iff_getElem.mp h i j (by simpa using hi) (by simpa using hj) hij
  simpa using this

/-- C18, failing input: after the 256 strictly ascending pushes 2^64 - 256, ..., 2^64 - 1 the
set is the single run block `[2^64 - 256, 512]`, whose run ends at id 2^64 - 1; `getIds`
decodes the 256 ids, the last of which is 2^64 - 1, but `hasId(2^64 - 1)` returns false:
the bound `firstId + count` of the run test wraps to 0. -/
theorem hasId_misses_top_of_range :
    pushAll fixedIdset.default (List.range' (2 ^ 64 - 256) 256)
      = .returned ⟨[1], [256, 2 ^ 64 - 256, 512]⟩ ∧
    (2 ^ 64 - 256 + 512 / 2) % 2 ^ 64 = 0 ∧
    getIds ⟨[1], [256, 2 ^ 64 - 256, 512]⟩ = .returned (List.range' (2 ^ 64 - 256) 256) ∧
    2 ^ 64 - 1 ∈ List.range' (2 ^ 64 - 256) 256 ∧
    hasId ⟨[1], [256, 2 ^ 64 - 256, 512]⟩ (2 ^ 64 - 1) = some false :=
  ⟨top_run_state.2.1, by norm_num, top_run_state.2.2.1, by
    rw [List.mem_range'_1]; norm_num, top_run_state.2.2.2⟩

/-- C15, failing input: the strictly ascending pushes 0, 1, 100, 150, 255 leave one bitmask
block with first id 0 and 4 tail words whose last bit (bit 255) is set. Pushing 255 again is
accepted (255 is above the first id of the block), takes the compaction branch with
fullCount = 0, and only increments the count word: `getIds` is unchanged, it is not the
previous ids followed by the pushed id. -/
theorem compaction_step_repeated_id :
    pushAll fixedIdset.default [0, 1, 100, 150, 255]
      = .returned ⟨[1], [5, 0, 3, 2 ^ 36, 2 ^ 22, 2 ^ 63]⟩ ∧
    blockBufCount ⟨[1], [5, 0, 3, 2 ^ 36, 2 ^ 22, 2 ^ 63]⟩ 0 = some 4 ∧
    0 + 4 * 64 - 1 = 255 ∧
    countFullMask ⟨[1], [5, 0, 3, 2 ^ 36, 2 ^ 22, 2 ^ 63]⟩ 4 = some 0 ∧
    getIds ⟨[1], [5, 0, 3, 2 ^ 36, 2 ^ 22, 2 ^ 63]⟩ = .returned [0, 1, 100, 150, 255] ∧
    push ⟨[1], [5, 0, 3, 2 ^ 36, 2 ^ 22, 2 ^ 63]⟩ 255
      = .returned ⟨[1], [6, 0, 3, 2 ^ 36, 2 ^ 22, 2 ^ 63]⟩ ∧
    getIds ⟨[1], [6, 0, 3, 2 ^ 36, 2 ^ 22, 2 ^ 63]⟩ = .returned [0, 1, 100, 150, 255] ∧
    count ⟨[1], [6, 0, 3, 2 ^ 36, 2 ^ 22, 2 ^ 63]⟩ = 6 := by
  refine ⟨by decide!, by decide!, by decide, by decide!, by decide!, by decide!, by decide!, by decide!⟩

theorem getLast?_eq_getD (t : List Nat) (h : t ≠ []) :
    t.getLast? = some (t.getD (t.length - 1) 0) := by
  have hl : 0 < t.length := List.length_pos.mpr h
  rw [List.getLast?_eq_getElem?, List.getD_eq_getElem?_getD,
    List.getElem?_eq_getElem (by omega)]
  rfl

theorem last_ne_zero {t : List Nat} {d : Nat} (h : bitAt t d = true)
    (hd : d / 64 + 1 = t.length) : t.getLast? ≠ some 0 := by
  have hne : t ≠ [] := by
    intro hc; rw [hc] at hd; simp at hd
  rw [getLast?_eq_getD t hne]
  intro hc
  have h0 : t.getD (d / 64) 0 = 0 := by
    rw [show d / 64 = t.length - 1 by omega]
    exact Option.some.inj hc
  unfold bitAt at h
  rw [h0] at h
  simp at h

theorem not_isMask_even {w : Nat} (h : w &&& 1 = 0) : ¬ IsMask [w] := by
  rintro ⟨w1, r, he, hodd⟩
  simp only [List.cons.injEq] at he
  rw [← he.1] at hodd
  exact hodd h

theorem even_word (x : Nat) : ((2 * x) % 2 ^ 64) &&& 1 = 0 := by
  rw [Nat.and_one_is_mod]; omega

theorem trailOK_single (f : Nat) (t : List Nat) (h : IsMask t → t.getLast? ≠ some 0) :
    TrailOK [(f, t)] := by
  intro i b hb hm hz
  cases i with
  | zero =>
    simp only [List.getElem?_cons_zero, Option.some.injEq] at hb
    subst hb
    exact absurd hz (h hm)
  | succ i => simp at hb

theorem trailOK_pair (f : Nat) (t : List Nat) (f2 : Nat) (t2 : List Nat)
    (h1 : IsMask t → t.getLast? = some 0 → f2 = f + t.length * 64 ∧ ∃ w, t2 = [w] ∧ w &&& 1 = 0)
    (h2 : IsMask t2 → t2.getLast? ≠ some 0) :
    TrailOK [(f, t), (f2, t2)] := by
  intro i b hb hm hz
  match i with
  | 0 =>
    simp only [List.getElem?_cons_zero, Option.some.injEq] at hb
    subst hb
    obtain ⟨e, w, e2, hw⟩ := h1 hm hz
    exact ⟨(f2, t2), w, by simp, e, e2, hw⟩
  | 1 =>
    simp only [List.getElem?_cons_succ, List.getElem?_cons_zero, Option.some.injEq] at hb
    subst hb
    exact absurd hz (h2 hm)
  | i + 2 => simp at hb

theorem setBit_orWord_last (t : List Nat) (d : Nat) (h : d + 1 = t.length * 64) :
    orWord t (t.length - 1) (1 <<< 63) = setBit t d := by
  unfold setBit
  rw [show d / 64 = t.length - 1 by omega, show d % 64 = 63 by omega]

/-- The growth step under ascending pushes: the new blocks keep the trailing-word invariant,
the new last block holds the bit of the pushed id in its last word, and a run block stays a
run block. -/
theorem grow_asc (f : Nat) (t : List Nat) (m id : Nat) (hm : 2 ≤ t.length → IsMask t)
    (ht : t.length < 2 ^ 58) (hl : LastBit f t m) (hmid : m < id) (hid : id < 2 ^ 64) :
    TrailOK (grow f t id) ∧
    (∀ b, (grow f t id).getLast? = some b → LastBit b.1 b.2 id) ∧
    (∀ w, t = [w] → w &&& 1 = 0 → ∃ w1 rest, grow f t id = (f, [w1]) :: rest ∧ w1 &&& 1 = 0) := by
  obtain ⟨hfm, hbit⟩ := hl
  have hd : (id + (2 ^ 64 - f)) % 2 ^ 64 = id - f := by omega
  generalize hdd : id - f = d at hd
  have hfid : f ≤ id := by omega
  have hlast_old : IsMask t → t.getLast? ≠ some 0 := fun h =>
    last_ne_zero (hbit h).1 (hbit h).2
  have hnew : LastBit id [] id := ⟨le_refl _, fun h => by
    obtain ⟨w, r, he, _⟩ := h; simp at he⟩
  have hnil : IsMask ([] : List Nat) → ([] : List Nat).getLast? ≠ some 0 := fun h => by
    obtain ⟨w, r, he, _⟩ := h; simp at he
  -- a bitmask tail that holds bit `d` in its last word
  have hset : ∀ u : List Nat, d / 64 < u.length → d / 64 + 1 = u.length →
      TrailOK [(f, setBit u d)] ∧
      (∀ b, [(f, setBit u d)].getLast? = some b → LastBit b.1 b.2 id) := by
    intro u hu1 hu2
    have hb : bitAt (setBit u d) d = true := by rw [bitAt_setBit u d d hu1]; simp
    refine ⟨trailOK_single _ _ (fun _ => last_ne_zero hb (by rw [setBit_length]; exact hu2)), ?_⟩
    intro b hb1
    simp only [List.getLast?_singleton, Option.some.injEq] at hb1
    subst hb1
    exact ⟨hfid, fun _ => by rw [hdd]; exact ⟨hb, by rw [setBit_length]; exact hu2⟩⟩
  have hpair : ∀ u : List Nat, (IsMask u → u.getLast? ≠ some 0) →
      TrailOK [(f, u), (id, [])] ∧
      (∀ b, [(f, u), (id, [])].getLast? = some b → LastBit b.1 b.2 id) := by
    intro u hu
    refine ⟨trailOK_pair _ _ _ _ (fun h1 h2 => absurd h2 (hu h1)) hnil, ?_⟩
    intro b hb1
    simp only [List.getLast?_cons_cons, List.getLast?_singleton, Option.some.injEq] at hb1
    subst hb1
    exact hnew
  have hrun : ∀ x : Nat, TrailOK [(f, [(2 * x) % 2 ^ 64])] ∧
      (∀ b, [(f, [(2 * x) % 2 ^ 64])].getLast? = some b → LastBit b.1 b.2 id) := by
    intro x
    refine ⟨trailOK_single _ _ (fun h => absurd h (not_isMask_even (even_word x))), ?_⟩
    intro b hb1
    simp only [List.getLast?_singleton, Option.some.injEq] at hb1
    subst hb1
    exact ⟨hfid, fun h => absurd h (not_isMask_even (even_word x))⟩
  match t with
  | [] =>
    simp only [grow, hd]
    split_ifs with h1 h2
    · have e : [1 ||| 1 <<< d] = setBit [1] d := by
        simp [setBit, orWord, Nat.div_eq_of_lt h1, Nat.mod_eq_of_lt h1]
      rw [e]
      have := hset [1] (by simp; omega) (by simp; omega)
      exact ⟨this.1, this.2, by simp⟩
    · have e : [1, 1 <<< (d - 64)] = setBit [1, 0] d := by
        have e1 : d / 64 = 1 := by omega
        have e2 : d % 64 = d - 64 := by omega
        simp [setBit, orWord, e1, e2]
      rw [e]
      have := hset [1, 0] (by simp; omega) (by simp; omega)
      exact ⟨this.1, this.2, by simp⟩
    · have := hpair [] hnil
      exact ⟨this.1, this.2, by simp⟩
  | [w] =>
    simp only [grow, hd]
    split_ifs with h1 h2 h3 h4
    · have := hset (resize [w] (1 + d / 64)) (by rw [resize_length]; omega)
        (by rw [resize_length]; omega)
      exact ⟨this.1, this.2, fun w1 he hev => by
        simp only [List.cons.injEq, and_true] at he; rw [he] at h1; exact absurd hev h1⟩
    · have := hset [w] (by simp; omega) (by simp; omega)
      exact ⟨this.1, this.2, fun w1 he hev => by
        simp only [List.cons.injEq, and_true] at he; rw [he] at h1; exact absurd hev h1⟩
    · have := hpair [w] hlast_old
      exact ⟨this.1, this.2, fun w1 he hev => by
        simp only [List.cons.injEq, and_true] at he; rw [he] at h1; exact absurd hev h1⟩
    · have e : (w + 2) % 2 ^ 64 = (2 * (w / 2 + 1)) % 2 ^ 64 := by
        have : w % 2 = 0 := by
          rw [← Nat.and_one_is_mod]; simpa using h1
        congr 1; omega
      rw [e]
      have := hrun (w / 2 + 1)
      exact ⟨this.1, this.2, fun _ _ _ => ⟨_, [], rfl, even_word _⟩⟩
    · have := hpair [w] hlast_old
      exact ⟨this.1, this.2, fun w1 _ _ => ⟨w, _, rfl, by simpa using h1⟩⟩
  | w :: w1 :: r =>
    have hmask : IsMask (w :: w1 :: r) := hm (by simp)
    have hold := hbit hmask
    have h3 : ∀ w2, w :: w1 :: r = [w2] → w2 &&& 1 = 0 →
        ∃ w3 rest, grow f (w :: w1 :: r) id = (f, [w3]) :: rest ∧ w3 &&& 1 = 0 :=
      fun w2 he _ => by simp at he
    suffices h12 : TrailOK (grow f (w :: w1 :: r) id) ∧
        (∀ b, (grow f (w :: w1 :: r) id).getLast? = some b → LastBit b.1 b.2 id) from
      ⟨h12.1, h12.2, h3⟩
    clear h3
    rw [grow_many f _ id (by simp)]
    simp only [hd]
    have ht1 : (w :: w1 :: r).length < 2 ^ 58 := ht
    generalize hB : (w :: w1 :: r).length = B at ht1 hold ⊢
    have hB2 : 2 ≤ B := by rw [← hB]; simp
    generalize w :: w1 :: r = t at hB hmask hold hlast_old ⊢
    have hB64 : (B * 64) % 2 ^ 64 = B * 64 := Nat.mod_eq_of_lt (by omega)
    rw [hB64]
    have hfc := fullCountOf_le (orWord t (B - 1) (1 <<< 63))
    rw [orWord_length, hB] at hfc
    split_ifs with h1 h2 h3 h4 h5
    · rw [show fullCountOf (orWord t (B - 1) (1 <<< 63)) * 64 * 2
          = 2 * (fullCountOf (orWord t (B - 1) (1 <<< 63)) * 64) by omega]
      exact hrun _
    · generalize fullCountOf (orWord t (B - 1) (1 <<< 63)) = fc at *
      have hd1 : d + 1 = B * 64 := by omega
      have e2 : (f + ((B - fc) * 64) % 2 ^ 64) % 2 ^ 64 = f + (B - fc) * 64 := by omega
      have e3 : fc * 64 * 2 = 2 * (fc * 64) := by omega
      rw [e2, e3]
      refine ⟨trailOK_pair _ _ _ _ (fun _ _ => ⟨?_, _, rfl, even_word _⟩)
        (fun h => absurd h (not_isMask_even (even_word _))), ?_⟩
      · simp only [List.length_take, orWord_length, hB]
        congr 2; omega
      · intro b hb1
        simp only [List.getLast?_cons_cons, List.getLast?_singleton, Option.some.injEq] at hb1
        subst hb1
        exact ⟨by show f + (B - fc) * 64 ≤ id; omega,
          fun h => absurd h (not_isMask_even (even_word _))⟩
    · have hd1 : d + 1 = t.length * 64 := by omega
      rw [← hB, setBit_orWord_last t d hd1]
      exact hset t (by omega) (by omega)
    · exact hset (resize t (1 + d / 64)) (by rw [resize_length]; omega)
        (by rw [resize_length]; omega)
    · exact hset t (by omega) (by omega)
    · exact hpair t hlast_old

theorem trailOK_append (bs0 : List Block) (f : Nat) (t t1 : List Nat) (rest : List Block)
    (h : TrailOK (bs0 ++ [(f, t)])) (hg : TrailOK ((f, t1) :: rest))
    (hrun : ∀ w, t = [w] → w &&& 1 = 0 → ∃ w1, t1 = [w1] ∧ w1 &&& 1 = 0) :
    TrailOK (bs0 ++ (f, t1) :: rest) := by
  intro i b hb hm hz
  by_cases hi : i < bs0.length
  · rw [List.getElem?_append_left hi] at hb
    obtain ⟨b1, w, h1, h2, h3, h4⟩ := h i b (by rw [List.getElem?_append_left hi]; exact hb) hm hz
    by_cases hi1 : i + 1 < bs0.length
    · rw [List.getElem?_append_left hi1] at h1
      exact ⟨b1, w, by rw [List.getElem?_append_left hi1]; exact h1, h2, h3, h4⟩
    · have e : i + 1 = bs0.length := by omega
      rw [e, List.getElem?_append_right (le_refl _)] at h1
      simp only [Nat.sub_self, List.getElem?_cons_zero, Option.some.injEq] at h1
      subst h1
      obtain ⟨w1, e1, e2⟩ := hrun w h3 h4
      refine ⟨(f, t1), w1, ?_, h2, e1, e2⟩
      rw [e, List.getElem?_append_right (le_refl _)]
      simp
  · have hi0 : bs0.length ≤ i := by omega
    rw [List.getElem?_append_right hi0] at hb
    obtain ⟨b1, w, h1, h2, h3, h4⟩ := hg (i - bs0.length) b hb hm hz
    refine ⟨b1, w, ?_, h2, h3, h4⟩
    rw [List.getElem?_append_right (by omega)]
    rw [show i + 1 - bs0.length = i - bs0.length + 1 by omega]
    exact h1

theorem ascOK_init (a : Nat) : AscOK a [(a, [])] := by
  refine ⟨by simp, trailOK_single _ _ (fun h => by obtain ⟨w, r, he, _⟩ := h; simp at he), ?_⟩
  intro b hb
  simp only [List.getLast?_singleton, Option.some.injEq] at hb
  subst hb
  exact ⟨le_refl _, fun h => by obtain ⟨w, r, he, _⟩ := h; simp at he⟩

theorem ascOK_first_le {m : Nat} {bs0 : List Block} {f : Nat} {t : List Nat}
    (h : AscOK m (bs0 ++ [(f, t)])) : f ≤ m :=
  (h.2.2 (f, t) (by simp)).1

theorem ascOK_step (m : Nat) (bs0 : List Block) (f : Nat) (t : List Nat) (id : Nat)
    (h : AscOK m (bs0 ++ [(f, t)])) (hmid : m < id) (hid : id < 2 ^ 64) :
    AscOK id (bs0 ++ grow f t id) := by
  obtain ⟨hsh, htr, hlast⟩ := h
  have hft := hsh (f, t) (by simp)
  obtain ⟨t1, rest, hg, _, hall, _⟩ := grow_shape f t id hft.1 hft.2
  obtain ⟨g1, g2, g3⟩ := grow_asc f t m id hft.1 hft.2 (hlast (f, t) (by simp)) hmid hid
  refine ⟨?_, ?_, ?_⟩
  · intro b hb
    rcases List.mem_append.mp hb with h | h
    · exact hsh b (List.mem_append_left _ h)
    · exact hall b h
  · rw [hg] at g1 g3 ⊢
    refine trailOK_append bs0 f t t1 rest htr g1 (fun w hw hev => ?_)
    obtain ⟨w1, rest1, e, hev1⟩ := g3 w hw hev
    simp only [List.cons.injEq, Prod.mk.injEq, true_and] at e
    exact ⟨w1, e.1, hev1⟩
  · intro b hb
    rw [List.getLast?_append_of_ne_nil _ (grow_ne_nil f t id)] at hb
    exact g2 b hb

/-- Induction over strictly ascending pushes: a property of the largest id and the blocks
that holds after the first push, bounds the first id of the last block by the largest id and
is kept by every push of a larger id holds after every strictly ascending sequence, and all
its pushes return. -/
theorem ascending_induction (Q : Nat → List Block → Prop)
    (h1 : ∀ a, a < 2 ^ 64 → Q a [(a, [])])
    (hle : ∀ m bs0 f t, Q m (bs0 ++ [(f, t)]) → f ≤ m)
    (hstep : ∀ m bs0 f t id, Q m (bs0 ++ [(f, t)]) → m < id → id < 2 ^ 64 →
      Q id (bs0 ++ grow f t id))
    (seq : List Nat) (m : Nat) (hasc : seq.Pairwise (· < ·)) (hbd : ∀ x ∈ seq, x < 2 ^ 64)
    (hlast : seq.getLast? = some m) :
    ∃ bs0 f t, pushAll fixedIdset.default seq
        = .returned (ofBlocks (seq.length % 2 ^ 64) (bs0 ++ [(f, t)])) ∧
      Q m (bs0 ++ [(f, t)]) := by
  have key : ∀ (rest : List Nat) (k m0 : Nat) (bs0 : List Block) (f : Nat) (t : List Nat),
      Q m0 (bs0 ++ [(f, t)]) → (m0 :: rest).Pairwise (· < ·) → (∀ x ∈ rest, x < 2 ^ 64) →
      (m0 :: rest).getLast? = some m →
      ∃ bs1 f1 t1, pushAll (ofBlocks (k % 2 ^ 64) (bs0 ++ [(f, t)])) rest
          = .returned (ofBlocks ((k + rest.length) % 2 ^ 64) (bs1 ++ [(f1, t1)])) ∧
        Q m (bs1 ++ [(f1, t1)]) := by
    intro rest
    induction rest with
    | nil =>
      intro k m0 bs0 f t hQ _ _ hl
      simp only [List.getLast?_singleton, Option.some.injEq] at hl
      subst hl
      exact ⟨bs0, f, t, by simp [pushAll], hQ⟩
    | cons id rest ih =>
      intro k m0 bs0 f t hQ hp hb hl
      have hid : id < 2 ^ 64 := hb id (List.mem_cons_self _ _)
      have hp1 := List.pairwise_cons.mp hp
      have hmid : m0 < id := hp1.1 id (List.mem_cons_self _ _)
      have hlt : f < id := Nat.lt_of_le_of_lt (hle m0 bs0 f t hQ) hmid
      obtain ⟨g0, b1, hg⟩ : ∃ g0 b1, bs0 ++ grow f t id = g0 ++ [b1] := by
        have hne : bs0 ++ grow f t id ≠ [] := by simp [grow_ne_nil]
        obtain ⟨g0, b1, h⟩ := (List.eq_nil_or_concat _).resolve_left hne
        exact ⟨g0, b1, by rw [h, List.concat_eq_append]⟩
      have hQ1 := hstep m0 bs0 f t id hQ hmid hid
      rw [hg] at hQ1
      rw [List.getLast?_cons_cons] at hl
      obtain ⟨bs1, f1, t1, h3, h4⟩ := ih (k + 1) id g0 b1.1 b1.2 hQ1 hp1.2
        (fun x hx => hb x (List.mem_cons_of_mem _ hx)) hl
      refine ⟨bs1, f1, t1, ?_, h4⟩
      rw [pushAll, push_ofBlocks _ _ _ _ _ hlt]
      simp only
      rw [hg, show (k % 2 ^ 64 + 1) % 2 ^ 64 = (k + 1) % 2 ^ 64 by omega, h3,
        List.length_cons]
      congr 3; omega
  cases seq with
  | nil => simp at hlast
  | cons a rest =>
    rw [pushAll, push_default]
    simp only
    have := key rest 1 a [] a [] (h1 a (hbd a (List.mem_cons_self _ _))) hasc
      (fun x hx => hbd x (List.mem_cons_of_mem _ hx)) hlast
    rw [List.length_cons, show rest.length + 1 = 1 + rest.length by omega]
    exact this

/-- C13, counterexample: the strictly ascending pushes 0, 1, 128, 129, ..., 383 end with a
partial compaction of the bitmask block `[0 | 3, 0, 2^64 - 1, ..., 2^64 - 1]`: its four
full words become the run block `[128, 512]` and the shrunk bitmask block `[0 | 3, 0]` is
left behind. This bitmask block has 2 tail words and its last tail word (index 3 of
`m_idBuf`) is zero. -/
theorem zero_trailing_word_after_partial_compaction :
    ([0, 1] ++ List.range' 128 256).Pairwise (· < ·) ∧
    pushAll fixedIdset.default ([0, 1] ++ List.range' 128 256)
      = .returned ⟨[1, 4], [258, 0, 3, 0, 128, 512]⟩ ∧
    blockBufCount ⟨[1, 4], [258, 0, 3, 0, 128, 512]⟩ 0 = some 2 ∧
    (⟨[1, 4], [258, 0, 3, 0, 128, 512]⟩ : fixedIdset).m_idBuf[1 + 1]? = some 3 ∧
    3 &&& 1 ≠ 0 ∧
    (⟨[1, 4], [258, 0, 3, 0, 128, 512]⟩ : fixedIdset).m_idBuf[1 + 2]? = some 0 := by
  refine ⟨?_, by decide!, by decide!, by decide, by decide, by decide⟩
  rw [List.pairwise_append]
  refine ⟨by decide, List.pairwise_lt_range' _ _, ?_⟩
  intro a ha b hb
  have := (List.mem_range'_1.mp hb).1
  simp only [List.mem_cons, List.mem_singleton, List.not_mem_nil, or_false] at ha
  omega

/-- C13, amended: after any non-empty strictly ascending sequence of 64-bit ids is pushed
into the empty set (every push returns), a bitmask block (block `i` at offset `o` with
`k ≥ 1` tail words, the first of them odd) whose last tail word is zero is never the last
block: it is directly followed by a run block (one even tail word) whose first id is
`first_id + k * 64`, the block that a partial compaction split off. In particular, when the
last block is a bitmask block its last tail word is not zero. -/
theorem trailing_word_invariant (seq : List Nat) (hne : seq ≠ []) (hasc : seq.Pairwise (· < ·))
    (hbd : ∀ x ∈ seq, x < 2 ^ 64) :
    ∃ s, pushAll fixedIdset.default seq = .returned s ∧
      (∀ i o k w0 : Nat, s.m_idOff[i]? = some o → blockBufCount s i = some k → 1 ≤ k →
        s.m_idBuf[o + 1]? = some w0 → w0 &&& 1 ≠ 0 → s.m_idBuf[o + k]? = some 0 →
        ∃ f o1 w, s.m_idBuf[o]? = some f ∧ s.m_idOff[i + 1]? = some o1 ∧
          blockBufCount s (i + 1) = some 1 ∧ s.m_idBuf[o1]? = some (f + k * 64) ∧
          s.m_idBuf[o1 + 1]? = some w ∧ w &&& 1 = 0) ∧
      (∀ o k w0 wl : Nat, s.m_idOff[s.m_idOff.length - 1]? = some o →
        blockBufCount s (s.m_idOff.length - 1) = some k → 1 ≤ k →
        s.m_idBuf[o + 1]? = some w0 → w0 &&& 1 ≠ 0 → s.m_idBuf[o + k]? = some wl → wl ≠ 0) := by
  obtain ⟨bs0, f, t, hp, hQ⟩ := ascending_induction AscOK (fun a _ => ascOK_init a)
    (fun m bs0 f t h => ascOK_first_le h) ascOK_step seq (seq.getLast hne) hasc hbd
    (List.getLast?_eq_getLast seq hne)
  generalize bs0 ++ [(f, t)] = bs at hp hQ
  generalize seq.length % 2 ^ 64 = c at hp
  have main : ∀ i o k w0 : Nat, (ofBlocks c bs).m_idOff[i]? = some o →
      blockBufCount (ofBlocks c bs) i = some k → 1 ≤ k →
      (ofBlocks c bs).m_idBuf[o + 1]? = some w0 → w0 &&& 1 ≠ 0 →
      (ofBlocks c bs).m_idBuf[o + k]? = some 0 →
      ∃ f o1 w, (ofBlocks c bs).m_idBuf[o]? = some f ∧ (ofBlocks c bs).m_idOff[i + 1]? = some o1 ∧
        blockBufCount (ofBlocks c bs) (i + 1) = some 1 ∧
        (ofBlocks c bs).m_idBuf[o1]? = some (f + k * 64) ∧
        (ofBlocks c bs).m_idBuf[o1 + 1]? = some w ∧ w &&& 1 = 0 := by
    intro i o k w0 ho hk hk1 hw0 hodd hwl
    have hi : i < bs.length := by
      rw [← ofBlocks_off_length c bs]
      by_contra hc
      rw [List.getElem?_eq_none (by omega)] at ho
      simp at ho
    obtain ⟨o', h1, h2, h3, h4⟩ := block_view c bs i hi
    rw [ho, Option.some.injEq] at h1
    subst h1
    rw [hk, Option.some.injEq] at h2
    generalize hb : bs[i] = b at h2 h3 h4
    have hbi : bs[i]? = some b := by rw [List.getElem?_eq_getElem hi, hb]
    have e0 := h4 0 (by omega)
    rw [Nat.add_zero, hw0, Option.some.injEq] at e0
    have hmask : IsMask b.2 := by
      cases hb2 : b.2 with
      | nil => rw [hb2] at h2; simp at h2; omega
      | cons w r =>
        rw [hb2] at e0
        simp only [List.getD_cons_zero] at e0
        exact ⟨w, r, rfl, by rw [← e0]; exact hodd⟩
    have e1 := h4 (k - 1) (by omega)
    rw [show o + 1 + (k - 1) = o + k by omega, hwl, Option.some.injEq] at e1
    have hlast : b.2.getLast? = some 0 := by
      rw [getLast?_eq_getD _ (by intro hc; rw [hc] at h2; simp at h2; omega), ← h2, ← e1]
    obtain ⟨b1, w, g1, g2, g3, g4⟩ := hQ.2.1 i b hbi hmask hlast
    have hi1 : i + 1 < bs.length := by
      by_contra hc
      rw [List.getElem?_eq_none (by omega)] at g1
      simp at g1
    obtain ⟨o1, k1, k2, k3, k4⟩ := block_view c bs (i + 1) hi1
    have hb1 : bs[i + 1] = b1 := by
      rw [List.getElem?_eq_getElem hi1] at g1
      exact Option.some.inj g1
    rw [hb1] at k2 k3 k4
    refine ⟨b.1, o1, w, h3, k1, ?_, ?_, ?_, g4⟩
    · rw [k2, g3]; rfl
    · rw [k3, g2, h2]
    · have := k4 0 (by rw [g3]; simp)
      rw [Nat.add_zero, g3] at this
      simpa using this
  refine ⟨_, hp, main, ?_⟩
  intro o k w0 wl ho hk hk1 hw0 hodd hwl hz
  subst hz
  obtain ⟨_, o1, _, _, g, _⟩ := main _ o k w0 ho hk hk1 hw0 hodd hwl
  have hlen : 0 < (ofBlocks c bs).m_idOff.length := by
    by_contra hc
    rw [List.getElem?_eq_none (by omega)] at ho
    simp at ho
  rw [List.getElem?_eq_none (by omega)] at g
  simp at g

theorem trailing_word_invariant_witness :
    ([0, 1, 100, 150] : List Nat) ≠ [] ∧ ([0, 1, 100, 150] : List Nat).Pairwise (· < ·) ∧
    (∀ x ∈ ([0, 1, 100, 150] : List Nat), x < 2 ^ 64) ∧
    ∃ s, pushAll fixedIdset.default [0, 1, 100, 150] = .returned s ∧
      (∀ i o k w0 : Nat, s.m_idOff[i]? = some o → blockBufCount s i = some k → 1 ≤ k →
        s.m_idBuf[o + 1]? = some w0 → w0 &&& 1 ≠ 0 → s.m_idBuf[o + k]? = some 0 →
        ∃ f o1 w, s.m_idBuf[o]? = some f ∧ s.m_idOff[i + 1]? = some o1 ∧
          blockBufCount s (i + 1) = some 1 ∧ s.m_idBuf[o1]? = some (f + k * 64) ∧
          s.m_idBuf[o1 + 1]? = some w ∧ w &&& 1 = 0) ∧
      (∀ o k w0 wl : Nat, s.m_idOff[s.m_idOff.length - 1]? = some o →
        blockBufCount s (s.m_idOff.length - 1) = some k → 1 ≤ k →
        s.m_idBuf[o + 1]? = some w0 → w0 &&& 1 ≠ 0 → s.m_idBuf[o + k]? = some wl → wl ≠ 0) :=
  ⟨by decide, by decide, by decide,
    trailing_word_invariant [0, 1, 100, 150] (by decide) (by decide) (by decide)⟩

theorem bits_setBit_length_le {t : List Nat} (ht : t.length < 2 ^ 58) {d : Nat}
    (hd : d / 64 < t.length) : (bits (setBit t d)).length ≤ (bits t).length + 1 := by
  have hsub : bits (setBit t d) ⊆ d :: bits t := by
    intro i hi
    rw [mem_bits (by rw [setBit_length]; exact ht), bitAt_setBit t d i hd] at hi
    rw [List.mem_cons, mem_bits ht]
    simp only [Bool.or_eq_true, decide_eq_true_eq] at hi
    tauto
  exact (List.subperm_of_subset (bits_sorted _).nodup hsub).length_le

theorem full_le_bits (t : List Nat) (ht : t.length < 2 ^ 58) :
    fullCountOf t * 64 ≤ (bits t).length := by
  have hfc := fullCountOf_le t
  have e := take_fullCountOf t
  have h := bits_append_full (t := t.take (t.length - fullCountOf t)) (k := fullCountOf t)
    (by simp only [List.length_take]; omega)
  rw [← e] at h
  rw [h]
  simp

theorem bits_resize {t : List Nat} {n : Nat} (h : t.length ≤ n) (hn : n < 2 ^ 58) :
    bits (resize t n) = bits t := by
  rw [resize_eq_append t n h]
  exact bits_append_zeros (by omega)

/-- The growth step and the run counts: after an accepted push every single even tail word
among the new blocks holds a count between 256 and the number of pushes, and a bitmask tail
of the new last block has at most that many bits. -/
theorem grow_runs (f : Nat) (t : List Nat) (id n : Nat) (hm : 2 ≤ t.length → IsMask t)
    (ht : t.length < 2 ^ 58) (hbits : IsMask t → (bits t).length ≤ n)
    (hrun : ∀ w, t = [w] → w &&& 1 = 0 → 256 ≤ w / 2 ∧ w / 2 ≤ n)
    (hn1 : 1 ≤ n) (hn : n + 1 < 2 ^ 63) :
    (∀ b ∈ grow f t id, ∀ w, b.2 = [w] → w &&& 1 = 0 → 256 ≤ w / 2 ∧ w / 2 ≤ n + 1) ∧
    (∀ b, (grow f t id).getLast? = some b → IsMask b.2 → (bits b.2).length ≤ n + 1) := by
  generalize hd : (id + (2 ^ 64 - f)) % 2 ^ 64 = d
  have hdM : d < 2 ^ 64 := by rw [← hd]; exact Nat.mod_lt _ (by norm_num)
  have hnil : ¬ IsMask ([] : List Nat) := fun h => by
    obtain ⟨w, r, he, _⟩ := h; simp at he
  have hmaskcase : ∀ u : List Nat, IsMask u → u.length < 2 ^ 58 → d / 64 < u.length →
      (bits u).length ≤ n →
      (∀ b ∈ [(f, setBit u d)], ∀ w, b.2 = [w] → w &&& 1 = 0 → 256 ≤ w / 2 ∧ w / 2 ≤ n + 1) ∧
      (∀ b, [(f, setBit u d)].getLast? = some b → IsMask b.2 → (bits b.2).length ≤ n + 1) := by
    intro u hu hlen hdu hb
    have hk := isMask_setBit hu d hdu
    constructor
    · intro b hb1 w hw hev
      rw [List.mem_singleton.mp hb1] at hw
      simp only at hw
      rw [hw] at hk
      exact absurd hk (not_isMask_even hev)
    · intro b hb1 _
      simp only [List.getLast?_singleton, Option.some.injEq] at hb1
      subst hb1
      have := bits_setBit_length_le hlen hdu
      simp only
      omega
  have hnewcase : ∀ u : List Nat,
      (∀ w, u = [w] → w &&& 1 = 0 → 256 ≤ w / 2 ∧ w / 2 ≤ n) →
      (∀ b ∈ [(f, u), (id, [])], ∀ w, b.2 = [w] → w &&& 1 = 0 → 256 ≤ w / 2 ∧ w / 2 ≤ n + 1) ∧
      (∀ b, [(f, u), (id, [])].getLast? = some b → IsMask b.2 → (bits b.2).length ≤ n + 1) := by
    intro u hu
    constructor
    · intro b hb1 w hw hev
      rcases List.mem_cons.mp hb1 with h | h
      · rw [h] at hw
        have := hu w hw hev
        omega
      · rw [List.mem_singleton.mp h] at hw
        simp at hw
    · intro b hb1 hk
      simp only [List.getLast?_cons_cons, List.getLast?_singleton, Option.some.injEq] at hb1
      subst hb1
      exact absurd hk hnil
  have hrunword : ∀ x : Nat, 256 ≤ x → x ≤ n + 1 → ∀ w, [(2 * x) % 2 ^ 64] = [w] →
      256 ≤ w / 2 ∧ w / 2 ≤ n + 1 := by
    intro x h1 h2 w hw
    simp only [List.cons.injEq, and_true] at hw
    omega
  have hruncase : ∀ x : Nat, 256 ≤ x → x ≤ n + 1 →
      (∀ b ∈ [(f, [(2 * x) % 2 ^ 64])], ∀ w, b.2 = [w] → w &&& 1 = 0 →
        256 ≤ w / 2 ∧ w / 2 ≤ n + 1) ∧
      (∀ b, [(f, [(2 * x) % 2 ^ 64])].getLast? = some b → IsMask b.2 →
        (bits b.2).length ≤ n + 1) := by
    intro x h1 h2
    constructor
    · intro b hb1 w hw _
      rw [List.mem_singleton.mp hb1] at hw
      exact hrunword x h1 h2 w hw
    · intro b hb1 hk
      simp only [List.getLast?_singleton, Option.some.injEq] at hb1
      subst hb1
      exact absurd hk (not_isMask_even (even_word x))
  match t with
  | [] =>
    simp only [grow, hd]
    split_ifs with h1 h2
    · have e : [1 ||| 1 <<< d] = setBit [1] d := by
        simp [setBit, orWord, Nat.div_eq_of_lt h1, Nat.mod_eq_of_lt h1]
      rw [e]
      exact hmaskcase [1] isMask_one (by simp) (by simp; omega) (by rw [bits_one]; simpa using hn1)
    · have e : [1, 1 <<< (d - 64)] = setBit [1, 0] d := by
        have e1 : d / 64 = 1 := by omega
        have e2 : d % 64 = d - 64 := by omega
        simp [setBit, orWord, e1, e2]
      rw [e]
      exact hmaskcase [1, 0] ⟨1, [0], rfl, by decide⟩ (by simp) (by simp; omega)
        (by rw [show bits [1, 0] = [0] by decide]; simpa using hn1)
    · exact hnewcase [] (fun w hw => by simp at hw)
  | [w] =>
    simp only [grow, hd]
    split_ifs with h1 h2 h3 h4
    · have hw : IsMask [w] := ⟨w, [], rfl, h1⟩
      exact hmaskcase (resize [w] (1 + d / 64)) (isMask_resize hw (by simp))
        (by rw [resize_length]; omega) (by rw [resize_length]; omega)
        (by rw [bits_resize (by simp) (by omega)]; exact hbits hw)
    · have hw : IsMask [w] := ⟨w, [], rfl, h1⟩
      exact hmaskcase [w] hw (by simp) (by simp; omega) (hbits hw)
    · exact hnewcase [w] hrun
    · have hev : w &&& 1 = 0 := by simpa using h1
      have hw := hrun w rfl hev
      have e : (w + 2) % 2 ^ 64 = (2 * (w / 2 + 1)) % 2 ^ 64 := by
        have : w % 2 = 0 := by rw [← Nat.and_one_is_mod]; exact hev
        congr 1; omega
      rw [e]
      exact hruncase (w / 2 + 1) (by omega) (by omega)
    · exact hnewcase [w] hrun
  | w :: w1 :: r =>
    have hmask : IsMask (w :: w1 :: r) := hm (by simp)
    have hb0 := hbits hmask
    have hrun0 : ∀ w2, w :: w1 :: r = [w2] → w2 &&& 1 = 0 → 256 ≤ w2 / 2 ∧ w2 / 2 ≤ n :=
      fun w2 he => by simp at he
    rw [grow_many f _ id (by simp)]
    simp only [hd]
    have ht1 : (w :: w1 :: r).length < 2 ^ 58 := ht
    generalize hB : (w :: w1 :: r).length = B at ht1 ⊢
    have hB2 : 2 ≤ B := by rw [← hB]; simp
    generalize w :: w1 :: r = t at hB hmask hb0 hrun0 ⊢
    have hB64 : (B * 64) % 2 ^ 64 = B * 64 := Nat.mod_eq_of_lt (by omega)
    rw [hB64]
    have e1 : orWord t (B - 1) (1 <<< 63) = setBit t (B * 64 - 1) := by
      rw [← hB]
      exact setBit_orWord_last t (t.length * 64 - 1) (by omega)
    have hfc := fullCountOf_le (orWord t (B - 1) (1 <<< 63))
    rw [orWord_length, hB] at hfc
    have hm1 : IsMask (orWord t (B - 1) (1 <<< 63)) := isMask_orWord hmask _ _
    have hb1 : (bits (orWord t (B - 1) (1 <<< 63))).length ≤ n + 1 := by
      rw [e1]
      have := bits_setBit_length_le (t := t) (d := B * 64 - 1) (by omega) (by omega)
      omega
    have hfull := full_le_bits (orWord t (B - 1) (1 <<< 63)) (by rw [orWord_length]; omega)
    split_ifs with h1 h2 h3 h4 h5
    · rw [show fullCountOf (orWord t (B - 1) (1 <<< 63)) * 64 * 2
          = 2 * (fullCountOf (orWord t (B - 1) (1 <<< 63)) * 64) by omega]
      exact hruncase _ (by omega) (by omega)
    · generalize fullCountOf (orWord t (B - 1) (1 <<< 63)) = fc at *
      rw [show fc * 64 * 2 = 2 * (fc * 64) by omega]
      constructor
      · intro b hb w2 hw hev
        rcases List.mem_cons.mp hb with h | h
        · rw [h] at hw
          simp only at hw
          have hk : IsMask ((orWord t (B - 1) (1 <<< 63)).take (B - fc)) :=
            isMask_take hm1 (by omega)
          rw [hw] at hk
          exact absurd hk (not_isMask_even hev)
        · rw [List.mem_singleton.mp h] at hw
          exact hrunword (fc * 64) (by omega) (by omega) w2 hw
      · intro b hb hk
        simp only [List.getLast?_cons_cons, List.getLast?_singleton, Option.some.injEq] at hb
        subst hb
        exact absurd hk (not_isMask_even (even_word _))
    · constructor
      · intro b hb w2 hw hev
        rw [List.mem_singleton.mp hb] at hw
        simp only at hw
        rw [hw] at hm1
        exact absurd hm1 (not_isMask_even hev)
      · intro b hb _
        simp only [List.getLast?_singleton, Option.some.injEq] at hb
        subst hb
        exact hb1
    · exact hmaskcase (resize t (1 + d / 64)) (isMask_resize hmask (by omega))
        (by rw [resize_length]; omega) (by rw [resize_length]; omega)
        (by rw [bits_resize (by omega) (by omega)]; exact hb0)
    · exact hmaskcase t hmask (by omega) (by omega) hb0
    · exact hnewcase t hrun0

theorem runsOK_step (n : Nat) (bs0 : List Block) (f : Nat) (t : List Nat) (id : Nat)
    (h : ShapeOK n (bs0 ++ [(f, t)]) ∧ (n < 2 ^ 63 → RunsOK n (bs0 ++ [(f, t)]))) :
    ShapeOK (n + 1) (bs0 ++ grow f t id) ∧
      (n + 1 < 2 ^ 63 → RunsOK (n + 1) (bs0 ++ grow f t id)) := by
  obtain ⟨hs, hr⟩ := h
  refine ⟨shapeOK_step n bs0 f t id hs, fun hn => ?_⟩
  obtain ⟨hruns, hlast⟩ := hr (by omega)
  obtain ⟨_, hmask, hlen, _, hcnt⟩ := hs
  have hn1 : 1 ≤ n := by
    simp only [List.length_append, List.length_singleton] at hcnt
    omega
  obtain ⟨g1, g2⟩ := grow_runs f t id n (hmask (f, t) (by simp)) (hlen (f, t) (by simp))
    (hlast (f, t) (by simp)) (hruns (f, t) (by simp)) hn1 hn
  constructor
  · intro b hb w hw hev
    rcases List.mem_append.mp hb with h | h
    · have := hruns b (List.mem_append_left _ h) w hw hev
      omega
    · exact g1 b h w hw hev
  · intro b hb
    rw [List.getLast?_append_of_ne_nil _ (grow_ne_nil f t id)] at hb
    exact g2 b hb

theorem reachable_runs (s : fixedIdset) (n : Nat) (hr : Reachable s n) (hn : 1 ≤ n) :
    ∃ bs0 f t, s = ofBlocks (n % 2 ^ 64) (bs0 ++ [(f, t)]) ∧
      ShapeOK n (bs0 ++ [(f, t)]) ∧ (n < 2 ^ 63 → RunsOK n (bs0 ++ [(f, t)])) := by
  refine reachable_induction (fun n bs => ShapeOK n bs ∧ (n < 2 ^ 63 → RunsOK n bs))
    (fun a _ => ⟨shapeOK_init a, fun _ => ⟨?_, ?_⟩⟩)
    (fun n bs0 f t id h _ _ => runsOK_step n bs0 f t id h) s n hr hn
  · intro b hb w hw
    rw [List.mem_singleton.mp hb] at hw
    simp at hw
  · intro b hb hk
    simp only [List.getLast?_singleton, Option.some.injEq] at hb
    subst hb
    obtain ⟨w, r, he, _⟩ := hk
    simp at he

/-- C20: in every state reached from the empty set by `n < 2^63` successful pushes, every
run block (a block with exactly one tail word, which is even) holds a count
`tailWord / 2` of at least 256 (and at most `n`); a push onto a state whose last block is a
singleton never turns that block into a run: if the block has tail words afterwards, the
first of them is odd (a bitmask word); and `push(5); push(6); push(7)` gives
`m_idBuf == [3, 5, 7]` with the bitmask tail word `0b111 = 7`. -/
theorem runs_only_from_compaction (s : fixedIdset) (n : Nat) (hr : Reachable s n)
    (hn : n < 2 ^ 63) :
    (∀ i o w : Nat, s.m_idOff[i]? = some o → blockBufCount s i = some 1 →
      s.m_idBuf[o + 1]? = some w → w &&& 1 = 0 → 256 ≤ w / 2 ∧ w / 2 ≤ n) ∧
    (∀ (id : Nat) (s1 : fixedIdset) (o k w : Nat), id < 2 ^ 64 → blockBufCount s (s.m_idOff.length - 1) = some 0 →
      push s id = .returned s1 → s1.m_idOff[s.m_idOff.length - 1]? = some o →
      blockBufCount s1 (s.m_idOff.length - 1) = some k → 1 ≤ k →
      s1.m_idBuf[o + 1]? = some w → w &&& 1 ≠ 0) ∧
    pushAll fixedIdset.default [5, 6, 7] = .returned ⟨[1], [3, 5, 7]⟩ := by
  by_cases hn0 : n = 0
  · subst hn0
    rw [reachable_zero s hr]
    refine ⟨fun i o w ho => ?_, fun id s1 o k w _ hk => ?_, by decide⟩
    · simp [fixedIdset.default] at ho
    · simp [fixedIdset.default, blockBufCount] at hk
  · obtain ⟨bs0, f, t, rfl, hs, hruns⟩ := reachable_runs s n hr (by omega)
    refine ⟨fun i o w ho hk hw hev => ?_, fun id s1 o k w hid hk0 hp ho hk hk1 hw => ?_,
      by decide⟩
    · have hi : i < (bs0 ++ [(f, t)]).length := by
        rw [← ofBlocks_off_length (n % 2 ^ 64)]
        exact (List.getElem?_eq_some_iff.mp ho).1
      obtain ⟨o1, h1, h2, _, h4⟩ := block_view (n % 2 ^ 64) _ i hi
      rw [ho, Option.some.injEq] at h1
      subst h1
      rw [hk, Option.some.injEq] at h2
      generalize hb : (bs0 ++ [(f, t)])[i] = b at h2 h4
      have hmem : b ∈ bs0 ++ [(f, t)] := by rw [← hb]; exact List.getElem_mem _
      have e0 := h4 0 (by omega)
      rw [Nat.add_zero, hw, Option.some.injEq] at e0
      have hb2 : b.2 = [w] := by
        match hb2 : b.2, h2, e0 with
        | [x], _, e0 => simp at e0; rw [e0]
      exact (hruns hn).1 b hmem w hb2 hev
    · rw [ofBlocks_off_length, List.length_append, List.length_singleton,
        Nat.add_sub_cancel] at hk0 ho hk
      rw [blockBufCount_ofBlocks (n % 2 ^ 64) bs0 [] (f, t), Option.some.injEq] at hk0
      have ht : t = [] := List.length_eq_zero.mp hk0
      subst ht
      obtain ⟨_, rfl⟩ := push_returned_ofBlocks hp
      obtain ⟨t1, rest, hg, _, _, _⟩ := grow_shape f [] id (by simp) (by simp)
      have hodd : ∀ x r, t1 = x :: r → x &&& 1 ≠ 0 := by
        intro x r hx
        have hg1 := hg
        simp only [grow] at hg1
        split_ifs at hg1 with h1 h2
        · simp only [List.cons.injEq, Prod.mk.injEq, true_and] at hg1
          rw [← hg1.1] at hx
          simp only [List.cons.injEq] at hx
          rw [← hx.1, Nat.and_one_is_mod]
          have := @Nat.or_mod_two_eq_one 1 (1 <<< ((id + (2 ^ 64 - f)) % 2 ^ 64))
          omega
        · simp only [List.cons.injEq, Prod.mk.injEq, true_and] at hg1
          rw [← hg1.1] at hx
          simp only [List.cons.injEq] at hx
          rw [← hx.1]
          decide
        · simp only [List.cons.injEq, Prod.mk.injEq, true_and] at hg1
          rw [← hg1.1] at hx
          simp at hx
      rw [hg] at ho hk hw
      have hv := block_view ((n % 2 ^ 64 + 1) % 2 ^ 64) (bs0 ++ (f, t1) :: rest) bs0.length
        (by simp)
      obtain ⟨o1, h1, h2, _, h4⟩ := hv
      rw [ho, Option.some.injEq] at h1
      subst h1
      rw [hk, Option.some.injEq] at h2
      have hb : (bs0 ++ (f, t1) :: rest)[bs0.length]? = some (f, t1) := by
        rw [List.getElem?_append_right (le_refl _)]; simp
      have hb1 : ∀ (h : bs0.length < (bs0 ++ (f, t1) :: rest).length),
          (bs0 ++ (f, t1) :: rest)[bs0.length] = (f, t1) := by
        intro h
        rw [List.getElem?_eq_getElem h] at hb
        exact Option.some.inj hb
      rw [hb1 (by simp)] at h2 h4
      simp only at h2 h4
      have e0 := h4 0 (by omega)
      rw [Nat.add_zero, hw, Option.some.injEq] at e0
      cases t1 with
      | nil => simp only [List.length_nil] at h2; omega
      | cons x r =>
        simp only [List.getD_cons_zero] at e0
        rw [e0]
        exact hodd x r rfl

theorem runs_only_from_compaction_witness :
    Reachable ⟨[1], [256, 0, 512]⟩ 256 ∧ 256 < 2 ^ 63 ∧
    ((∀ i o w : Nat, (⟨[1], [256, 0, 512]⟩ : fixedIdset).m_idOff[i]? = some o →
      blockBufCount ⟨[1], [256, 0, 512]⟩ i = some 1 →
      (⟨[1], [256, 0, 512]⟩ : fixedIdset).m_idBuf[o + 1]? = some w → w &&& 1 = 0 →
      256 ≤ w / 2 ∧ w / 2 ≤ 256) ∧
    (∀ (id : Nat) (s1 : fixedIdset) (o k w : Nat), id < 2 ^ 64 →
      blockBufCount ⟨[1], [256, 0, 512]⟩
        ((⟨[1], [256, 0, 512]⟩ : fixedIdset).m_idOff.length - 1) = some 0 →
      push ⟨[1], [256, 0, 512]⟩ id = .returned s1 →
      s1.m_idOff[(⟨[1], [256, 0, 512]⟩ : fixedIdset).m_idOff.length - 1]? = some o →
      blockBufCount s1 ((⟨[1], [256, 0, 512]⟩ : fixedIdset).m_idOff.length - 1) = some k →
      1 ≤ k → s1.m_idBuf[o + 1]? = some w → w &&& 1 ≠ 0) ∧
    pushAll fixedIdset.default [5, 6, 7] = .returned ⟨[1], [3, 5, 7]⟩) :=
  ⟨⟨List.range 256, by simp, fun x hx => by have := List.mem_range.mp hx; omega, by decide!⟩,
    by decide,
    runs_only_from_compaction ⟨[1], [256, 0, 512]⟩ 256
      ⟨List.range 256, by simp, fun x hx => by have := List.mem_range.mp hx; omega, by decide!⟩
      (by decide)⟩

theorem bits_split_full (t : List Nat) (ht : t.length < 2 ^ 58) :
    (bits t).length
      = (bits (t.take (t.length - fullCountOf t))).length + fullCountOf t * 64 := by
  have hfc := fullCountOf_le t
  have e := take_fullCountOf t
  have h := bits_append_full (t := t.take (t.length - fullCountOf t)) (k := fullCountOf t)
    (by simp only [List.length_take]; omega)
  rw [← e] at h
  rw [h]
  simp

theorem decode_run_length (f x : Nat) :
    (decode (f, [(2 * x) % 2 ^ 64])).length = ((2 * x) % 2 ^ 64) / 2 := by
  rw [decode_run (by rw [not_not]; exact even_word x), List.length_map, List.length_range]

/-- The growth step adds at most one id to the ids that the blocks decode to. -/
theorem grow_declen (f : Nat) (t : List Nat) (id : Nat) (hm : 2 ≤ t.length → IsMask t)
    (ht : t.length < 2 ^ 58) :
    (decodeAll (grow f t id)).length ≤ (decode (f, t)).length + 1 := by
  generalize hd : (id + (2 ^ 64 - f)) % 2 ^ 64 = d
  have hdM : d < 2 ^ 64 := by rw [← hd]; exact Nat.mod_lt _ (by norm_num)
  have hmaskcase : ∀ u : List Nat, IsMask u → u.length < 2 ^ 58 → d / 64 < u.length →
      (decodeAll [(f, setBit u d)]).length ≤ (bits u).length + 1 := by
    intro u hu hlen hdu
    rw [decodeAll_single, bits_length_decode (isMask_setBit hu d hdu)]
    exact bits_setBit_length_le hlen hdu
  match t with
  | [] =>
    simp only [grow, hd, decode_single, List.length_singleton]
    split_ifs with h1 h2
    · have e : [1 ||| 1 <<< d] = setBit [1] d := by
        simp [setBit, orWord, Nat.div_eq_of_lt h1, Nat.mod_eq_of_lt h1]
      rw [e]
      have := hmaskcase [1] isMask_one (by simp) (by simp; omega)
      rw [bits_one] at this
      exact this
    · have e : [1, 1 <<< (d - 64)] = setBit [1, 0] d := by
        have e1 : d / 64 = 1 := by omega
        have e2 : d % 64 = d - 64 := by omega
        simp [setBit, orWord, e1, e2]
      rw [e]
      have := hmaskcase [1, 0] ⟨1, [0], rfl, by decide⟩ (by simp) (by simp; omega)
      rw [show bits [1, 0] = [0] by decide] at this
      exact this
    · simp [decodeAll, decode_single]
  | [w] =>
    simp only [grow, hd]
    split_ifs with h1 h2 h3 h4
    · have hw : IsMask [w] := ⟨w, [], rfl, h1⟩
      have := hmaskcase (resize [w] (1 + d / 64)) (isMask_resize hw (by simp))
        (by rw [resize_length]; omega) (by rw [resize_length]; omega)
      rw [bits_resize (by simp) (by omega)] at this
      rw [bits_length_decode hw]
      exact this
    · have hw : IsMask [w] := ⟨w, [], rfl, h1⟩
      rw [bits_length_decode hw]
      exact hmaskcase [w] hw (by simp) (by simp; omega)
    · simp [decodeAll, decode_single]
    · have hev : w &&& 1 = 0 := by simpa using h1
      have hw2 : w % 2 = 0 := by rw [← Nat.and_one_is_mod]; exact hev
      have e : (w + 2) % 2 ^ 64 = (2 * (w / 2 + 1)) % 2 ^ 64 := by congr 1; omega
      rw [decodeAll_single, e, decode_run_length, decode_run h1, List.length_map,
        List.length_range]
      omega
    · simp [decodeAll, decode_single]
  | w :: w1 :: r =>
    have hmask : IsMask (w :: w1 :: r) := hm (by simp)
    rw [grow_many f _ id (by simp), bits_length_decode hmask]
    simp only [hd]
    have ht1 : (w :: w1 :: r).length < 2 ^ 58 := ht
    generalize hB : (w :: w1 :: r).length = B at ht1 ⊢
    have hB2 : 2 ≤ B := by rw [← hB]; simp
    generalize w :: w1 :: r = t at hB hmask ⊢
    have hB64 : (B * 64) % 2 ^ 64 = B * 64 := Nat.mod_eq_of_lt (by omega)
    rw [hB64]
    have e1 : orWord t (B - 1) (1 <<< 63) = setBit t (B * 64 - 1) := by
      rw [← hB]
      exact setBit_orWord_last t (t.length * 64 - 1) (by omega)
    have hfc := fullCountOf_le (orWord t (B - 1) (1 <<< 63))
    rw [orWord_length, hB] at hfc
    have hm1 : IsMask (orWord t (B - 1) (1 <<< 63)) := isMask_orWord hmask _ _
    have hb1 : (bits (orWord t (B - 1) (1 <<< 63))).length ≤ (bits t).length + 1 := by
      rw [e1]
      exact bits_setBit_length_le (t := t) (d := B * 64 - 1) (by omega) (by omega)
    have hsplit := bits_split_full (orWord t (B - 1) (1 <<< 63)) (by rw [orWord_length]; omega)
    rw [orWord_length, hB] at hsplit
    split_ifs with h1 h2 h3 h4 h5
    · rw [show fullCountOf (orWord t (B - 1) (1 <<< 63)) * 64 * 2
          = 2 * (fullCountOf (orWord t (B - 1) (1 <<< 63)) * 64) by omega,
        decodeAll_single, decode_run_length]
      omega
    · generalize fullCountOf (orWord t (B - 1) (1 <<< 63)) = fc at *
      rw [show fc * 64 * 2 = 2 * (fc * 64) by omega, decodeAll_pair, List.length_append,
        decode_run_length, bits_length_decode (isMask_take hm1 (by omega))]
      omega
    · rw [decodeAll_single, bits_length_decode hm1]
      exact hb1
    · have := hmaskcase (resize t (1 + d / 64)) (isMask_resize hmask (by omega))
        (by rw [resize_length]; omega) (by rw [resize_length]; omega)
      rw [bits_resize (by omega) (by omega)] at this
      exact this
    · exact hmaskcase t hmask (by omega) (by omega)
    · rw [decodeAll_pair, List.length_append, bits_length_decode hmask, decode_single]
      simp

theorem declen_step (n : Nat) (bs0 : List Block) (f : Nat) (t : List Nat) (id : Nat)
    (h : (ShapeOK n (bs0 ++ [(f, t)]) ∧ FirstsOK (bs0 ++ [(f, t)])) ∧
      (decodeAll (bs0 ++ [(f, t)])).length ≤ n) (hf : f < id) (hid : id < 2 ^ 64) :
    (ShapeOK (n + 1) (bs0 ++ grow f t id) ∧ FirstsOK (bs0 ++ grow f t id)) ∧
      (decodeAll (bs0 ++ grow f t id)).length ≤ n + 1 := by
  refine ⟨firstsOK_step n bs0 f t id h.1 hf hid, ?_⟩
  have hg := grow_declen f t id (h.1.1.2.1 (f, t) (by simp)) (h.1.1.2.2.1 (f, t) (by simp))
  have hl := h.2
  rw [decodeAll_append, List.length_append, decodeAll_single] at hl
  rw [decodeAll_append, List.length_append]
  omega

/-- Every reachable non-empty state is given by blocks of the right shape whose first ids
increase strictly and which decode to at most as many ids as were pushed. -/
theorem reachable_declen (s : fixedIdset) (n : Nat) (hr : Reachable s n) (hn : 1 ≤ n) :
    ∃ bs0 f t, s = ofBlocks (n % 2 ^ 64) (bs0 ++ [(f, t)]) ∧
      ((ShapeOK n (bs0 ++ [(f, t)]) ∧ FirstsOK (bs0 ++ [(f, t)])) ∧
        (decodeAll (bs0 ++ [(f, t)])).length ≤ n) :=
  reachable_induction (fun n bs => (ShapeOK n bs ∧ FirstsOK bs) ∧ (decodeAll bs).length ≤ n)
    (fun a _ => ⟨⟨shapeOK_init a, by simp [FirstsOK]⟩, by simp [decodeAll, decode_single]⟩)
    (fun n bs0 f t id h hf hid => declen_step n bs0 f t id h hf hid) s n hr hn

/-- C16, counterexample: the state reached by the 2^63 successful pushes 0, ..., 2^63 - 1
has the count word 2^63, and `getIds` fails on it: `v.reserve(count())` throws
`std::length_error`. -/
theorem getIds_raises_length_error :
    Reachable ⟨[1], [2 ^ 63, 0, 0]⟩ (2 ^ 63) ∧
    count ⟨[1], [2 ^ 63, 0, 0]⟩ = 2 ^ 63 ∧ max_size < 2 ^ 63 ∧
    getIds ⟨[1], [2 ^ 63, 0, 0]⟩ = .length_error :=
  ⟨⟨List.range (2 ^ 63), List.length_range _,
      fun x hx => by have := List.mem_range.mp hx; omega,
      (consecutive_run (2 ^ 63) (by norm_num) (le_refl _)).2⟩,
    rfl, by decide, by decide⟩

/-- C16, amended: on every state reached by `n` successful pushes, `hasId` (for every 64-bit
id) returns a result; `getIds` returns a vector or throws `std::length_error` (from
`v.reserve(count())` or a `push_back` beyond `max_size()`), and it returns whenever
`n ≤ max_size` (2^60 - 1); and a further `push` (for every 64-bit id) returns or raises
`std::invalid_argument` leaving the state as it was. No access leaves `m_idOff` or `m_idBuf`
and no shift amount reaches 64 (`count` and `empty` are total by their definition).  The
first ids that `std::upper_bound` searches increase strictly, as that call requires. -/
theorem queries_total (s : fixedIdset) (n : Nat) (hr : Reachable s n) :
    (∀ id, id < 2 ^ 64 → ∃ b, hasId s id = some b) ∧
    (getIds s = .length_error ∨ ∃ v, getIds s = .returned v) ∧
    (n ≤ max_size → ∃ v, getIds s = .returned v) ∧
    (∀ id, id < 2 ^ 64 → (∃ s1, push s id = .returned s1) ∨ push s id = .invalid_argument s) ∧
    (∀ i j oi oj fi fj : Nat, i < j → s.m_idOff[i]? = some oi → s.m_idOff[j]? = some oj →
      s.m_idBuf[oi]? = some fi → s.m_idBuf[oj]? = some fj → fi < fj) := by
  by_cases hn : n = 0
  · subst hn
    rw [reachable_zero s hr]
    exact ⟨fun id _ => ⟨false, rfl⟩, Or.inr ⟨[], by decide⟩, fun _ => ⟨[], by decide⟩,
      fun id _ => Or.inl ⟨_, push_default id⟩,
      fun i j oi oj fi fj _ h => by simp [fixedIdset.default] at h⟩
  · obtain ⟨bs0, f, t, rfl, ⟨_, hF⟩, hlen⟩ := reachable_declen s n hr (by omega)
    refine ⟨fun id _ => hasId_total _ _ id, ?_, fun hmax => ?_, fun id _ => ?_,
      fun i j oi oj fi fj hij h1 h2 h3 h4 =>
        firsts_sorted_ofBlocks _ _ hF i j oi oj fi fj hij h1 h2 h3 h4⟩
    · rw [getIds_ofBlocks]
      split_ifs
      · exact Or.inl rfl
      · exact Or.inl rfl
      · exact Or.inr ⟨_, rfl⟩
    · have := Nat.mod_le n (2 ^ 64)
      rw [getIds_ofBlocks, if_neg (by omega), if_neg (by omega)]
      exact ⟨_, rfl⟩
    · by_cases hle : id ≤ f
      · exact Or.inr (push_le_first _ id ((flat bs0).length + 1) f (by
          simp [ofBlocks, offsets_append, offsets, Nat.add_comm])
          (first_ofBlocks _ bs0 [] (f, t)) hle)
      · exact Or.inl ⟨_, push_ofBlocks _ _ _ _ _ (Nat.lt_of_not_le hle)⟩

theorem queries_total_witness :
    Reachable ⟨[1], [3, 5, 7]⟩ 3 ∧
    ((∀ id, id < 2 ^ 64 → ∃ b, hasId ⟨[1], [3, 5, 7]⟩ id = some b) ∧
    (getIds ⟨[1], [3, 5, 7]⟩ = .length_error ∨ ∃ v, getIds ⟨[1], [3, 5, 7]⟩ = .returned v) ∧
    (3 ≤ max_size → ∃ v, getIds ⟨[1], [3, 5, 7]⟩ = .returned v) ∧
    (∀ id, id < 2 ^ 64 → (∃ s1, push ⟨[1], [3, 5, 7]⟩ id = .returned s1) ∨
      push ⟨[1], [3, 5, 7]⟩ id = .invalid_argument ⟨[1], [3, 5, 7]⟩) ∧
    (∀ i j oi oj fi fj : Nat, i < j → (⟨[1], [3, 5, 7]⟩ : fixedIdset).m_idOff[i]? = some oi →
      (⟨[1], [3, 5, 7]⟩ : fixedIdset).m_idOff[j]? = some oj →
      (⟨[1], [3, 5, 7]⟩ : fixedIdset).m_idBuf[oi]? = some fi →
      (⟨[1], [3, 5, 7]⟩ : fixedIdset).m_idBuf[oj]? = some fj → fi < fj)) :=
  ⟨⟨[5, 6, 7], rfl, by decide, by decide⟩,
    queries_total ⟨[1], [3, 5, 7]⟩ 3 ⟨[5, 6, 7], rfl, by decide, by decide⟩⟩

theorem not_isMask_nil : ¬ IsMask ([] : List Nat) := fun h => by
  obtain ⟨w, r, he, _⟩ := h; simp at he

theorem fits_iff {t : List Nat} {k : BlockType} (h : Fits t k) :
    (k = .single ↔ t = []) ∧ (k = .bitmask ↔ IsMask t) ∧
    (k = .continuous ↔ ∃ w, t = [w] ∧ w &&& 1 = 0) := by
  cases k with
  | single =>
    have ht : t = [] := h
    subst ht
    refine ⟨by simp, ?_, ?_⟩
    · exact ⟨fun hc => (by cases hc), fun hc => absurd hc not_isMask_nil⟩
    · exact ⟨fun hc => (by cases hc), fun ⟨w, hw, _⟩ => by simp at hw⟩
  | continuous =>
    obtain ⟨w, ht, hev⟩ : ∃ w, t = [w] ∧ w &&& 1 = 0 := h
    subst ht
    refine ⟨⟨fun hc => (by cases hc), fun hc => by simp at hc⟩, ?_, ?_⟩
    · exact ⟨fun hc => (by cases hc), fun hc => absurd hc (not_isMask_even hev)⟩
    · exact ⟨fun _ => ⟨w, rfl, hev⟩, fun _ => rfl⟩
  | bitmask =>
    have hm : IsMask t := h
    refine ⟨?_, ⟨fun _ => hm, fun _ => rfl⟩, ?_⟩
    · exact ⟨fun hc => (by cases hc), fun hc => by rw [hc] at hm; exact absurd hm not_isMask_nil⟩
    · refine ⟨fun hc => (by cases hc), fun ⟨w, hw, hev⟩ => ?_⟩
      rw [hw] at hm
      exact absurd hm (not_isMask_even hev)

/-- The growth step writes every block in the layout of its type, and gives every new block
a type. -/
theorem grow_fits (k : BlockType) (f : Nat) (t : List Nat) (id : Nat) (h : Fits t k)
    (ht : t.length < 2 ^ 58) :
    (growTypes k f t id).length = (grow f t id).length ∧
    ∀ p ∈ (grow f t id).zip (growTypes k f t id), Fits p.1.2 p.2 := by
  generalize hd : (id + (2 ^ 64 - f)) % 2 ^ 64 = d
  have hdM : d < 2 ^ 64 := by rw [← hd]; exact Nat.mod_lt _ (by norm_num)
  have hone : ∀ (u : List Nat) (k1 : BlockType), Fits u k1 →
      ∀ p ∈ [(f, u)].zip [k1], Fits p.1.2 p.2 := by
    intro u k1 hu p hp
    simp only [List.zip_cons_cons, List.zip_nil_right, List.mem_singleton] at hp
    rw [hp]; exact hu
  have htwo : ∀ (u : List Nat) (k1 : BlockType) (f2 : Nat) (u2 : List Nat) (k2 : BlockType),
      Fits u k1 → Fits u2 k2 → ∀ p ∈ [(f, u), (f2, u2)].zip [k1, k2], Fits p.1.2 p.2 := by
    intro u k1 f2 u2 k2 hu hu2 p hp
    simp only [List.zip_cons_cons, List.zip_nil_right, List.mem_cons, List.mem_singleton,
      List.not_mem_nil, or_false] at hp
    rcases hp with hp | hp <;> rw [hp]
    · exact hu
    · exact hu2
  have hsingle : Fits ([] : List Nat) .single := rfl
  match t with
  | [] =>
    simp only [grow, growTypes, hd]
    split_ifs with h1 h2
    · refine ⟨rfl, hone _ _ ?_⟩
      show IsMask [1 ||| 1 <<< d]
      refine ⟨_, [], rfl, ?_⟩
      rw [Nat.and_one_is_mod]
      have := @Nat.or_mod_two_eq_one 1 (1 <<< d)
      omega
    · exact ⟨rfl, hone _ _ (show IsMask [1, 1 <<< (d - 64)] from ⟨1, _, rfl, by decide⟩)⟩
    · exact ⟨rfl, htwo _ _ _ _ _ h hsingle⟩
  | [w] =>
    simp only [grow, growTypes, hd]
    split_ifs with h1 h2 h3 h4
    · have hw : IsMask [w] := ⟨w, [], rfl, h1⟩
      have hk : k = .bitmask := (fits_iff h).2.1.mpr hw
      subst hk
      exact ⟨rfl, hone _ _ (isMask_setBit (isMask_resize hw (by simp)) d
        (by rw [resize_length]; omega))⟩
    · have hw : IsMask [w] := ⟨w, [], rfl, h1⟩
      have hk : k = .bitmask := (fits_iff h).2.1.mpr hw
      subst hk
      exact ⟨rfl, hone _ _ (isMask_setBit hw d (by simp; omega))⟩
    · exact ⟨rfl, htwo _ _ _ _ _ h hsingle⟩
    · have hev : w &&& 1 = 0 := by simpa using h1
      have hk : k = .continuous := (fits_iff h).2.2.mpr ⟨w, rfl, hev⟩
      subst hk
      refine ⟨rfl, hone _ _ ⟨_, rfl, ?_⟩⟩
      rw [Nat.and_one_is_mod] at hev ⊢
      omega
    · exact ⟨rfl, htwo _ _ _ _ _ h hsingle⟩
  | w :: w1 :: r =>
    have hk : k = .bitmask := by
      cases k with
      | single => exact absurd (show w :: w1 :: r = [] from h) (by simp)
      | continuous =>
        obtain ⟨x, hx, _⟩ : ∃ x, w :: w1 :: r = [x] ∧ x &&& 1 = 0 := h
        simp at hx
      | bitmask => rfl
    subst hk
    have hmask : IsMask (w :: w1 :: r) := h
    rw [grow_many f _ id (by simp)]
    simp only [growTypes, hd]
    have ht1 : (w :: w1 :: r).length < 2 ^ 58 := ht
    generalize hB : (w :: w1 :: r).length = B at ht1 ⊢
    have hB2 : 2 ≤ B := by rw [← hB]; simp
    generalize w :: w1 :: r = t at hB hmask h ⊢
    have hfc := fullCountOf_le (orWord t (B - 1) (1 <<< 63))
    rw [orWord_length, hB] at hfc
    have hm1 : IsMask (orWord t (B - 1) (1 <<< 63)) := isMask_orWord hmask _ _
    have hrunfit : ∀ x : Nat, Fits [(x * 2) % 2 ^ 64] .continuous := fun x =>
      ⟨_, rfl, by rw [Nat.and_one_is_mod]; omega⟩
    split_ifs with h1 h2 h3 h4 h5
    · exact ⟨rfl, hone _ _ (hrunfit _)⟩
    · exact ⟨rfl, htwo _ _ _ _ _ (isMask_take hm1 (by omega)) (hrunfit _)⟩
    · exact ⟨rfl, hone _ _ hm1⟩
    · have h6 := Nat.mod_le ((B + 2) * 64) (2 ^ 64)
      exact ⟨rfl, hone _ _ (isMask_setBit (isMask_resize hmask (by omega)) d
        (by rw [resize_length]; omega))⟩
    · have h6 := Nat.mod_le (B * 64) (2 ^ 64)
      exact ⟨rfl, hone _ _ (isMask_setBit hmask d (by omega))⟩
    · exact ⟨rfl, htwo _ _ _ _ _ hmask hsingle⟩

theorem written_snoc (init : List Nat) (id : Nat) :
    written (init ++ [id]) = pushTyped (written init) id := by
  simp [written, List.foldl_append]

theorem pushTyped_snoc (tb0 : List (Block × BlockType)) (f : Nat) (t : List Nat)
    (k : BlockType) (id : Nat) :
    pushTyped (tb0 ++ [((f, t), k)]) id = tb0 ++ (grow f t id).zip (growTypes k f t id) := by
  simp [pushTyped]

/-- The blocks of `written ids` are the blocks of the state that the accepted pushes `ids`
reach, and each of them has the layout of the type in which it was written. -/
theorem written_spec (ids : List Nat) :
    ids ≠ [] → ∀ s, pushAll fixedIdset.default ids = .returned s →
      s = ofBlocks (ids.length % 2 ^ 64) ((written ids).map Prod.fst) ∧ written ids ≠ [] ∧
      ∀ p ∈ written ids, Fits p.1.2 p.2 ∧ p.1.2.length < 2 ^ 58 := by
  induction ids using List.reverseRecOn with
  | nil => intro h; exact absurd rfl h
  | append_singleton init id ih =>
    intro _ s hp
    by_cases hi : init = []
    · subst hi
      simp only [List.nil_append, pushAll, push_default, Outcome.returned.injEq] at hp
      subst hp
      refine ⟨rfl, by simp [written, pushTyped], ?_⟩
      intro p hp
      simp only [written, List.nil_append, List.foldl_cons, List.foldl_nil, pushTyped,
        List.getLast?_nil, List.mem_singleton] at hp
      rw [hp]
      exact ⟨rfl, by simp⟩
    · rw [pushAll_append] at hp
      cases h0 : pushAll fixedIdset.default init with
      | invalid_argument s0 => rw [h0] at hp; simp at hp
      | undefined => rw [h0] at hp; simp at hp
      | returned s0 =>
        rw [h0] at hp
        simp only [pushAll] at hp
        have hps : push s0 id = .returned s := by
          cases hq : push s0 id <;> rw [hq] at hp <;> simp at hp
          rw [hp]
        obtain ⟨hs0, hne, hall⟩ := ih hi s0 h0
        obtain ⟨tb0, ⟨⟨f, t⟩, k⟩, htb⟩ : ∃ tb0 q, written init = tb0 ++ [q] := by
          obtain ⟨tb0, q, h⟩ := (List.eq_nil_or_concat _).resolve_left hne
          exact ⟨tb0, q, by rw [h, List.concat_eq_append]⟩
        rw [htb, List.map_append, List.map_singleton] at hs0
        have hft : Fits t k ∧ t.length < 2 ^ 58 := hall ((f, t), k) (by rw [htb]; simp)
        rw [hs0] at hps
        obtain ⟨_, hs⟩ := push_returned_ofBlocks hps
        obtain ⟨hlen, hfit⟩ := grow_fits k f t id hft.1 hft.2
        have hm : 2 ≤ t.length → IsMask t := by
          intro h2
          have h3 := fits_iff hft.1
          cases k with
          | single => rw [h3.1.mp rfl] at h2; simp at h2
          | continuous =>
            obtain ⟨w, hw, _⟩ := h3.2.2.mp rfl
            rw [hw] at h2; simp at h2
          | bitmask => exact h3.2.1.mp rfl
        obtain ⟨_, _, _, _, hshape, _⟩ := grow_shape f t id hm hft.2
        rw [written_snoc, htb, pushTyped_snoc]
        refine ⟨?_, ?_, ?_⟩
        rotate_left
        · intro hc
          have h1 := congrArg List.length hc
          simp only [List.length_append, List.length_zip, hlen, Nat.min_self,
            List.length_nil] at h1
          have := List.length_pos.mpr (grow_ne_nil f t id)
          omega
        · intro p hp
          rcases List.mem_append.mp hp with h | h
          · exact hall p (by rw [htb]; exact List.mem_append_left _ h)
          · refine ⟨hfit p h, ?_⟩
            have hmem : p.1 ∈ grow f t id := (List.of_mem_zip (a := p.1) (b := p.2) h).1
            exact (hshape p.1 hmem).2
        · rw [hs, List.map_append, List.map_fst_zip _ _ (by omega), List.length_append,
            List.length_singleton]
          congr 1
          omega

/-- C12: in every state reached from the empty set by successful pushes, the odd/even test
of `hasId` and `getIds` on the first tail word recovers the type in which `innPush` wrote
each block (`written` follows the branches of `innPush`, and its blocks are the blocks of
the state): a block has no tail word exactly when it was written as a single id block; a
block with two or more tail words was written as a bitmask block and its first tail word is
odd; and the first tail word of a block is odd exactly when the block was written as a
bitmask block and even exactly when it was written as a continuous (run) block, so a single
tail word is an odd bitmask word or an even run-count word, never the other way round. -/
theorem format_discriminant (ids : List Nat) (hbd : ∀ x ∈ ids, x < 2 ^ 64) (s : fixedIdset)
    (hp : pushAll fixedIdset.default ids = .returned s) :
    s.m_idOff.length = (written ids).length ∧
    (ids ≠ [] → s = ofBlocks (ids.length % 2 ^ 64) ((written ids).map Prod.fst)) ∧
    ∀ (i o k : Nat) (ty : BlockType), s.m_idOff[i]? = some o → blockBufCount s i = some k →
      ((written ids).map Prod.snd)[i]? = some ty →
      (k = 0 ↔ ty = .single) ∧ (2 ≤ k → ty = .bitmask) ∧
      (1 ≤ k → ∃ w, s.m_idBuf[o + 1]? = some w ∧ (2 ≤ k → w &&& 1 ≠ 0) ∧
        (w &&& 1 ≠ 0 ↔ ty = .bitmask) ∧ (w &&& 1 = 0 ↔ ty = .continuous)) := by
  by_cases hne : ids = []
  · subst hne
    simp only [pushAll, Outcome.returned.injEq] at hp
    subst hp
    refine ⟨rfl, fun h => absurd rfl h, fun i o k ty ho => ?_⟩
    simp [fixedIdset.default] at ho
  · obtain ⟨hs, _, hall⟩ := written_spec ids hne s hp
    refine ⟨by rw [hs, ofBlocks_off_length, List.length_map], fun _ => hs, ?_⟩
    intro i o k ty ho hk hty
    generalize hbs : (written ids).map Prod.fst = bs at hs
    generalize hc : ids.length % 2 ^ 64 = c at hs
    subst hs
    have hi : i < bs.length := by
      rw [← ofBlocks_off_length c bs]
      exact (List.getElem?_eq_some_iff.mp ho).1
    have hiw : i < (written ids).length := by rw [← hbs, List.length_map] at hi; exact hi
    obtain ⟨o1, h1, h2, _, h4⟩ := block_view c bs i hi
    rw [ho, Option.some.injEq] at h1
    subst h1
    rw [hk, Option.some.injEq] at h2
    generalize hb : bs[i] = b at h2 h4
    -- the block and its type come from the same entry of `written ids`
    have hfit : Fits b.2 ty := by
      have hmem := hall (written ids)[i] (List.getElem_mem hiw)
      have e1 : ((written ids)[i]).1 = b := by
        rw [← hb]
        simp only [← hbs, List.getElem_map]
      have e2 : ((written ids)[i]).2 = ty := by
        rw [List.getElem?_eq_getElem (by rw [List.length_map]; exact hiw),
          Option.some.injEq, List.getElem_map] at hty
        exact hty
      rw [← e1, ← e2]
      exact hmem.1
    obtain ⟨f1, f2, f3⟩ := fits_iff hfit
    have hword : ∀ x r, b.2 = x :: r → (ofBlocks c bs).m_idBuf[o + 1]? = some x := by
      intro x r hx
      have := h4 0 (by rw [hx]; simp)
      rw [Nat.add_zero, hx] at this
      simpa using this
    refine ⟨?_, ?_, ?_⟩
    · rw [f1, h2]
      exact List.length_eq_zero
    · intro hk2
      cases ty with
      | single => rw [f1.mp rfl] at h2; simp at h2; omega
      | continuous =>
        obtain ⟨w, hw, _⟩ := f3.mp rfl
        rw [hw] at h2; simp at h2; omega
      | bitmask => rfl
    · intro hk1
      cases hb2 : b.2 with
      | nil => rw [hb2] at h2; simp at h2; omega
      | cons x r =>
        refine ⟨x, hword x r hb2, ?_, ?_, ?_⟩
        · intro hk2
          have hty2 : ty = .bitmask := by
            cases ty with
            | single => rw [f1.mp rfl] at hb2; simp at hb2
            | continuous =>
              obtain ⟨w, hw, _⟩ := f3.mp rfl
              rw [hw] at h2; simp at h2; omega
            | bitmask => rfl
          obtain ⟨w, r1, hw, hodd⟩ := f2.mp hty2
          rw [hb2] at hw
          simp only [List.cons.injEq] at hw
          rw [hw.1]; exact hodd
        · constructor
          · intro hodd
            cases ty with
            | single => rw [f1.mp rfl] at hb2; simp at hb2
            | continuous =>
              obtain ⟨w, hw, hev⟩ := f3.mp rfl
              rw [hb2] at hw
              simp only [List.cons.injEq] at hw
              rw [hw.1] at hodd
              exact absurd hev hodd
            | bitmask => rfl
          · intro hty2
            obtain ⟨w, r1, hw, hodd⟩ := f2.mp hty2
            rw [hb2] at hw
            simp only [List.cons.injEq] at hw
            rw [hw.1]; exact hodd
        · constructor
          · intro hev
            cases ty with
            | single => rw [f1.mp rfl] at hb2; simp at hb2
            | continuous => rfl
            | bitmask =>
              obtain ⟨w, r1, hw, hodd⟩ := f2.mp rfl
              rw [hb2] at hw
              simp only [List.cons.injEq] at hw
              rw [hw.1] at hev
              exact absurd hev hodd
          · intro hty2
            obtain ⟨w, hw, hev⟩ := f3.mp hty2
            rw [hb2] at hw
            simp only [List.cons.injEq] at hw
            rw [hw.1]; exact hev

theorem format_discriminant_witness :
    (∀ x ∈ ([5, 6, 7] : List Nat), x < 2 ^ 64) ∧
    pushAll fixedIdset.default [5, 6, 7] = .returned ⟨[1], [3, 5, 7]⟩ ∧
    written [5, 6, 7] = [((5, [7]), .bitmask)] ∧
    written (List.range 256) = [((0, [512]), .continuous)] ∧
    written [0, 1000] = [((0, []), .single), ((1000, []), .single)] ∧
    ((⟨[1], [3, 5, 7]⟩ : fixedIdset).m_idOff.length = (written [5, 6, 7]).length ∧
    (([5, 6, 7] : List Nat) ≠ [] → (⟨[1], [3, 5, 7]⟩ : fixedIdset)
      = ofBlocks (([5, 6, 7] : List Nat).length % 2 ^ 64) ((written [5, 6, 7]).map Prod.fst)) ∧
    ∀ (i o k : Nat) (ty : BlockType), (⟨[1], [3, 5, 7]⟩ : fixedIdset).m_idOff[i]? = some o →
      blockBufCount ⟨[1], [3, 5, 7]⟩ i = some k →
      ((written [5, 6, 7]).map Prod.snd)[i]? = some ty →
      (k = 0 ↔ ty = .single) ∧ (2 ≤ k → ty = .bitmask) ∧
      (1 ≤ k → ∃ w, (⟨[1], [3, 5, 7]⟩ : fixedIdset).m_idBuf[o + 1]? = some w ∧
        (2 ≤ k → w &&& 1 ≠ 0) ∧
        (w &&& 1 ≠ 0 ↔ ty = .bitmask) ∧ (w &&& 1 = 0 ↔ ty = .continuous))) :=
  ⟨by decide, by decide, by decide, by decide!, by decide,
    format_discriminant [5, 6, 7] (by decide) ⟨[1], [3, 5, 7]⟩ (by decide)⟩
